import Mathlib

/-!
# gocollections: the binary-heap priority queue and the array list

A shallow embedding of `queue/priorityqueue/pq.go` and a verification of its
heap-order, permutation and drain-order properties, followed by an embedding of
`list/arraylist/list.go` (namespace `AL`).

Modelling conventions.

* A Go slice `[]T` is a `List T`; Go's zero value of `T` (`var filler T`) is
  `default` of an `Inhabited T` instance.
* Go `int` sizes and indices are `Nat`: they are never negative in the code and
  are bounded by a slice length, so no overflow can occur.
* `compare` and `equals` take `*T` in Go and only read through the pointers;
  they are modelled as pure functions `T → T → Bool`. A `nil` function value is
  `none`.
* `panic(msg)` is `Except.error msg`. Every panic of the package is raised by
  the first statement of its method, so the receiver of a panicking call keeps
  its fields; `run` pairs the receiver after a call with the call's outcome.
* A slice read `heap[i]` is `heap.getD i default` and a slice write is
  `List.set`; both coincide with Go whenever `i < len(heap)`, which holds in
  every state satisfying the representation invariant `WF`.
* The `for` loops of `siftUp` and `siftDown` are recursions on a fuel counter
  initialised to `size`, which is never exhausted for `start ≥ 1`
  (`siftDownLoop_fuel`, `siftUpLoop_fuel`).
-/

set_option autoImplicit false

namespace PQ

/-! ## Data model -/

/-- The struct `PriorityQueue[T]` of `pq.go`. -/
structure PriorityQueue (T : Type) where
  equals : Option (T → T → Bool)
  compare : T → T → Bool
  container : List T
  cap : Nat
  size : Nat

variable {T : Type} [Inhabited T]

/-- The Go parallel assignment `heap[i], heap[j] = heap[j], heap[i]`: both
right-hand sides are read first, then `heap[i]` and `heap[j]` are written. -/
def swap (heap : List T) (i j : Nat) : List T :=
  (heap.set i (heap.getD j default)).set j (heap.getD i default)

/-- The loop of `siftUp`, started at index `i`. -/
def siftUpLoop (compare : T → T → Bool) : Nat → Nat → List T → List T
  | 0, _, heap => heap
  | fuel + 1, i, heap =>
    if i > 1 then
      let parent := i >>> 1
      if compare (heap.getD i default) (heap.getD parent default) then
        siftUpLoop compare fuel parent (swap heap i parent)
      else
        heap
    else
      heap

/-- The function `siftUp(heap, size, compare)`. -/
def siftUp (heap : List T) (size : Nat) (compare : T → T → Bool) : List T :=
  siftUpLoop compare size size heap

/-- The child index selected by one iteration of `siftDown` at index `i`. -/
def pickChild (compare : T → T → Bool) (heap : List T) (size i : Nat) : Nat :=
  let child := i <<< 1
  if child + 1 ≤ size && compare (heap.getD (child + 1) default) (heap.getD child default) then
    child + 1
  else
    child

/-- The loop of `siftDown`, started at index `i`. -/
def siftDownLoop (compare : T → T → Bool) (size : Nat) : Nat → Nat → List T → List T
  | 0, _, heap => heap
  | fuel + 1, i, heap =>
    if i <<< 1 ≤ size then
      let child := pickChild compare heap size i
      if compare (heap.getD child default) (heap.getD i default) then
        siftDownLoop compare size fuel child (swap heap child i)
      else
        heap
    else
      heap

/-- The function `siftDown(start, heap, size, compare)`. -/
def siftDown (start : Nat) (heap : List T) (size : Nat) (compare : T → T → Bool) : List T :=
  siftDownLoop compare size size start heap

/-- The function `New(compare)`. -/
def New (compare : T → T → Bool) : PriorityQueue T :=
  { equals := none, compare := compare, container := [default], cap := 0, size := 0 }

/-- Go's builtin `copy(dst, src)`: the first `min(len(dst), len(src))` slots of
`dst` are overwritten by those of `src`. -/
def copy (dst src : List T) : List T :=
  src.take dst.length ++ dst.drop src.length

/-- The loop `for i := size >> 1; i > 0; i-- { siftDown(i, container, size, compare) }`
of `Heapify` and `ForEach`, with `i` the first argument. -/
def heapifyLoop (compare : T → T → Bool) (size : Nat) : Nat → List T → List T
  | 0, container => container
  | i + 1, container => heapifyLoop compare size i (siftDown (i + 1) container size compare)

/-- The function `Heapify(elements, compare)`. -/
def Heapify (elements : List T) (compare : T → T → Bool) : PriorityQueue T :=
  let size := elements.length
  let container := copy (List.replicate (size + 1) default) elements
  let container := swap container 0 size
  let container := heapifyLoop compare size (size >>> 1) container
  { equals := none, compare := compare, container := container, cap := size, size := size }

/-- The method `SetEqualityComparer`; the argument is a Go function value, `none`
when the caller passes `nil`. -/
def SetEqualityComparer (pq : PriorityQueue T) (equals : Option (T → T → Bool)) :
    PriorityQueue T :=
  { pq with equals := equals }

/-- The method `Size`. -/
def Size (pq : PriorityQueue T) : Nat := pq.size

/-- The method `Empty`. -/
def Empty (pq : PriorityQueue T) : Bool := pq.size == 0

/-- The method `Enqueue`. -/
def Enqueue (pq : PriorityQueue T) (element : T) : PriorityQueue T :=
  let size := pq.size + 1
  if pq.cap < size then
    let container := pq.container ++ [element]
    { pq with size := size, cap := pq.cap + 1, container := siftUp container size pq.compare }
  else
    let container := pq.container.set size element
    { pq with size := size, container := siftUp container size pq.compare }

/-- The method `Dequeue`. -/
def Dequeue (pq : PriorityQueue T) : Except String (PriorityQueue T) :=
  if pq.size = 0 then
    .error "Cannot Dequeue. PriorityQueue is empty"
  else
    let container := swap pq.container 1 pq.size
    let size := pq.size - 1
    .ok { pq with size := size, container := siftDown 1 container size pq.compare }

/-- The method `Peek` (the value behind the returned reference). -/
def Peek (pq : PriorityQueue T) : Except String T :=
  if pq.size = 0 then
    .error "Cannot Peek. PriorityQueue is empty"
  else
    .ok (pq.container.getD 1 default)

/-- The method `Add`. -/
def Add (pq : PriorityQueue T) (element : T) : Bool × PriorityQueue T :=
  (true, Enqueue pq element)

/-- The scan `for ; i <= pq.size; i++ { if pq.equals(&pq.container[i], &element) { break } }`
of `Remove`: the first argument counts the indices still to visit, the result is
the value of `i` after the loop. -/
def scan (equals : T → T → Bool) (container : List T) (element : T) : Nat → Nat → Nat
  | 0, i => i
  | n + 1, i => if equals (container.getD i default) element then i else
      scan equals container element n (i + 1)

/-- The method `Remove`. -/
def Remove (pq : PriorityQueue T) (element : T) : Except String (Bool × PriorityQueue T) :=
  match pq.equals with
  | none => .error "Cannot Remove. Equality comparer was not set"
  | some equals =>
    let i := scan equals pq.container element pq.size 1
    if i > pq.size then
      .ok (false, pq)
    else
      let container := swap pq.container i pq.size
      let size := pq.size - 1
      .ok (true, { pq with size := size, container := siftDown i container size pq.compare })

/-- The loop `for i := 1; i <= pq.size; i++ { if pq.equals(&pq.container[i], &element) { return true } }`
of `Contains` followed by `return false`: the first argument counts the indices
still to visit from index `i`. -/
def containsLoop (equals : T → T → Bool) (container : List T) (element : T) : Nat → Nat → Bool
  | 0, _ => false
  | n + 1, i => if equals (container.getD i default) element then true else
      containsLoop equals container element n (i + 1)

/-- The method `Contains`. -/
def Contains (pq : PriorityQueue T) (element : T) : Except String Bool :=
  match pq.equals with
  | none => .error "Cannot execute Contains. Equality comparer was not set"
  | some equals => .ok (containsLoop equals pq.container element pq.size 1)

/-- The method `Clear`. -/
def Clear (pq : PriorityQueue T) : PriorityQueue T :=
  { pq with size := 0 }

/-- The first loop of `ForEach`: `do` is applied in place to the slots `1..size`,
the first argument counting the slots still to visit from index `i`. -/
def applyLoop (f : T → T) : Nat → Nat → List T → List T
  | 0, _, container => container
  | n + 1, i, container => applyLoop f n (i + 1) (container.set i (f (container.getD i default)))

/-- The method `ForEach`; the callback `do func(*T)` is modelled by the function
`f` giving the value it leaves behind the pointer. -/
def ForEach (pq : PriorityQueue T) (f : T → T) : PriorityQueue T :=
  let container := applyLoop f pq.size 1 pq.container
  { pq with container := heapifyLoop pq.compare pq.size (pq.size >>> 1) container }

/-- Draining as the test helper `verifyPq` does it: `n` times, read `Peek` and
call `Dequeue`; the elements read are returned with the final queue. -/
def drain : Nat → PriorityQueue T → Except String (List T × PriorityQueue T)
  | 0, pq => .ok ([], pq)
  | n + 1, pq =>
    match Peek pq with
    | .error e => .error e
    | .ok t =>
      match Dequeue pq with
      | .error e => .error e
      | .ok pq1 =>
        match drain n pq1 with
        | .error e => .error e
        | .ok (rest, pq2) => .ok (t :: rest, pq2)

/-- Enqueueing the elements of `xs` one by one, first to last. -/
def enqueueAll (pq : PriorityQueue T) (xs : List T) : PriorityQueue T :=
  xs.foldl Enqueue pq

/-- The comparator of the tests, `s0.Prop < s1.Prop`. -/
def lt (a b : Int) : Bool := decide (a < b)

/-- The equality comparer of the tests, `s0.Prop == s1.Prop`. -/
def eqInt (a b : Int) : Bool := decide (a = b)

/-! ## Specification vocabulary -/

/-- A strict weak ordering: irreflexive, transitive and negatively transitive. -/
structure StrictWeakOrder (compare : T → T → Bool) : Prop where
  irrefl : ∀ a, compare a a = false
  trans : ∀ a b c, compare a b = true → compare b c = true → compare a c = true
  negTrans : ∀ a b c, compare a b = false → compare b c = false → compare a c = false

/-- Heap order on `heap[1..size]`: no child outranks its parent. -/
def HeapOrdered (compare : T → T → Bool) (heap : List T) (size : Nat) : Prop :=
  ∀ i c, 1 ≤ i → i ≤ size → (c = 2 * i ∨ c = 2 * i + 1) → c ≤ size →
    compare (heap.getD c default) (heap.getD i default) = false

/-- Heap order restricted to the parent-child pairs whose parent index is at
least `k`. -/
def HeapFrom (compare : T → T → Bool) (heap : List T) (size k : Nat) : Prop :=
  ∀ c, 2 ≤ c → c ≤ size → k ≤ c / 2 →
    compare (heap.getD c default) (heap.getD (c / 2) default) = false

/-- The representation invariant of the struct: one sentinel slot in front of
`cap` element slots, of which the first `size` are in use. -/
structure WF (pq : PriorityQueue T) : Prop where
  len : pq.container.length = pq.cap + 1
  le : pq.size ≤ pq.cap

/-- The slots `heap[1..size]` of a backing array. -/
def slots (heap : List T) (size : Nat) : List T :=
  (heap.drop 1).take size

/-- The logical contents `container[1..size]` of a queue. -/
def logical (pq : PriorityQueue T) : List T :=
  slots pq.container pq.size

/-- No later element of the list outranks an earlier one. -/
def DrainOrdered (compare : T → T → Bool) (ys : List T) : Prop :=
  ys.Pairwise (fun a b => compare b a = false)

/-- The backing array of `Enqueue` just before the call of `siftUp`. -/
def enqueuePlaced (pq : PriorityQueue T) (element : T) : List T :=
  if pq.cap < pq.size + 1 then pq.container ++ [element]
  else pq.container.set (pq.size + 1) element

/-- The elements read by `drain`, or `none` if a call panicked. -/
def drained (n : Nat) (pq : PriorityQueue T) : Option (List T) :=
  match drain n pq with
  | .ok (ys, _) => some ys
  | .error _ => none

/-- The outcome of `Remove` with the queue projected to its size and backing
array, or `none` if the call panicked. -/
def removed (pq : PriorityQueue T) (element : T) : Option (Bool × Nat × List T) :=
  match Remove pq element with
  | .ok (b, q) => some (b, q.size, q.container)
  | .error _ => none

/-- The states reachable from `New` or `Heapify` by calls of the public
methods. `Peek`, `Contains`, `Size` and `Empty` do not change the state, and a
call that panics leaves it unchanged. -/
inductive Reachable : PriorityQueue T → Prop where
  | new (compare : T → T → Bool) : Reachable (New compare)
  | heapify (elements : List T) (compare : T → T → Bool) : Reachable (Heapify elements compare)
  | setEqualityComparer {pq : PriorityQueue T} (equals : Option (T → T → Bool)) :
      Reachable pq → Reachable (SetEqualityComparer pq equals)
  | enqueue {pq : PriorityQueue T} (x : T) : Reachable pq → Reachable (Enqueue pq x)
  | add {pq : PriorityQueue T} (x : T) : Reachable pq → Reachable (Add pq x).2
  | dequeue {pq q : PriorityQueue T} : Reachable pq → Dequeue pq = .ok q → Reachable q
  | remove {pq q : PriorityQueue T} (x : T) (b : Bool) :
      Reachable pq → Remove pq x = .ok (b, q) → Reachable q
  | clear {pq : PriorityQueue T} : Reachable pq → Reachable (Clear pq)
  | forEach {pq : PriorityQueue T} (f : T → T) : Reachable pq → Reachable (ForEach pq f)

/-- The heap invariant in the words of the specification's testable
properties: `compare(element[i], element[child])` holds for every existing
child of every index `i` in `[1,size]`. -/
def SpecHeapInvariant (compare : T → T → Bool) (heap : List T) (size : Nat) : Prop :=
  ∀ i c, 1 ≤ i → i ≤ size → (c = 2 * i ∨ c = 2 * i + 1) → c ≤ size →
    compare (heap.getD i default) (heap.getD c default) = true

/-- A heap-ordered queue of the test comparator used to exercise the methods:
`Heapify([14,16,5,23,7,10], compare)` of `Test_HeapifyShouldCorrectlyOrder_GivenArray`. -/
def testQueue : PriorityQueue Int :=
  Heapify [14, 16, 5, 23, 7, 10] lt

/-- The queue `Heapify([1,2,4,3,5,6], compare)` with the equality comparer set. -/
def removeQueue6 : PriorityQueue Int :=
  SetEqualityComparer (Heapify [1, 2, 4, 3, 5, 6] lt) (some eqInt)

/-- The queue `Heapify([1,2,4,3,5,6,7], compare)` with the equality comparer set. -/
def removeQueue7 : PriorityQueue Int :=
  SetEqualityComparer (Heapify [1, 2, 4, 3, 5, 6, 7] lt) (some eqInt)

/-- What a call of a public method hands back to its caller: nothing, a
boolean, an integer, the element behind the reference returned by `Peek`, or a
panic with its message. -/
inductive Outcome (T : Type) where
  | done : Outcome T
  | bool (b : Bool) : Outcome T
  | int (n : Nat) : Outcome T
  | ref (t : T) : Outcome T
  | fault (msg : String) : Outcome T

/-- A call of a public method with its arguments. -/
inductive Call (T : Type) where
  | setEqualityComparer (equals : Option (T → T → Bool)) : Call T
  | size : Call T
  | empty : Call T
  | enqueue (x : T) : Call T
  | dequeue : Call T
  | peek : Call T
  | add (x : T) : Call T
  | remove (x : T) : Call T
  | contains (x : T) : Call T
  | clear : Call T
  | forEach (f : T → T) : Call T

/-- The receiver after a call and the outcome of the call. `Dequeue`, `Peek`,
`Remove` and `Contains` panic in their first statement, before any field is
assigned, and `Size`, `Empty`, `Peek` and `Contains` assign no field at all: in
these cases the receiver keeps the fields it had. -/
def run (pq : PriorityQueue T) : Call T → PriorityQueue T × Outcome T
  | .setEqualityComparer equals => (SetEqualityComparer pq equals, .done)
  | .size => (pq, .int (Size pq))
  | .empty => (pq, .bool (Empty pq))
  | .enqueue x => (Enqueue pq x, .done)
  | .dequeue =>
    match Dequeue pq with
    | .ok q => (q, .done)
    | .error msg => (pq, .fault msg)
  | .peek =>
    match Peek pq with
    | .ok t => (pq, .ref t)
    | .error msg => (pq, .fault msg)
  | .add x => ((Add pq x).2, .bool (Add pq x).1)
  | .remove x =>
    match Remove pq x with
    | .ok (b, q) => (q, .bool b)
    | .error msg => (pq, .fault msg)
  | .contains x =>
    match Contains pq x with
    | .ok b => (pq, .bool b)
    | .error msg => (pq, .fault msg)
  | .clear => (Clear pq, .done)
  | .forEach f => (ForEach pq f, .done)

/-- The queue of `Test_ForEachShouldExecuteGivenOperationOnEachElementAndCorrectlyReorder`:
`Heapify([14,16,23,7,5,10], compare)`. -/
def forEachQueue : PriorityQueue Int :=
  Heapify [14, 16, 23, 7, 5, 10] lt

/-- The callback of that test, `v.Prop *= -1`. -/
def negate (v : Int) : Int := v * -1

/-- The queue of `Test_RemoveShouldRemoveFirstOccurrenceOfGivenValueAndReturnTrue`:
`Heapify([14,16,5,23,7,5,10,5], compare)` with the equality comparer set. -/
def removeTestQueue : PriorityQueue Int :=
  SetEqualityComparer (Heapify [14, 16, 5, 23, 7, 5, 10, 5] lt) (some eqInt)

/-- The queue of `Test_RemoveShouldReturnFalse_IfGivenValueDoesNotExist` and of
the `Contains` tests: `Heapify([16,14,23], compare)` with the equality comparer
set. -/
def smallQueue : PriorityQueue Int :=
  SetEqualityComparer (Heapify [16, 14, 23] lt) (some eqInt)

/-- The states reachable from `New` or `Heapify` by any sequence of calls of
public methods, the calls that panic included. -/
inductive ReachableByCalls : PriorityQueue T → Prop where
  | new (compare : T → T → Bool) : ReachableByCalls (New compare)
  | heapify (elements : List T) (compare : T → T → Bool) :
      ReachableByCalls (Heapify elements compare)
  | call {pq : PriorityQueue T} (c : Call T) :
      ReachableByCalls pq → ReachableByCalls (run pq c).1

/-- Two backing arrays hold the same elements in the slots `1..size`. -/
def Agree (h1 h2 : List T) (size : Nat) : Prop :=
  ∀ k, 1 ≤ k → k ≤ size → h1.getD k default = h2.getD k default

/-- Two queues with the same comparator, the same size and the same logical
contents `container[1..size]`, both satisfying the representation invariant;
their capacities, sentinel slots and slots beyond `size` may differ. -/
structure Similar (q1 q2 : PriorityQueue T) : Prop where
  compare : q1.compare = q2.compare
  size : q1.size = q2.size
  wf1 : WF q1
  wf2 : WF q2
  agree : Agree q1.container q2.container q1.size

/-- The queue of `Test_ClearShouldResetPriorityQueue` before its calls of
`Enqueue`: `Heapify([16,14,23], compare)` after `Clear()`. -/
def clearedQueue : PriorityQueue Int :=
  Clear (Heapify [16, 14, 23] lt)

/-! ### The methods with every slice access audited

The definitions above read a slice with `getD` and write it with `List.set`,
which hide Go's run-time panic on an index outside the slice. The definitions
below are the same functions with every index expression `heap[i]` audited
against the range `[1, len(heap)-1]`: an access outside it aborts the call with
`outOfRange`. Go panics on an access outside `[0, len(heap)-1]`, so a call that
passes the audit performs no out-of-range access. -/

/-- The message of Go's run-time panic on an index outside a slice. -/
def outOfRange : String := "runtime error: index out of range"

/-- Sequencing of two steps, the second skipped when the first panics. -/
def andThen {α β : Type} (r : Except String α) (f : α → Except String β) : Except String β :=
  match r with
  | .ok a => f a
  | .error msg => .error msg

/-- The audited read `heap[i]`. -/
def readAt (heap : List T) (i : Nat) : Except String T :=
  if 1 ≤ i ∧ i < heap.length then .ok (heap.getD i default) else .error outOfRange

/-- The audited write `heap[i] = v`. -/
def writeAt (heap : List T) (i : Nat) (v : T) : Except String (List T) :=
  if 1 ≤ i ∧ i < heap.length then .ok (heap.set i v) else .error outOfRange

/-- The audited `heap[i], heap[j] = heap[j], heap[i]`. -/
def swapChecked (heap : List T) (i j : Nat) : Except String (List T) :=
  andThen (readAt heap j) fun a =>
  andThen (readAt heap i) fun b =>
  andThen (writeAt heap i a) fun h1 =>
  writeAt h1 j b

/-- The audited loop of `siftUp`. -/
def siftUpLoopChecked (compare : T → T → Bool) : Nat → Nat → List T → Except String (List T)
  | 0, _, heap => .ok heap
  | fuel + 1, i, heap =>
    if i > 1 then
      let parent := i >>> 1
      andThen (readAt heap i) fun a =>
      andThen (readAt heap parent) fun b =>
      if compare a b then
        andThen (swapChecked heap i parent) fun h1 =>
        siftUpLoopChecked compare fuel parent h1
      else
        .ok heap
    else
      .ok heap

/-- The audited `siftUp`. -/
def siftUpChecked (heap : List T) (size : Nat) (compare : T → T → Bool) :
    Except String (List T) :=
  siftUpLoopChecked compare size size heap

/-- The audited choice of the child in `siftDown`; `&&` evaluates its second
operand, with its two reads, only when `child+1 <= size`. -/
def pickChildChecked (compare : T → T → Bool) (heap : List T) (size i : Nat) :
    Except String Nat :=
  let child := i <<< 1
  if child + 1 ≤ size then
    andThen (readAt heap (child + 1)) fun a =>
    andThen (readAt heap child) fun b =>
    .ok (if compare a b then child + 1 else child)
  else
    .ok child

/-- The audited loop of `siftDown`. -/
def siftDownLoopChecked (compare : T → T → Bool) (size : Nat) :
    Nat → Nat → List T → Except String (List T)
  | 0, _, heap => .ok heap
  | fuel + 1, i, heap =>
    if i <<< 1 ≤ size then
      andThen (pickChildChecked compare heap size i) fun child =>
      andThen (readAt heap child) fun a =>
      andThen (readAt heap i) fun b =>
      if compare a b then
        andThen (swapChecked heap child i) fun h1 =>
        siftDownLoopChecked compare size fuel child h1
      else
        .ok heap
    else
      .ok heap

/-- The audited `siftDown`. -/
def siftDownChecked (start : Nat) (heap : List T) (size : Nat) (compare : T → T → Bool) :
    Except String (List T) :=
  siftDownLoopChecked compare size size start heap

/-- The audited `Enqueue`; `append` is not an index expression. -/
def EnqueueChecked (pq : PriorityQueue T) (element : T) : Except String (PriorityQueue T) :=
  let size := pq.size + 1
  if pq.cap < size then
    andThen (siftUpChecked (pq.container ++ [element]) size pq.compare) fun container =>
    .ok { pq with size := size, cap := pq.cap + 1, container := container }
  else
    andThen (writeAt pq.container size element) fun placed =>
    andThen (siftUpChecked placed size pq.compare) fun container =>
    .ok { pq with size := size, container := container }

/-- The audited `Add`. -/
def AddChecked (pq : PriorityQueue T) (element : T) : Except String (Bool × PriorityQueue T) :=
  andThen (EnqueueChecked pq element) fun q => .ok (true, q)

/-- The audited `Dequeue`. -/
def DequeueChecked (pq : PriorityQueue T) : Except String (PriorityQueue T) :=
  if pq.size = 0 then
    .error "Cannot Dequeue. PriorityQueue is empty"
  else
    andThen (swapChecked pq.container 1 pq.size) fun swapped =>
    andThen (siftDownChecked 1 swapped (pq.size - 1) pq.compare) fun container =>
    .ok { pq with size := pq.size - 1, container := container }

/-- The audited `Peek`. -/
def PeekChecked (pq : PriorityQueue T) : Except String T :=
  if pq.size = 0 then
    .error "Cannot Peek. PriorityQueue is empty"
  else
    readAt pq.container 1

/-- The audited scan of `Remove`. -/
def scanChecked (equals : T → T → Bool) (container : List T) (element : T) :
    Nat → Nat → Except String Nat
  | 0, i => .ok i
  | n + 1, i =>
    andThen (readAt container i) fun a =>
    if equals a element then .ok i else scanChecked equals container element n (i + 1)

/-- The audited `Remove`. -/
def RemoveChecked (pq : PriorityQueue T) (element : T) :
    Except String (Bool × PriorityQueue T) :=
  match pq.equals with
  | none => .error "Cannot Remove. Equality comparer was not set"
  | some equals =>
    andThen (scanChecked equals pq.container element pq.size 1) fun i =>
    if i > pq.size then
      .ok (false, pq)
    else
      andThen (swapChecked pq.container i pq.size) fun swapped =>
      andThen (siftDownChecked i swapped (pq.size - 1) pq.compare) fun container =>
      .ok (true, { pq with size := pq.size - 1, container := container })

/-- The audited loop of `Contains`. -/
def containsLoopChecked (equals : T → T → Bool) (container : List T) (element : T) :
    Nat → Nat → Except String Bool
  | 0, _ => .ok false
  | n + 1, i =>
    andThen (readAt container i) fun a =>
    if equals a element then .ok true
    else containsLoopChecked equals container element n (i + 1)

/-- The audited `Contains`. -/
def ContainsChecked (pq : PriorityQueue T) (element : T) : Except String Bool :=
  match pq.equals with
  | none => .error "Cannot execute Contains. Equality comparer was not set"
  | some equals => containsLoopChecked equals pq.container element pq.size 1

/-- The audited first loop of `ForEach`: `&pq.container[i]` is an index
expression, read by `do` and written through the pointer. -/
def applyLoopChecked (f : T → T) : Nat → Nat → List T → Except String (List T)
  | 0, _, container => .ok container
  | n + 1, i, container =>
    andThen (readAt container i) fun a =>
    andThen (writeAt container i (f a)) fun c1 =>
    applyLoopChecked f n (i + 1) c1

/-- The audited re-heapify loop of `Heapify` and `ForEach`. -/
def heapifyLoopChecked (compare : T → T → Bool) (size : Nat) :
    Nat → List T → Except String (List T)
  | 0, container => .ok container
  | i + 1, container =>
    andThen (siftDownChecked (i + 1) container size compare) fun c1 =>
    heapifyLoopChecked compare size i c1

/-- The audited `ForEach`. -/
def ForEachChecked (pq : PriorityQueue T) (f : T → T) : Except String (PriorityQueue T) :=
  andThen (applyLoopChecked f pq.size 1 pq.container) fun applied =>
  andThen (heapifyLoopChecked pq.compare pq.size (pq.size >>> 1) applied) fun container =>
  .ok { pq with container := container }

/-- Index `k` lies in the subtree of the implicit binary tree rooted at `start`:
`k` divided by 2 repeatedly reaches `start`. -/
def inSubtree (start k : Nat) : Bool :=
  (List.range (k + 1)).any fun d => k / 2 ^ d == start

/-- The elements stored in the subtree rooted at `start`, within `heap[1..size]`,
by increasing index. -/
def subtreeSlots (heap : List T) (size start : Nat) : List T :=
  ((List.range' 1 size).filter (inSubtree start)).map fun k => heap.getD k default

/-! ## Step-counted execution

The loops above recurse on a counter that is known to bound their iterations.
The definitions below make no such assumption: every loop takes a budget `gas`
of evaluations of its loop condition and returns `none` when the budget runs out
before the loop has exited. -/

/-- The loop of `siftUp` under a budget. -/
def siftUpRun (compare : T → T → Bool) : Nat → Nat → List T → Option (List T)
  | 0, _, _ => none
  | gas + 1, i, heap =>
    if i > 1 then
      let parent := i >>> 1
      if compare (heap.getD i default) (heap.getD parent default) then
        siftUpRun compare gas parent (swap heap i parent)
      else
        some heap
    else
      some heap

/-- The loop of `siftDown` under a budget. -/
def siftDownRun (compare : T → T → Bool) (size : Nat) : Nat → Nat → List T → Option (List T)
  | 0, _, _ => none
  | gas + 1, i, heap =>
    if i <<< 1 ≤ size then
      let child := pickChild compare heap size i
      if compare (heap.getD child default) (heap.getD i default) then
        siftDownRun compare size gas child (swap heap child i)
      else
        some heap
    else
      some heap

/-- The loop `for i := size >> 1; i > 0; i--` of `Heapify` and `ForEach` under a
budget; every call of `siftDown` gets the budget `inner`. -/
def heapifyRun (compare : T → T → Bool) (size inner : Nat) : Nat → Nat → List T → Option (List T)
  | 0, _, _ => none
  | gas + 1, i, container =>
    if i > 0 then
      match siftDownRun compare size inner i container with
      | none => none
      | some container => heapifyRun compare size inner gas (i - 1) container
    else
      some container

/-- The scan of `Remove` under a budget; the result is the value of `i` after
the loop. -/
def scanRun (equals : T → T → Bool) (container : List T) (element : T) (size : Nat) :
    Nat → Nat → Option Nat
  | 0, _ => none
  | gas + 1, i =>
    if i ≤ size then
      if equals (container.getD i default) element then some i
      else scanRun equals container element size gas (i + 1)
    else
      some i

/-- The loop of `Contains` under a budget. -/
def containsRun (equals : T → T → Bool) (container : List T) (element : T) (size : Nat) :
    Nat → Nat → Option Bool
  | 0, _ => none
  | gas + 1, i =>
    if i ≤ size then
      if equals (container.getD i default) element then some true
      else containsRun equals container element size gas (i + 1)
    else
      some false

/-- The first loop of `ForEach` under a budget. -/
def applyRun (f : T → T) (size : Nat) : Nat → Nat → List T → Option (List T)
  | 0, _, _ => none
  | gas + 1, i, container =>
    if i ≤ size then
      applyRun f size gas (i + 1) (container.set i (f (container.getD i default)))
    else
      some container

/-- The function `Heapify` under a budget. -/
def HeapifyRun (gas : Nat) (elements : List T) (compare : T → T → Bool) :
    Option (PriorityQueue T) :=
  let size := elements.length
  let container := copy (List.replicate (size + 1) default) elements
  let container := swap container 0 size
  (heapifyRun compare size gas gas (size >>> 1) container).map fun container =>
    { equals := none, compare := compare, container := container, cap := size, size := size }

/-- The method `Enqueue` under a budget. -/
def EnqueueRun (gas : Nat) (pq : PriorityQueue T) (element : T) : Option (PriorityQueue T) :=
  let size := pq.size + 1
  if pq.cap < size then
    let container := pq.container ++ [element]
    (siftUpRun pq.compare gas size container).map fun container =>
      { pq with size := size, cap := pq.cap + 1, container := container }
  else
    let container := pq.container.set size element
    (siftUpRun pq.compare gas size container).map fun container =>
      { pq with size := size, container := container }

/-- The method `Dequeue` under a budget. -/
def DequeueRun (gas : Nat) (pq : PriorityQueue T) : Option (Except String (PriorityQueue T)) :=
  if pq.size = 0 then
    some (.error "Cannot Dequeue. PriorityQueue is empty")
  else
    let container := swap pq.container 1 pq.size
    let size := pq.size - 1
    (siftDownRun pq.compare size gas 1 container).map fun container =>
      .ok { pq with size := size, container := container }

/-- The method `Remove` under a budget. -/
def RemoveRun (gas : Nat) (pq : PriorityQueue T) (element : T) :
    Option (Except String (Bool × PriorityQueue T)) :=
  match pq.equals with
  | none => some (.error "Cannot Remove. Equality comparer was not set")
  | some equals =>
    match scanRun equals pq.container element pq.size gas 1 with
    | none => none
    | some i =>
      if i > pq.size then
        some (.ok (false, pq))
      else
        let container := swap pq.container i pq.size
        let size := pq.size - 1
        (siftDownRun pq.compare size gas i container).map fun container =>
          .ok (true, { pq with size := size, container := container })

/-- The method `Contains` under a budget. -/
def ContainsRun (gas : Nat) (pq : PriorityQueue T) (element : T) :
    Option (Except String Bool) :=
  match pq.equals with
  | none => some (.error "Cannot execute Contains. Equality comparer was not set")
  | some equals => (containsRun equals pq.container element pq.size gas 1).map fun b => .ok b

/-- The method `ForEach` under a budget. -/
def ForEachRun (gas : Nat) (pq : PriorityQueue T) (f : T → T) : Option (PriorityQueue T) :=
  match applyRun f pq.size gas 1 pq.container with
  | none => none
  | some container =>
    (heapifyRun pq.compare pq.size gas gas (pq.size >>> 1) container).map fun container =>
      { pq with container := container }

/-- The queue `Heapify([1,2,3], <)` with the equality comparer set: its container
is `[_,1,3,2]` with `cap = 3`. -/
def freshQueue : PriorityQueue Int :=
  SetEqualityComparer (Heapify [1, 2, 3] lt) (some eqInt)

/-- The same queue after `Enqueue(-5)`, `Dequeue()` and `SetEqualityComparer`:
its container is `[_,1,3,2,-5]` with `cap = 4`, the slot 4 holding the dequeued
element. -/
def staleQueue : PriorityQueue Int :=
  (run (run (run (Heapify [1, 2, 3] lt) (.enqueue (-5))).1 .dequeue).1
    (.setEqualityComparer (some eqInt))).1

end PQ

/-! # The array list of `list/arraylist/list.go`

Modelling conventions, beyond those of the priority queue.

* `size`, `cap` and the indices are Go `int`s that the code can drive below
  zero (`Remove` decrements `size` without testing it), so they are `Int`.
* A slice is the `List` of its `len` visible elements. Every index expression
  is checked as Go checks it and panics with `indexPanic` outside
  `[0, len-1]`. The slice expressions of `Insert`, `Remove` and `RemoveAt` only
  occur with bounds inside `[0, len]` in states with `size <= len(container)`,
  which `New`, `NewOfAny` and every method establish and preserve
  (`reachable_size_le`), so the
  capacity of the backing array never matters; there they are `List.take` and
  `List.drop`, and `append(a, b...)` is `a ++ b` (Go copies the overlapping
  source as if it had been read first).
* `ForEach` hands `do` a pointer to the loop variable; the effect of `do` on its
  environment is a state of type `σ` threaded through the calls. -/

namespace AL

/-- The struct `List[T]`. -/
structure ArrayList (T : Type) where
  equals : Option (T → T → Bool)
  container : List T
  size : Int
  cap : Int

variable {T : Type}

/-- The message of Go's run-time panic on an index outside a slice (Go appends
the index and the length). -/
def indexPanic : String := "runtime error: index out of range"

/-- The index expression `container[i]` read. -/
def readIndex (container : List T) (i : Int) : Except String T :=
  if 0 ≤ i then
    match container[i.toNat]? with
    | some v => .ok v
    | none => .error indexPanic
  else
    .error indexPanic

/-- The assignment `container[i] = v`. -/
def writeIndex (container : List T) (i : Int) (v : T) : Except String (List T) :=
  if 0 ≤ i ∧ i < container.length then .ok (container.set i.toNat v) else .error indexPanic

/-- The function `comparer.DefaultEquals`. -/
def DefaultEquals [DecidableEq T] (a b : T) : Bool := decide (a = b)

/-- The function `New(elements...)`; `make` and `copy` produce a copy of the
elements, and the container stays `nil` when there are none. -/
def New [DecidableEq T] (elements : List T) : ArrayList T :=
  let size : Int := elements.length
  { equals := some DefaultEquals
    container := if size > 0 then elements else []
    size := size
    cap := size }

/-- The function `NewOfAny(elements...)`. -/
def NewOfAny (elements : List T) : ArrayList T :=
  let size : Int := elements.length
  { equals := none
    container := if size > 0 then [] ++ elements else []
    size := size
    cap := size }

/-- The method `SetEqualityComparer`. -/
def SetEqualityComparer (l : ArrayList T) (equals : Option (T → T → Bool)) : ArrayList T :=
  { l with equals := equals }

/-- The method `isValidIndex`. -/
def isValidIndex (l : ArrayList T) (index : Int) : Bool :=
  decide (0 ≤ index) && decide (index < l.size)

/-- The method `At` (the value behind the returned reference). -/
def At (l : ArrayList T) (index : Int) : Except String T :=
  if !isValidIndex l index then
    .error ("List.At could not retrieve element because given index " ++ toString index ++
      " is out of range")
  else
    readIndex l.container index

/-- The method `Set`. -/
def Set (l : ArrayList T) (index : Int) (value : T) : Except String (ArrayList T) :=
  if !isValidIndex l index then
    .error ("List.Set could not set given value because given index " ++ toString index ++
      " is out of range")
  else
    match writeIndex l.container index value with
    | .ok container => .ok { l with container := container }
    | .error msg => .error msg

/-- The method `Size`. -/
def Size (l : ArrayList T) : Int := l.size

/-- The method `Empty`. -/
def Empty (l : ArrayList T) : Bool := decide (l.size = 0)

/-- The method `Front`. -/
def Front (l : ArrayList T) : Except String T :=
  if l.size = 0 then
    .error "ArrayList.Front failed because the list is empty"
  else
    readIndex l.container 0

/-- The method `Back`. -/
def Back (l : ArrayList T) : Except String T :=
  if l.size = 0 then
    .error "ArrayList.Back failed because the list is empty"
  else
    readIndex l.container (l.size - 1)

/-- The method `Add`. -/
def Add (l : ArrayList T) (element : T) : Except String (Bool × ArrayList T) :=
  if l.size = l.cap then
    .ok (true, { l with container := l.container ++ [element], cap := l.cap + 1,
                        size := l.size + 1 })
  else
    match writeIndex l.container l.size element with
    | .ok container => .ok (true, { l with container := container, size := l.size + 1 })
    | .error msg => .error msg

/-- The method `RemoveBack`. -/
def RemoveBack (l : ArrayList T) : Except String (ArrayList T) :=
  if l.size = 0 then
    .error "ArrayList.RemoveBack failed because the list is empty"
  else
    .ok { l with size := l.size - 1 }

/-- The method `Insert`. -/
def Insert (l : ArrayList T) (index : Int) (element : T) : Except String (Bool × ArrayList T) :=
  if index < 0 ∨ index > l.size then
    .ok (false, l)
  else if index = l.size then
    match Add l element with
    | .ok (_, l1) => .ok (true, l1)
    | .error msg => .error msg
  else
    let container := l.container.take (index.toNat + 1) ++ l.container.drop index.toNat
    match writeIndex container index element with
    | .ok container =>
      let size := l.size + 1
      .ok (true, { l with container := container, size := size,
                          cap := if size > l.cap then l.cap + 1 else l.cap })
    | .error msg => .error msg

/-- The method `AddToFront`. -/
def AddToFront (l : ArrayList T) (element : T) : Except String (ArrayList T) :=
  match Insert l 0 element with
  | .ok (_, l1) => .ok l1
  | .error msg => .error msg

/-- The loop `for i, v := range l.container` of `indexOf`, over the remaining
elements from index `i`, followed by `return -1`. -/
def indexLoop (equals : T → T → Bool) (element : T) : List T → Int → Int
  | [], _ => -1
  | v :: rest, i => if equals v element then i else indexLoop equals element rest (i + 1)

/-- The method `indexOf`. -/
def indexOf (l : ArrayList T) (element : T) : Except String Int :=
  match l.equals with
  | none => .error "Cannot compute equality of elements since equality comparer is not set"
  | some equals => .ok (indexLoop equals element l.container 0)

/-- The method `Remove`. -/
def Remove (l : ArrayList T) (element : T) : Except String (Bool × ArrayList T) :=
  match indexOf l element with
  | .error msg => .error msg
  | .ok elementIndex =>
    if elementIndex = -1 then
      .ok (false, l)
    else
      .ok (true, { l with
        container := l.container.take elementIndex.toNat ++
          l.container.drop (elementIndex.toNat + 1)
        size := l.size - 1 })

/-- The method `RemoveAt`. -/
def RemoveAt (l : ArrayList T) (index : Int) : Except String (ArrayList T) :=
  if !isValidIndex l index then
    .error ("ArrayList.RemoveAt cannot remove element at index " ++ toString index ++
      " because it is out of range")
  else
    .ok { l with
      container := l.container.take index.toNat ++ l.container.drop (index.toNat + 1)
      size := l.size - 1 }

/-- The method `RemoveFront`. -/
def RemoveFront (l : ArrayList T) : Except String (ArrayList T) :=
  RemoveAt l 0

/-- The method `IndexOf`. -/
def IndexOf (l : ArrayList T) (element : T) : Except String Int :=
  indexOf l element

/-- The method `Contains`. -/
def Contains (l : ArrayList T) (element : T) : Except String Bool :=
  match indexOf l element with
  | .ok i => .ok (decide (i ≠ -1))
  | .error msg => .error msg

/-- The method `Clear`. -/
def Clear (l : ArrayList T) : ArrayList T :=
  { l with size := 0 }

/-- The method `ForEach`: `do` is called on every element of the range loop
over `l.container`, in order; `s` is the state `do` acts on. -/
def ForEach {σ : Type} (l : ArrayList T) (doFn : σ → T → σ) (s : σ) : σ :=
  l.container.foldl doFn s

/-- The values `ForEach` passes to `do`, in the order of the calls. -/
def visited (l : ArrayList T) : List T :=
  ForEach l (fun seen v => seen ++ [v]) []

/-- The elements of the list as its methods `Size` and `At` present them: the
values `At(0)`, ..., `At(Size()-1)`, or `none` if one of these calls panics. -/
def elements (l : ArrayList T) : Option (List T) :=
  (List.range l.size.toNat).mapM fun i =>
    match At l i with
    | .ok v => some v
    | .error _ => none

/-- The callback of `Test_ForEachShouldIterateThroughTheList_And_ExecuteGivenFunctionOnEachElement`,
`sum += *element`. -/
def addTo (sum element : Int) : Int := sum + element

/-- The states of an array list reachable from `New` or `NewOfAny` by calls of
its mutating methods that return (a call that panics leaves the receiver as it
was). -/
inductive Reachable : ArrayList T → Prop where
  | new [DecidableEq T] (elements : List T) : Reachable (New elements)
  | newOfAny (elements : List T) : Reachable (NewOfAny elements)
  | setEqualityComparer {l : ArrayList T} (equals : Option (T → T → Bool)) :
      Reachable l → Reachable (SetEqualityComparer l equals)
  | set {l l1 : ArrayList T} (index : Int) (value : T) :
      Reachable l → Set l index value = .ok l1 → Reachable l1
  | add {l l1 : ArrayList T} (element : T) (b : Bool) :
      Reachable l → Add l element = .ok (b, l1) → Reachable l1
  | removeBack {l l1 : ArrayList T} : Reachable l → RemoveBack l = .ok l1 → Reachable l1
  | insert {l l1 : ArrayList T} (index : Int) (element : T) (b : Bool) :
      Reachable l → Insert l index element = .ok (b, l1) → Reachable l1
  | addToFront {l l1 : ArrayList T} (element : T) :
      Reachable l → AddToFront l element = .ok l1 → Reachable l1
  | remove {l l1 : ArrayList T} (element : T) (b : Bool) :
      Reachable l → Remove l element = .ok (b, l1) → Reachable l1
  | removeAt {l l1 : ArrayList T} (index : Int) :
      Reachable l → RemoveAt l index = .ok l1 → Reachable l1
  | removeFront {l l1 : ArrayList T} : Reachable l → RemoveFront l = .ok l1 → Reachable l1
  | clear {l : ArrayList T} : Reachable l → Reachable (Clear l)

end AL

/-! # The array stack of `stack/arraystack/stack.go`

The stack wraps an array list and forwards every method to it; the model wraps
the array list model above in the same way. -/

namespace AS

/-- The struct `Stack[T]`. -/
structure Stack (T : Type) where
  container : AL.ArrayList T

variable {T : Type}

/-- The function `New(elements...)`. -/
def New [DecidableEq T] (elements : List T) : Stack T :=
  { container := AL.New elements }

/-- The function `NewOfAny(elements...)`. -/
def NewOfAny (elements : List T) : Stack T :=
  { container := AL.NewOfAny elements }

/-- The method `Size`. -/
def Size (s : Stack T) : Int := AL.Size s.container

/-- The method `Empty`. -/
def Empty (s : Stack T) : Bool := AL.Empty s.container

/-- The method `Push`. -/
def Push (s : Stack T) (element : T) : Except String (Stack T) :=
  match AL.Add s.container element with
  | .ok (_, container) => .ok { container := container }
  | .error msg => .error msg

/-- The method `Pop`. -/
def Pop (s : Stack T) : Except String (Stack T) :=
  if AL.Empty s.container then
    .error "Stack.Pop failed because stack is empty"
  else
    match AL.RemoveBack s.container with
    | .ok container => .ok { container := container }
    | .error msg => .error msg

/-- The method `Peek` (the value behind the returned reference). -/
def Peek (s : Stack T) : Except String T :=
  if AL.Empty s.container then
    .error "Stack.Peek failed because stack is empty"
  else
    AL.Back s.container

/-- The method `Add`. -/
def Add (s : Stack T) (element : T) : Except String (Bool × Stack T) :=
  match AL.Add s.container element with
  | .ok (_, container) => .ok (true, { container := container })
  | .error msg => .error msg

/-- The method `Remove`. -/
def Remove (s : Stack T) (element : T) : Except String (Bool × Stack T) :=
  match AL.Remove s.container element with
  | .ok (b, container) => .ok (b, { container := container })
  | .error msg => .error msg

/-- The method `Clear`. -/
def Clear (s : Stack T) : Stack T :=
  { container := AL.Clear s.container }

/-- The stacks reachable from `New` or `NewOfAny` by calls of `Push`, `Pop`,
`Add`, `Remove` and `Clear` that return. -/
inductive Reachable : Stack T → Prop where
  | new [DecidableEq T] (elements : List T) : Reachable (New elements)
  | newOfAny (elements : List T) : Reachable (NewOfAny elements)
  | push {s s1 : Stack T} (element : T) : Reachable s → Push s element = .ok s1 → Reachable s1
  | pop {s s1 : Stack T} : Reachable s → Pop s = .ok s1 → Reachable s1
  | add {s s1 : Stack T} (element : T) (b : Bool) :
      Reachable s → Add s element = .ok (b, s1) → Reachable s1
  | remove {s s1 : Stack T} (element : T) (b : Bool) :
      Reachable s → Remove s element = .ok (b, s1) → Reachable s1
  | clear {s : Stack T} : Reachable s → Reachable (Clear s)

/-- The stack invariant that `New`, `NewOfAny`, `Push`, `Pop`, `Add` and `Clear`
keep and `Remove` breaks: the container is as long as `cap` says and holds the
`size` elements of the stack in front. -/
structure Full (s : Stack T) : Prop where
  nonneg : 0 ≤ s.container.size
  le : s.container.size ≤ s.container.cap
  len : s.container.cap = s.container.container.length

end AS

/-! # The hash set of `set/hashset/set.go`

Modelling conventions.

* A Go `map[K]interface{}` whose values are never read is the list of its keys,
  in the order in which a `range` loop visits them. Go leaves that order
  unspecified; the theorems hold for every order.
* Go's `==` on the key type `K` is the `BEq` instance of `K`. Lookup, assignment
  and `delete` compare keys with `==`, so a key that is not equal to itself, a
  floating-point NaN, is never found and is inserted again by every assignment. -/

namespace HS

/-- The struct `Set[K]`: the keys of the map `container`, in the order in which
a `range` loop visits them. -/
structure Set (K : Type) where
  container : List K

variable {K : Type} [BEq K]

/-- The lookup `_, hasElement := m[k]`. -/
def mapHas (m : List K) (k : K) : Bool :=
  m.any fun x => x == k

/-- The assignment `m[k] = placeholder`: a key equal to `k` keeps its entry, and
otherwise `k` becomes a new key. -/
def mapAssign (m : List K) (k : K) : List K :=
  if mapHas m k then m else m ++ [k]

/-- The builtin `delete(m, k)`. -/
def mapDelete (m : List K) (k : K) : List K :=
  m.filter fun x => !(x == k)

/-- The function `New(elements...)`. -/
def New (elements : List K) : Set K :=
  let size := elements.length
  let container : List K := []
  { container := if size > 0 then elements.foldl mapAssign container else container }

/-- The method `Size`. -/
def Size (s : Set K) : Nat := s.container.length

/-- The method `Empty`. -/
def Empty (s : Set K) : Bool := s.container.length == 0

/-- The method `Add`. -/
def Add (s : Set K) (element : K) : Bool × Set K :=
  if mapHas s.container element then
    (false, s)
  else
    (true, { container := mapAssign s.container element })

/-- The method `Remove`. -/
def Remove (s : Set K) (element : K) : Bool × Set K :=
  if !mapHas s.container element then
    (false, s)
  else
    (true, { container := mapDelete s.container element })

/-- The method `Contains`. -/
def Contains (s : Set K) (element : K) : Bool :=
  if mapHas s.container element then true else false

/-- The loop `for k := range s.container { if !set.Contains(k) { return false } }`
of `Equals` over the keys still to visit, followed by `return true`. -/
def equalsLoop (set : Set K) : List K → Bool
  | [] => true
  | k :: rest => if !Contains set k then false else equalsLoop set rest

/-- The method `Equals`. -/
def Equals (s set : Set K) : Bool :=
  if Size s != Size set then false else equalsLoop set s.container

/-- The method `Clear`. -/
def Clear (_s : Set K) : Set K :=
  { container := [] }

/-- The sets reachable from `New` by calls of `Add`, `Remove` and `Clear`. -/
inductive Reachable : Set K → Prop where
  | new (elements : List K) : Reachable (New elements)
  | add {s : Set K} (element : K) : Reachable s → Reachable (Add s element).2
  | remove {s : Set K} (element : K) : Reachable s → Reachable (Remove s element).2
  | clear {s : Set K} : Reachable s → Reachable (Clear s)

/-- No two keys of a map are equal under `==`. -/
def Distinct (m : List K) : Prop :=
  m.Pairwise fun x y => (x == y) = false

/-- The values of Go's `float64` that matter here: NaN and the numbers given by
an integer. -/
inductive Float64 where
  | nan : Float64
  | num (n : Int) : Float64

/-- Go's `==` on `float64`: false whenever an operand is NaN. -/
def Float64.eq : Float64 → Float64 → Bool
  | .num m, .num n => m == n
  | _, _ => false

instance : BEq Float64 := ⟨Float64.eq⟩

end HS

/-! # The doubly linked list of `list/doublylinkedlist` and the queue of `queue/linkedlistqueue/queue.go`

Modelling conventions.

* The nodes of a list live in a store carried by the list: the node at address
  `a` is `nodes[a]`, `newNode` and `newEmptyNode` allocate at the fresh address
  `len(nodes)`, and nothing is ever freed. A pointer `*node[T]` is `none` when
  nil and `some a` otherwise.
* Every dereference is checked: reading or writing a field through a nil
  pointer panics with `nilPanic`, so every method returns an `Except`.
* The queue wraps the list and forwards its methods to it. -/

namespace DL

/-- The struct `node[T]`; a pointer `*node[T]` is `none` when nil and otherwise
the address of a node. -/
structure Node (T : Type) where
  Value : T
  Prev : Option Nat
  Next : Option Nat

/-- The struct `DoublyLinkedList[T]`, together with the nodes allocated for it:
the node at address `a` is `nodes[a]`. -/
structure DoublyLinkedList (T : Type) where
  nodes : List (Node T)
  head : Option Nat
  tail : Option Nat
  equals : Option (T → T → Bool)
  size : Int

variable {T : Type}

/-- The message of Go's run-time panic on a nil pointer. -/
def nilPanic : String := "runtime error: invalid memory address or nil pointer dereference"

/-- The dereference of the pointer `p`. -/
def deref (nodes : List (Node T)) (p : Option Nat) : Except String (Node T) :=
  match p with
  | none => .error nilPanic
  | some a =>
    match nodes[a]? with
    | some node => .ok node
    | none => .error nilPanic

/-- The assignment `p.Next = next`. -/
def setNext (nodes : List (Node T)) (p next : Option Nat) : Except String (List (Node T)) :=
  match deref nodes p, p with
  | .ok node, some a => .ok (nodes.set a { node with Next := next })
  | _, _ => .error nilPanic

/-- The assignment `p.Prev = prev`. -/
def setPrev (nodes : List (Node T)) (p prev : Option Nat) : Except String (List (Node T)) :=
  match deref nodes p, p with
  | .ok node, some a => .ok (nodes.set a { node with Prev := prev })
  | _, _ => .error nilPanic

/-- The function `newNode(value, prev, next)`: the node is allocated at a fresh
address, which is returned with the nodes. -/
def newNode (nodes : List (Node T)) (value : T) (prev next : Option Nat) :
    List (Node T) × Option Nat :=
  (nodes ++ [{ Value := value, Prev := prev, Next := next }], some nodes.length)

/-- The function `newEmptyNode()`. -/
def newEmptyNode [Inhabited T] (nodes : List (Node T)) : List (Node T) × Option Nat :=
  (nodes ++ [{ Value := default, Prev := none, Next := none }], some nodes.length)

/-- The loop of `initializeHeadAndTailFromSlice` over the elements still to
insert, with `node` the node inserted last. -/
def initLoop : List T → List (Node T) → Option Nat → Except String (List (Node T))
  | [], nodes, _ => .ok nodes
  | v :: rest, nodes, node => do
    let next := (← deref nodes node).Next
    let (nodes, element) := newNode nodes v node next
    let nodes ← setNext nodes node element
    let nodes ← setPrev nodes element node
    let nodes ← setNext nodes element next
    let nodes ← setPrev nodes next element
    initLoop rest nodes element

/-- The function `initializeHeadAndTailFromSlice(elements)`. -/
def initializeHeadAndTailFromSlice [Inhabited T] (elements : List T) :
    Except String (List (Node T) × Option Nat × Option Nat) := do
  let (nodes, head) := newEmptyNode []
  let (nodes, tail) := newEmptyNode nodes
  let nodes ← setNext nodes head tail
  let nodes ← setPrev nodes tail head
  let nodes ← initLoop elements nodes head
  .ok (nodes, head, tail)

/-- The function `New(elements...)`. -/
def New [Inhabited T] [DecidableEq T] (elements : List T) :
    Except String (DoublyLinkedList T) := do
  let size : Int := elements.length
  let (nodes, head, tail) ← initializeHeadAndTailFromSlice elements
  .ok { nodes := nodes, head := head, tail := tail,
        equals := some AL.DefaultEquals, size := size }

/-- The function `NewOfAny(elements...)`. -/
def NewOfAny [Inhabited T] (elements : List T) : Except String (DoublyLinkedList T) := do
  let (nodes, head, tail) ← initializeHeadAndTailFromSlice elements
  .ok { nodes := nodes, head := head, tail := tail, equals := none, size := elements.length }

/-- The method `Front` (the value behind the returned reference). -/
def Front (dll : DoublyLinkedList T) : Except String T :=
  if dll.size = 0 then
    .error "DoublyLinkedList.Front failed because the list is empty"
  else do
    let head ← deref dll.nodes dll.head
    let first ← deref dll.nodes head.Next
    .ok first.Value

/-- The method `Size`. -/
def Size (dll : DoublyLinkedList T) : Int := dll.size

/-- The method `Empty`. -/
def Empty (dll : DoublyLinkedList T) : Bool := decide (dll.size = 0)

/-- The method `Add`. -/
def Add (dll : DoublyLinkedList T) (element : T) : Except String (Bool × DoublyLinkedList T) := do
  let (nodes, newTail) := newNode dll.nodes element none none
  let prev := (← deref nodes dll.tail).Prev
  let nodes ← setNext nodes prev newTail
  let nodes ← setPrev nodes newTail prev
  let nodes ← setNext nodes newTail dll.tail
  let nodes ← setPrev nodes dll.tail newTail
  .ok (true, { dll with nodes := nodes, size := dll.size + 1 })

/-- The method `removeNode`. -/
def removeNode (dll : DoublyLinkedList T) (node : Option Nat) :
    Except String (DoublyLinkedList T) := do
  let prev := (← deref dll.nodes node).Prev
  let next := (← deref dll.nodes node).Next
  let nodes ← setNext dll.nodes prev next
  let nodes ← setPrev nodes next prev
  .ok { dll with nodes := nodes, size := dll.size - 1 }

/-- The method `RemoveFront`. -/
def RemoveFront (dll : DoublyLinkedList T) : Except String (DoublyLinkedList T) :=
  if dll.size = 0 then
    .error "DoublyLinkedList.RemoveFront cannot remove head because list is empty"
  else do
    let head ← deref dll.nodes dll.head
    removeNode dll head.Next

/-- The field `Next` of the node at address `a`. -/
def nextOf (nodes : List (Node T)) (a : Nat) : Option Nat :=
  match nodes[a]? with
  | some node => node.Next
  | none => none

/-- The field `Prev` of the node at address `a`. -/
def prevOf (nodes : List (Node T)) (a : Nat) : Option Nat :=
  match nodes[a]? with
  | some node => node.Prev
  | none => none

/-- The field `Value` of the node at address `a`. -/
def valueOf (nodes : List (Node T)) (a : Nat) : Option T :=
  match nodes[a]? with
  | some node => some node.Value
  | none => none

/-- The nodes at the addresses `addrs` are linked in this order between the
nodes at `p` and `q`, by their `Next` fields forwards and their `Prev` fields
backwards. -/
def Seg (nodes : List (Node T)) : Nat → List Nat → Nat → Prop
  | p, [], q => nextOf nodes p = some q ∧ prevOf nodes q = some p
  | p, a :: rest, q => nextOf nodes p = some a ∧ prevOf nodes a = some p ∧ Seg nodes a rest q

/-- The list holds the elements `xs`, first to last, in the nodes at the
addresses `addrs` linked between the sentinel nodes `head` and `tail`. -/
structure Holds (dll : DoublyLinkedList T) (hd tl : Nat) (addrs : List Nat) (xs : List T) :
    Prop where
  head : dll.head = some hd
  tail : dll.tail = some tl
  seg : Seg dll.nodes hd addrs tl
  nodup : (hd :: addrs ++ [tl]).Nodup
  values : addrs.map (valueOf dll.nodes) = xs.map some
  size : dll.size = xs.length

end DL

namespace LQ

/-- The struct `Queue[T]`. -/
structure Queue (T : Type) where
  container : DL.DoublyLinkedList T

variable {T : Type}

/-- The function `New(elements...)`. -/
def New [Inhabited T] [DecidableEq T] (elements : List T) : Except String (Queue T) := do
  let container ← DL.New elements
  .ok { container := container }

/-- The function `NewOfAny(elements...)`. -/
def NewOfAny [Inhabited T] (elements : List T) : Except String (Queue T) := do
  let container ← DL.NewOfAny elements
  .ok { container := container }

/-- The method `Size`. -/
def Size (q : Queue T) : Int := DL.Size q.container

/-- The method `Empty`. -/
def Empty (q : Queue T) : Bool := DL.Empty q.container

/-- The method `Enqueue`. -/
def Enqueue (q : Queue T) (element : T) : Except String (Queue T) := do
  let (_, container) ← DL.Add q.container element
  .ok { container := container }

/-- The method `Dequeue`. -/
def Dequeue (q : Queue T) : Except String (Queue T) :=
  if DL.Empty q.container then
    .error "Queue.Dequeue failed because queue is empty"
  else do
    let container ← DL.RemoveFront q.container
    .ok { container := container }

/-- The method `Peek` (the value behind the returned reference). -/
def Peek (q : Queue T) : Except String T :=
  if DL.Empty q.container then
    .error "Queue.Peek failed because queue is empty"
  else
    DL.Front q.container

/-- Enqueueing the elements of `xs` one by one, first to last. -/
def enqueueAll : Queue T → List T → Except String (Queue T)
  | q, [] => .ok q
  | q, x :: rest => do
    let q1 ← Enqueue q x
    enqueueAll q1 rest

/-- Draining: `n` times, read `Size`, read `Peek` and call `Dequeue`; the sizes
and elements read are returned with the final queue. -/
def drain : Nat → Queue T → Except String (List (Int × T) × Queue T)
  | 0, q => .ok ([], q)
  | n + 1, q => do
    let t ← Peek q
    let q1 ← Dequeue q
    let (rest, q2) ← drain n q1
    .ok ((Size q, t) :: rest, q2)

end LQ

namespace PQ

variable {T : Type} [Inhabited T]

/-! ## Basic lemmas -/

omit [Inhabited T] in
theorem StrictWeakOrder.asymm {compare : T → T → Bool} (h : StrictWeakOrder compare)
    {a b : T} (hab : compare a b = true) : compare b a = false := by
  cases hba : compare b a with
  | false => rfl
  | true =>
    have := h.trans a b a hab hba
    rw [h.irrefl a] at this
    exact absurd this (by decide)

theorem lt_strictWeakOrder : StrictWeakOrder lt := by
  refine ⟨?_, ?_, ?_⟩
  · intro a; simp [lt]
  · intro a b c; simp only [lt, decide_eq_true_eq]; omega
  · intro a b c; simp only [lt, decide_eq_false_iff_not]; omega

theorem heapOrdered_iff_heapFrom (compare : T → T → Bool) (heap : List T) (size : Nat) :
    HeapOrdered compare heap size ↔ HeapFrom compare heap size 1 := by
  constructor
  · intro h c hc2 hcs _
    have := h (c / 2) c (by omega) (by omega) (by omega) hcs
    exact this
  · intro h i c hi1 _ hc hcs
    have hci : c / 2 = i := by omega
    have := h c (by omega) hcs (by omega)
    rw [hci] at this
    exact this

theorem length_swap (heap : List T) (i j : Nat) : (swap heap i j).length = heap.length := by
  simp [swap]

theorem getD_set_default (heap : List T) (i k : Nat) (a : T) (hi : i < heap.length) :
    (heap.set i a).getD k default = if k = i then a else heap.getD k default := by
  simp only [List.getD_eq_getElem?_getD, List.getElem?_set]
  by_cases h : i = k
  · subst h; simp [hi]
  · have h2 : ¬ k = i := fun e => h e.symm
    simp [h, h2]

theorem getD_swap (heap : List T) (i j k : Nat) (hi : i < heap.length) (hj : j < heap.length) :
    (swap heap i j).getD k default =
      if k = j then heap.getD i default
      else if k = i then heap.getD j default else heap.getD k default := by
  unfold swap
  rw [getD_set_default _ _ _ _ (by simpa using hj), getD_set_default _ _ _ _ hi]

/-! ## Index arithmetic -/

theorem shiftLeft_one (i : Nat) : i <<< 1 = 2 * i := by
  rw [Nat.shiftLeft_eq]; omega

theorem shiftRight_one (i : Nat) : i >>> 1 = i / 2 := by
  rw [Nat.shiftRight_eq_div_pow, Nat.pow_one]

/-! ## siftDown restores heap order -/

theorem pickChild_eq (compare : T → T → Bool) (heap : List T) (size i : Nat) :
    pickChild compare heap size i = 2 * i ∨
      (pickChild compare heap size i = 2 * i + 1 ∧ 2 * i + 1 ≤ size) := by
  unfold pickChild
  simp only [shiftLeft_one]
  split
  · rename_i h
    simp only [Bool.and_eq_true, decide_eq_true_eq] at h
    exact Or.inr ⟨rfl, h.1⟩
  · exact Or.inl rfl

theorem pickChild_best {compare : T → T → Bool} (swo : StrictWeakOrder compare)
    (heap : List T) (size i o : Nat) (ho : o = 2 * i ∨ o = 2 * i + 1) (hos : o ≤ size) :
    compare (heap.getD o default) (heap.getD (pickChild compare heap size i) default) = false := by
  unfold pickChild
  simp only [shiftLeft_one]
  split
  · rename_i h
    simp only [Bool.and_eq_true, decide_eq_true_eq] at h
    rcases ho with rfl | rfl
    · exact swo.asymm h.2
    · exact swo.irrefl _
  · rename_i h
    simp only [Bool.and_eq_true, decide_eq_true_eq, not_and, Bool.not_eq_true] at h
    rcases ho with rfl | rfl
    · exact swo.irrefl _
    · exact h hos

theorem siftDownLoop_heapFrom {compare : T → T → Bool} (swo : StrictWeakOrder compare)
    (size k : Nat) (hk : 1 ≤ k) :
    ∀ (fuel i : Nat) (heap : List T), k ≤ i → size < heap.length → size < i + fuel →
      (∀ c, 2 ≤ c → c ≤ size → k ≤ c / 2 → c / 2 ≠ i →
        compare (heap.getD c default) (heap.getD (c / 2) default) = false) →
      (∀ c, 2 ≤ c → c ≤ size → c / 2 = i → k ≤ i / 2 →
        compare (heap.getD c default) (heap.getD (i / 2) default) = false) →
      HeapFrom compare (siftDownLoop compare size fuel i heap) size k := by
  intro fuel
  induction fuel with
  | zero =>
    intro i heap _ _ hfuel ha _ c hc2 hcs hkc
    exact ha c hc2 hcs hkc (by omega)
  | succ fuel ih =>
    intro i heap hki hlen hfuel ha hb
    unfold siftDownLoop
    simp only [shiftLeft_one]
    split
    · rename_i h2i
      have hpick := pickChild_eq compare heap size i
      have hbest := pickChild_best swo heap size i
      generalize pickChild compare heap size i = child at hpick hbest
      have hchild : (child = 2 * i ∨ child = 2 * i + 1) ∧ child ≤ size := by omega
      split
      · rename_i hcmp
        have hil : i < heap.length := by omega
        have hcl : child < heap.length := by omega
        apply ih child (swap heap child i) (by omega) (by rw [length_swap]; exact hlen) (by omega)
        · intro c hc2 hcs hkc hne
          rw [getD_swap _ _ _ _ hcl hil, getD_swap _ _ _ _ hcl hil]
          by_cases hci : c = i
          · subst hci
            have h1 : ¬ c / 2 = c := by omega
            have h2 : ¬ c / 2 = child := by omega
            have h3 : ¬ c = child := by omega
            simp only [h1, h2, h3, if_true, if_false]
            exact hb child (by omega) hchild.2 (by omega) hkc
          · by_cases hcc : c = child
            · subst hcc
              have h1 : c / 2 = i := by omega
              simp only [h1, hci, if_true, if_false]
              exact swo.asymm hcmp
            · by_cases hp : c / 2 = i
              · have h1 : ¬ i = child := by omega
                simp only [hci, hcc, hp, h1, if_true, if_false]
                exact hbest c (by omega) hcs
              · simp only [hci, hcc, hp, hne, if_false]
                exact ha c hc2 hcs hkc hp
        · intro c hc2 hcs hp hkp
          rw [getD_swap _ _ _ _ hcl hil, getD_swap _ _ _ _ hcl hil]
          have h1 : ¬ c = i := by omega
          have h2 : ¬ c = child := by omega
          have h3 : child / 2 = i := by omega
          have h4 : ¬ i = child := by omega
          simp only [h1, h2, h3, h4, if_true, if_false]
          have := ha c hc2 hcs (by omega) (by omega)
          rw [hp] at this
          exact this
      · rename_i hcmp
        simp only [Bool.not_eq_true] at hcmp
        intro c hc2 hcs hkc
        by_cases hp : c / 2 = i
        · rw [hp]
          exact swo.negTrans _ _ _ (hbest c (by omega) hcs) hcmp
        · exact ha c hc2 hcs hkc hp
    · intro c hc2 hcs hkc
      exact ha c hc2 hcs hkc (by omega)

theorem siftDown_heapFrom {compare : T → T → Bool} (swo : StrictWeakOrder compare)
    (size start : Nat) (heap : List T) (hstart : 1 ≤ start) (hlen : size < heap.length)
    (h : HeapFrom compare heap size (start + 1)) :
    HeapFrom compare (siftDown start heap size compare) size start := by
  unfold siftDown
  apply siftDownLoop_heapFrom swo size start hstart size start heap (le_refl _) hlen (by omega)
  · intro c hc2 hcs hkc hne
    exact h c hc2 hcs (by omega)
  · intro c _ _ hp hkp
    omega

/-! ## siftUp restores heap order -/

theorem siftUpLoop_heapFrom {compare : T → T → Bool} (swo : StrictWeakOrder compare)
    (size : Nat) :
    ∀ (fuel i : Nat) (heap : List T), i ≤ size → size < heap.length → i ≤ fuel →
      (∀ c, 2 ≤ c → c ≤ size → c ≠ i →
        compare (heap.getD c default) (heap.getD (c / 2) default) = false) →
      (∀ c, 2 ≤ c → c ≤ size → c / 2 = i → 2 ≤ i →
        compare (heap.getD c default) (heap.getD (i / 2) default) = false) →
      HeapFrom compare (siftUpLoop compare fuel i heap) size 1 := by
  intro fuel
  induction fuel with
  | zero =>
    intro i heap _ _ hfuel ha _ c hc2 hcs _
    exact ha c hc2 hcs (by omega)
  | succ fuel ih =>
    intro i heap his hlen hfuel ha hb
    unfold siftUpLoop
    simp only [shiftRight_one]
    split
    · rename_i hi1
      split
      · rename_i hcmp
        have hil : i < heap.length := by omega
        have hpl : i / 2 < heap.length := by omega
        apply ih (i / 2) (swap heap i (i / 2)) (by omega) (by rw [length_swap]; exact hlen)
          (by omega)
        · intro c hc2 hcs hne
          rw [getD_swap _ _ _ _ hil hpl, getD_swap _ _ _ _ hil hpl]
          by_cases hci : c = i
          · subst hci
            have h1 : ¬ c = c / 2 := by omega
            have h2 : ¬ c / 2 / 2 = c / 2 := by omega
            simp only [h1, if_true, if_false]
            exact swo.asymm hcmp
          · by_cases hp : c / 2 = i
            · have h1 : ¬ i = i / 2 := by omega
              simp only [hne, hci, hp, h1, if_true, if_false]
              exact hb c hc2 hcs hp (by omega)
            · by_cases hpp : c / 2 = i / 2
              · simp only [hne, hci, hpp, if_true, if_false]
                cases hx : compare (heap.getD c default) (heap.getD i default) with
                | false => rfl
                | true =>
                  have h1 := swo.trans _ _ _ hx hcmp
                  have h2 := ha c hc2 hcs hci
                  rw [hpp, h1] at h2
                  exact absurd h2 (by decide)
              · simp only [hne, hci, hp, hpp, if_false]
                exact ha c hc2 hcs hci
        · intro c hc2 hcs hp hp2
          rw [getD_swap _ _ _ _ hil hpl, getD_swap _ _ _ _ hil hpl]
          have h1 : ¬ c = i / 2 := by omega
          have h2 : ¬ i / 2 / 2 = i / 2 := by omega
          have h3 : ¬ i / 2 / 2 = i := by omega
          have hpar := ha (i / 2) hp2 (by omega) (by omega)
          by_cases hci : c = i
          · subst hci
            simp only [h1, h2, h3, if_true, if_false]
            exact hpar
          · simp only [h1, h2, h3, hci, if_false]
            have hc := ha c hc2 hcs hci
            rw [hp] at hc
            exact swo.negTrans _ _ _ hc hpar
      · rename_i hcmp
        simp only [Bool.not_eq_true] at hcmp
        intro c hc2 hcs _
        by_cases hci : c = i
        · subst hci; exact hcmp
        · exact ha c hc2 hcs hci
    · intro c hc2 hcs _
      exact ha c hc2 hcs (by omega)

/-! ## Swapping is a permutation -/

omit [Inhabited T] in
theorem getD_cons_set_perm (d x : T) :
    ∀ (l : List T) (j : Nat), j < l.length → (l.getD j d :: l.set j x).Perm (x :: l) := by
  intro l
  induction l with
  | nil => intro j hj; simp at hj
  | cons y l ih =>
    intro j hj
    cases j with
    | zero => simpa using List.Perm.swap x y l
    | succ j =>
      have hj2 : j < l.length := by simpa using hj
      have h1 := ih j hj2
      simp only [List.getD_cons_succ, List.set_cons_succ]
      exact (List.Perm.swap y (l.getD j d) (l.set j x)).trans
        ((h1.cons y).trans (List.Perm.swap x y l))

theorem swap_perm : ∀ (l : List T) (i j : Nat), i < l.length → j < l.length →
    (swap l i j).Perm l := by
  intro l
  induction l with
  | nil => intro i j hi; simp at hi
  | cons x l ih =>
    intro i j hi hj
    cases i with
    | zero =>
      cases j with
      | zero => simp [swap]
      | succ j =>
        have hj2 : j < l.length := by simpa using hj
        simpa [swap] using getD_cons_set_perm default x l j hj2
    | succ i =>
      have hi2 : i < l.length := by simpa using hi
      cases j with
      | zero => simpa [swap] using getD_cons_set_perm default x l i hi2
      | succ j =>
        have hj2 : j < l.length := by simpa using hj
        have := ih i j hi2 hj2
        simpa [swap] using this

/-! ## The logical slots `heap[1..size]` -/

omit [Inhabited T] in
theorem length_slots (heap : List T) (size : Nat) (h : size < heap.length) :
    (slots heap size).length = size := by
  simp only [slots, List.length_take, List.length_drop]
  omega

theorem getD_slots (heap : List T) (size k : Nat) (hk : k < size) :
    (slots heap size).getD k default = heap.getD (k + 1) default := by
  simp only [slots, List.getD_eq_getElem?_getD, List.getElem?_take, List.getElem?_drop, hk,
    if_true, Nat.add_comm 1 k]

omit [Inhabited T] in
theorem slots_set (heap : List T) (size i : Nat) (a : T) (hi : 1 ≤ i) :
    slots (heap.set i a) size = (slots heap size).set (i - 1) a := by
  have h1 : ¬ i < 1 := by omega
  simp only [slots, List.drop_set, h1, if_false, List.set_take]

theorem slots_swap (heap : List T) (size i j : Nat) (hi : 1 ≤ i) (hj : 1 ≤ j)
    (his : i ≤ size) (hjs : j ≤ size) :
    slots (swap heap i j) size = swap (slots heap size) (i - 1) (j - 1) := by
  unfold swap
  rw [slots_set _ _ _ _ hj, slots_set _ _ _ _ hi, getD_slots _ _ _ (by omega : i - 1 < size),
    getD_slots _ _ _ (by omega : j - 1 < size)]
  have e1 : i - 1 + 1 = i := by omega
  have e2 : j - 1 + 1 = j := by omega
  rw [e1, e2]

theorem slots_swap_perm (heap : List T) (size i j : Nat) (hi : 1 ≤ i) (hj : 1 ≤ j)
    (his : i ≤ size) (hjs : j ≤ size) (hlen : size < heap.length) :
    (slots (swap heap i j) size).Perm (slots heap size) := by
  rw [slots_swap _ _ _ _ hi hj his hjs]
  apply swap_perm
  · rw [length_slots _ _ hlen]; omega
  · rw [length_slots _ _ hlen]; omega

theorem slots_succ (heap : List T) (size : Nat) (hlen : size + 1 < heap.length) :
    slots heap (size + 1) = slots heap size ++ [heap.getD (size + 1) default] := by
  have h1 : 1 + size < heap.length := by omega
  have h2 : size + 1 < heap.length := hlen
  unfold slots
  rw [List.take_succ, List.getElem?_drop, List.getElem?_eq_getElem h1,
    List.getD_eq_getElem _ _ h2]
  simp [Nat.add_comm 1 size]

theorem mem_slots_iff (heap : List T) (size : Nat) (hlen : size < heap.length) (a : T) :
    a ∈ slots heap size ↔ ∃ k, 1 ≤ k ∧ k ≤ size ∧ heap.getD k default = a := by
  constructor
  · intro h
    obtain ⟨n, hn, rfl⟩ := List.getElem_of_mem h
    rw [length_slots _ _ hlen] at hn
    refine ⟨n + 1, by omega, by omega, ?_⟩
    rw [← getD_slots heap size n hn]
    exact List.getD_eq_getElem _ _ (by rw [length_slots _ _ hlen]; exact hn)
  · rintro ⟨k, hk1, hks, rfl⟩
    have e : k - 1 + 1 = k := by omega
    have := getD_slots heap size (k - 1) (by omega)
    rw [e] at this
    rw [← this, List.getD_eq_getElem _ _ (by rw [length_slots _ _ hlen]; omega)]
    exact List.getElem_mem _

/-! ## The sift loops permute the logical slots -/

theorem length_siftDownLoop (compare : T → T → Bool) (size : Nat) :
    ∀ (fuel i : Nat) (heap : List T),
      (siftDownLoop compare size fuel i heap).length = heap.length := by
  intro fuel
  induction fuel with
  | zero => intro i heap; rfl
  | succ fuel ih =>
    intro i heap
    unfold siftDownLoop
    simp only
    split
    · split
      · rw [ih, length_swap]
      · rfl
    · rfl

theorem length_siftDown (compare : T → T → Bool) (size start : Nat) (heap : List T) :
    (siftDown start heap size compare).length = heap.length :=
  length_siftDownLoop compare size size start heap

theorem siftDownLoop_slots_perm (compare : T → T → Bool) (size : Nat) :
    ∀ (fuel i : Nat) (heap : List T), 1 ≤ i → size < heap.length →
      (slots (siftDownLoop compare size fuel i heap) size).Perm (slots heap size) := by
  intro fuel
  induction fuel with
  | zero => intro i heap _ _; exact List.Perm.refl _
  | succ fuel ih =>
    intro i heap hi hlen
    unfold siftDownLoop
    simp only [shiftLeft_one]
    split
    · rename_i h2i
      have hpick := pickChild_eq compare heap size i
      generalize pickChild compare heap size i = child at hpick
      split
      · exact (ih child (swap heap child i) (by omega) (by rw [length_swap]; exact hlen)).trans
          (slots_swap_perm heap size child i (by omega) hi (by omega) (by omega) hlen)
      · exact List.Perm.refl _
    · exact List.Perm.refl _

theorem siftDown_slots_perm (compare : T → T → Bool) (size start : Nat) (heap : List T)
    (hstart : 1 ≤ start) (hlen : size < heap.length) :
    (slots (siftDown start heap size compare) size).Perm (slots heap size) :=
  siftDownLoop_slots_perm compare size size start heap hstart hlen

theorem length_siftUpLoop (compare : T → T → Bool) :
    ∀ (fuel i : Nat) (heap : List T), (siftUpLoop compare fuel i heap).length = heap.length := by
  intro fuel
  induction fuel with
  | zero => intro i heap; rfl
  | succ fuel ih =>
    intro i heap
    unfold siftUpLoop
    simp only
    split
    · split
      · rw [ih, length_swap]
      · rfl
    · rfl

theorem siftUpLoop_slots_perm (compare : T → T → Bool) (size : Nat) :
    ∀ (fuel i : Nat) (heap : List T), i ≤ size → size < heap.length →
      (slots (siftUpLoop compare fuel i heap) size).Perm (slots heap size) := by
  intro fuel
  induction fuel with
  | zero => intro i heap _ _; exact List.Perm.refl _
  | succ fuel ih =>
    intro i heap his hlen
    unfold siftUpLoop
    simp only [shiftRight_one]
    split
    · rename_i hi1
      split
      · exact (ih (i / 2) (swap heap i (i / 2)) (by omega) (by rw [length_swap]; exact hlen)).trans
          (slots_swap_perm heap size i (i / 2) (by omega) (by omega) his (by omega) hlen)
      · exact List.Perm.refl _
    · exact List.Perm.refl _

theorem slots_congr (h1 h2 : List T) (size : Nat) (hl1 : size < h1.length)
    (hl2 : size < h2.length)
    (h : ∀ k, 1 ≤ k → k ≤ size → h1.getD k default = h2.getD k default) :
    slots h1 size = slots h2 size := by
  apply List.ext_getElem
  · rw [length_slots _ _ hl1, length_slots _ _ hl2]
  · intro n hn1 hn2
    rw [length_slots _ _ hl1] at hn1
    have e1 := getD_slots h1 size n hn1
    have e2 := getD_slots h2 size n hn1
    rw [List.getD_eq_getElem _ _ (by rw [length_slots _ _ hl1]; exact hn1)] at e1
    rw [List.getD_eq_getElem _ _ (by rw [length_slots _ _ hl2]; exact hn1)] at e2
    rw [e1, e2]
    exact h (n + 1) (by omega) (by omega)

/-! ## The root is a top element -/

theorem heapFrom_top {compare : T → T → Bool} (swo : StrictWeakOrder compare)
    (heap : List T) (size : Nat) (h : HeapFrom compare heap size 1) :
    ∀ k, 1 ≤ k → k ≤ size →
      compare (heap.getD k default) (heap.getD 1 default) = false := by
  intro k
  induction k using Nat.strong_induction_on with
  | _ k ih =>
    intro hk1 hks
    by_cases hk : k = 1
    · subst hk; exact swo.irrefl _
    · have h1 := h k (by omega) hks (by omega)
      have h2 := ih (k / 2) (by omega) (by omega) (by omega)
      exact swo.negTrans _ _ _ h1 h2

/-! ## Enqueue -/

theorem enqueue_container (pq : PriorityQueue T) (x : T) :
    (Enqueue pq x).container = siftUp (enqueuePlaced pq x) (pq.size + 1) pq.compare := by
  unfold Enqueue enqueuePlaced
  simp only
  split <;> rfl

theorem enqueue_size (pq : PriorityQueue T) (x : T) : (Enqueue pq x).size = pq.size + 1 := by
  unfold Enqueue
  simp only
  split <;> rfl

theorem enqueue_compare (pq : PriorityQueue T) (x : T) :
    (Enqueue pq x).compare = pq.compare := by
  unfold Enqueue
  simp only
  split <;> rfl

theorem enqueue_cap (pq : PriorityQueue T) (x : T) :
    (Enqueue pq x).cap = if pq.cap < pq.size + 1 then pq.cap + 1 else pq.cap := by
  unfold Enqueue
  simp only
  split <;> rfl

omit [Inhabited T] in
theorem length_enqueuePlaced (pq : PriorityQueue T) (x : T) (wf : WF pq) :
    (enqueuePlaced pq x).length = (if pq.cap < pq.size + 1 then pq.cap + 1 else pq.cap) + 1 := by
  unfold enqueuePlaced
  split
  · simp [wf.len]
  · simp [wf.len]

theorem getD_enqueuePlaced (pq : PriorityQueue T) (x : T) (wf : WF pq) (k : Nat) :
    (enqueuePlaced pq x).getD k default =
      if k = pq.size + 1 then x else pq.container.getD k default := by
  have hlen := wf.len
  have hle := wf.le
  unfold enqueuePlaced
  split
  · rename_i hcap
    have hsz : pq.size = pq.cap := by omega
    by_cases hk : k = pq.size + 1
    · subst hk
      simp only [if_true, List.getD_eq_getElem?_getD]
      rw [List.getElem?_append_right (by omega)]
      simp [hlen, hsz]
    · simp only [hk, if_false, List.getD_eq_getElem?_getD]
      by_cases hk2 : k < pq.container.length
      · rw [List.getElem?_append_left hk2]
      · rw [List.getElem?_eq_none (by simp; omega), List.getElem?_eq_none (by omega)]
  · rename_i hcap
    exact getD_set_default _ _ _ _ (by omega)

theorem enqueue_wf (pq : PriorityQueue T) (x : T) (wf : WF pq) : WF (Enqueue pq x) := by
  constructor
  · rw [enqueue_container, enqueue_cap, siftUp, length_siftUpLoop, length_enqueuePlaced _ _ wf]
  · rw [enqueue_size, enqueue_cap]
    have := wf.le
    split <;> omega

theorem enqueue_heapOrdered {pq : PriorityQueue T} (swo : StrictWeakOrder pq.compare)
    (wf : WF pq) (hq : HeapOrdered pq.compare pq.container pq.size) (x : T) :
    HeapOrdered pq.compare (Enqueue pq x).container (Enqueue pq x).size := by
  rw [enqueue_container, enqueue_size, heapOrdered_iff_heapFrom]
  rw [heapOrdered_iff_heapFrom] at hq
  have hlen := length_enqueuePlaced pq x wf
  have hle := wf.le
  apply siftUpLoop_heapFrom swo (pq.size + 1) (pq.size + 1) (pq.size + 1) _ (le_refl _)
    (by rw [hlen]; split <;> omega) (le_refl _)
  · intro c hc2 hcs hne
    rw [getD_enqueuePlaced _ _ wf, getD_enqueuePlaced _ _ wf]
    have h1 : ¬ c = pq.size + 1 := hne
    have h2 : ¬ c / 2 = pq.size + 1 := by omega
    simp only [h1, h2, if_false]
    exact hq c hc2 (by omega) (by omega)
  · intro c _ hcs hp _
    omega

theorem enqueue_logical (pq : PriorityQueue T) (wf : WF pq) (x : T) :
    (logical (Enqueue pq x)).Perm (logical pq ++ [x]) := by
  unfold logical
  rw [enqueue_container, enqueue_size]
  have hlen := length_enqueuePlaced pq x wf
  have hle := wf.le
  have hwl := wf.len
  have hl : pq.size + 1 < (enqueuePlaced pq x).length := by rw [hlen]; split <;> omega
  refine (siftUpLoop_slots_perm pq.compare (pq.size + 1) (pq.size + 1) (pq.size + 1) _
    (le_refl _) hl).trans ?_
  rw [slots_succ _ _ hl, getD_enqueuePlaced _ _ wf, if_pos rfl,
    slots_congr (enqueuePlaced pq x) pq.container pq.size (by omega) (by omega)]
  intro k _ hks
  rw [getD_enqueuePlaced _ _ wf, if_neg (by omega)]

/-! ## Dequeue -/

theorem dequeue_eq (pq : PriorityQueue T) (h : pq.size ≠ 0) :
    Dequeue pq = .ok { pq with
      size := pq.size - 1
      container := siftDown 1 (swap pq.container 1 pq.size) (pq.size - 1) pq.compare } := by
  unfold Dequeue
  rw [if_neg h]

theorem dequeue_wf (pq q : PriorityQueue T) (wf : WF pq) (h : Dequeue pq = .ok q) : WF q := by
  have hne : pq.size ≠ 0 := by
    intro h0
    simp [Dequeue, h0] at h
  rw [dequeue_eq pq hne] at h
  injection h with h
  subst h
  have := wf.len
  have := wf.le
  constructor
  · simp only [length_siftDown, length_swap]
    exact wf.len
  · simp only
    omega

theorem dequeue_heapOrdered {pq q : PriorityQueue T} (swo : StrictWeakOrder pq.compare)
    (wf : WF pq) (hq : HeapOrdered pq.compare pq.container pq.size)
    (h : Dequeue pq = .ok q) : HeapOrdered pq.compare q.container q.size := by
  have hne : pq.size ≠ 0 := by
    intro h0
    simp [Dequeue, h0] at h
  rw [dequeue_eq pq hne] at h
  injection h with h
  subst h
  have hlen := wf.len
  have hle := wf.le
  simp only
  rw [heapOrdered_iff_heapFrom] at hq ⊢
  apply siftDown_heapFrom swo _ 1 _ (le_refl 1) (by rw [length_swap]; omega)
  intro c hc2 hcs hkc
  rw [getD_swap _ _ _ _ (by omega) (by omega), getD_swap _ _ _ _ (by omega) (by omega)]
  have h1 : ¬ c = pq.size := by omega
  have h2 : ¬ c = 1 := by omega
  have h3 : ¬ c / 2 = pq.size := by omega
  have h4 : ¬ c / 2 = 1 := by omega
  simp only [h1, h2, h3, h4, if_false]
  exact hq c hc2 (by omega) (by omega)

theorem dequeue_logical (pq q : PriorityQueue T) (wf : WF pq) (h : Dequeue pq = .ok q) :
    (logical pq).Perm (logical q ++ [pq.container.getD 1 default]) := by
  have hne : pq.size ≠ 0 := by
    intro h0
    simp [Dequeue, h0] at h
  rw [dequeue_eq pq hne] at h
  injection h with h
  subst h
  have hlen := wf.len
  have hle := wf.le
  unfold logical
  simp only
  have hsl : pq.size - 1 + 1 = pq.size := by omega
  have hl2 : pq.size - 1 + 1 < (swap pq.container 1 pq.size).length := by
    rw [length_swap]; omega
  have e := slots_succ (swap pq.container 1 pq.size) (pq.size - 1) hl2
  rw [hsl, getD_swap _ _ _ _ (by omega) (by omega), if_pos rfl] at e
  have p1 := slots_swap_perm pq.container pq.size 1 pq.size (le_refl 1) (by omega) (by omega)
    (le_refl _) (by omega)
  rw [e] at p1
  refine p1.symm.trans ?_
  apply List.Perm.append_right
  exact (siftDown_slots_perm pq.compare (pq.size - 1) 1 _ (le_refl 1)
    (by rw [length_swap]; omega)).symm

/-! ## Heapify -/

omit [Inhabited T] in
theorem copy_replicate (d : T) (elements : List T) :
    copy (List.replicate (elements.length + 1) d) elements = elements ++ [d] := by
  unfold copy
  rw [List.length_replicate, List.take_of_length_le (by omega), List.drop_replicate]
  simp

theorem length_heapifyLoop (compare : T → T → Bool) (size : Nat) :
    ∀ (i : Nat) (heap : List T), (heapifyLoop compare size i heap).length = heap.length := by
  intro i
  induction i with
  | zero => intro heap; rfl
  | succ i ih =>
    intro heap
    unfold heapifyLoop
    rw [ih, length_siftDown]

theorem heapifyLoop_heapFrom {compare : T → T → Bool} (swo : StrictWeakOrder compare)
    (size : Nat) :
    ∀ (i : Nat) (heap : List T), size < heap.length → HeapFrom compare heap size (i + 1) →
      HeapFrom compare (heapifyLoop compare size i heap) size 1 := by
  intro i
  induction i with
  | zero => intro heap _ h; exact h
  | succ i ih =>
    intro heap hlen h
    unfold heapifyLoop
    apply ih _ (by rw [length_siftDown]; exact hlen)
    exact siftDown_heapFrom swo size (i + 1) heap (by omega) hlen h

theorem heapifyLoop_slots_perm (compare : T → T → Bool) (size : Nat) :
    ∀ (i : Nat) (heap : List T), size < heap.length →
      (slots (heapifyLoop compare size i heap) size).Perm (slots heap size) := by
  intro i
  induction i with
  | zero => intro heap _; exact List.Perm.refl _
  | succ i ih =>
    intro heap hlen
    unfold heapifyLoop
    exact (ih _ (by rw [length_siftDown]; exact hlen)).trans
      (siftDown_slots_perm compare size (i + 1) heap (by omega) hlen)

theorem heapifyLoop_heapOrdered {compare : T → T → Bool} (swo : StrictWeakOrder compare)
    (size : Nat) (heap : List T) (hlen : size < heap.length) :
    HeapOrdered compare (heapifyLoop compare size (size >>> 1) heap) size := by
  rw [heapOrdered_iff_heapFrom, shiftRight_one]
  apply heapifyLoop_heapFrom swo size _ heap hlen
  intro c _ hcs hk
  omega

theorem heapify_wf (elements : List T) (compare : T → T → Bool) :
    WF (Heapify elements compare) := by
  constructor
  · simp [Heapify, length_heapifyLoop, length_swap, copy_replicate]
  · exact le_refl _

theorem heapify_heapOrdered {compare : T → T → Bool} (swo : StrictWeakOrder compare)
    (elements : List T) :
    HeapOrdered compare (Heapify elements compare).container (Heapify elements compare).size := by
  unfold Heapify
  simp only
  apply heapifyLoop_heapOrdered swo
  simp [length_swap, copy_replicate]

theorem slots_initial (elements : List T) :
    (slots (swap (elements ++ [default]) 0 elements.length) elements.length).Perm elements := by
  have hlen : (swap (elements ++ [default]) 0 elements.length).length = elements.length + 1 := by
    simp [length_swap]
  have hperm := swap_perm (elements ++ [default]) 0 elements.length (by simp) (by simp)
  have h0 : (swap (elements ++ [default]) 0 elements.length).getD 0 default = default := by
    by_cases hn : elements.length = 0
    · have : elements = [] := List.length_eq_zero.mp hn
      subst this
      rfl
    · rw [getD_swap _ _ _ _ (by simp) (by simp), if_neg (by omega), if_pos rfl]
      simp
  generalize swap (elements ++ [default]) 0 elements.length = l at hlen hperm h0
  cases l with
  | nil => simp at hlen
  | cons a t =>
    simp only [List.getD_cons_zero] at h0
    subst h0
    have ht : t.length = elements.length := by simpa using hlen
    have e : slots (default :: t) elements.length = t := by
      simp [slots, ← ht]
    rw [e]
    have h2 : (default :: t).Perm (default :: elements) :=
      hperm.trans (List.perm_append_singleton default elements)
    exact h2.cons_inv

theorem heapify_logical (elements : List T) (compare : T → T → Bool) :
    (logical (Heapify elements compare)).Perm elements := by
  unfold logical Heapify
  simp only [copy_replicate]
  exact (heapifyLoop_slots_perm compare _ _ _ (by simp [length_swap])).trans
    (slots_initial elements)

/-! ## The fuel of the sift loops is never exhausted -/

theorem siftDownLoop_fuel (compare : T → T → Bool) (size : Nat) :
    ∀ (fuel fuel2 i : Nat) (heap : List T), 1 ≤ i → size < i + fuel → size < i + fuel2 →
      siftDownLoop compare size fuel i heap = siftDownLoop compare size fuel2 i heap := by
  intro fuel
  induction fuel with
  | zero =>
    intro fuel2 i heap hi h1 _
    cases fuel2 with
    | zero => rfl
    | succ fuel2 =>
      simp only [siftDownLoop, shiftLeft_one]
      rw [if_neg (by omega)]
  | succ fuel ih =>
    intro fuel2 i heap hi h1 h2
    cases fuel2 with
    | zero =>
      simp only [siftDownLoop, shiftLeft_one]
      rw [if_neg (by omega)]
    | succ fuel2 =>
      simp only [siftDownLoop, shiftLeft_one]
      split
      · have hpick := pickChild_eq compare heap size i
        generalize pickChild compare heap size i = child at hpick
        split
        · exact ih fuel2 child _ (by omega) (by omega) (by omega)
        · rfl
      · rfl

theorem siftUpLoop_fuel (compare : T → T → Bool) :
    ∀ (fuel fuel2 i : Nat) (heap : List T), i ≤ fuel → i ≤ fuel2 →
      siftUpLoop compare fuel i heap = siftUpLoop compare fuel2 i heap := by
  intro fuel
  induction fuel with
  | zero =>
    intro fuel2 i heap h1 _
    cases fuel2 with
    | zero => rfl
    | succ fuel2 =>
      simp only [siftUpLoop]
      rw [if_neg (by omega)]
  | succ fuel ih =>
    intro fuel2 i heap h1 h2
    cases fuel2 with
    | zero =>
      simp only [siftUpLoop]
      rw [if_neg (by omega)]
    | succ fuel2 =>
      simp only [siftUpLoop, shiftRight_one]
      split
      · split
        · exact ih fuel2 (i / 2) _ (by omega) (by omega)
        · rfl
      · rfl

/-! ## Draining a heap-ordered queue -/

theorem peek_eq (pq : PriorityQueue T) (h : pq.size ≠ 0) :
    Peek pq = .ok (pq.container.getD 1 default) := by
  unfold Peek
  rw [if_neg h]

theorem dequeue_compare (pq q : PriorityQueue T) (h : Dequeue pq = .ok q) :
    q.compare = pq.compare := by
  have hne : pq.size ≠ 0 := by
    intro h0
    simp [Dequeue, h0] at h
  rw [dequeue_eq pq hne] at h
  injection h with h
  subst h
  rfl

theorem dequeue_size (pq q : PriorityQueue T) (h : Dequeue pq = .ok q) :
    q.size = pq.size - 1 := by
  have hne : pq.size ≠ 0 := by
    intro h0
    simp [Dequeue, h0] at h
  rw [dequeue_eq pq hne] at h
  injection h with h
  subst h
  rfl

theorem root_top {compare : T → T → Bool} (swo : StrictWeakOrder compare)
    (heap : List T) (size : Nat) (hlen : size < heap.length)
    (hq : HeapOrdered compare heap size) :
    ∀ e ∈ slots heap size, compare e (heap.getD 1 default) = false := by
  intro e he
  obtain ⟨k, hk1, hks, rfl⟩ := (mem_slots_iff heap size hlen e).mp he
  exact heapFrom_top swo heap size ((heapOrdered_iff_heapFrom _ _ _).mp hq) k hk1 hks

theorem drain_spec {compare : T → T → Bool} (swo : StrictWeakOrder compare) :
    ∀ (n : Nat) (pq : PriorityQueue T), pq.compare = compare → WF pq →
      HeapOrdered compare pq.container pq.size → pq.size = n →
      ∃ ys q, drain n pq = .ok (ys, q) ∧ ys.Perm (logical pq) ∧ DrainOrdered compare ys ∧
        q.size = 0 := by
  intro n
  induction n with
  | zero =>
    intro pq _ wf _ hsz
    refine ⟨[], pq, rfl, ?_, List.Pairwise.nil, hsz⟩
    simp [logical, slots, hsz]
  | succ n ih =>
    intro pq hc wf hq hsz
    have hne : pq.size ≠ 0 := by omega
    have hd := dequeue_eq pq hne
    generalize hq1 : ({ pq with
      size := pq.size - 1
      container := siftDown 1 (swap pq.container 1 pq.size) (pq.size - 1) pq.compare } :
        PriorityQueue T) = q1 at hd
    have swo2 : StrictWeakOrder pq.compare := by rw [hc]; exact swo
    have hq2 : HeapOrdered pq.compare pq.container pq.size := by rw [hc]; exact hq
    have wf1 := dequeue_wf pq q1 wf hd
    have hh1 := dequeue_heapOrdered swo2 wf hq2 hd
    rw [hc] at hh1
    have hc1 : q1.compare = compare := (dequeue_compare pq q1 hd).trans hc
    have hs1 : q1.size = n := by rw [dequeue_size pq q1 hd]; omega
    have hp1 := dequeue_logical pq q1 wf hd
    obtain ⟨ys, q2, hdr, hperm, hord, hz⟩ := ih q1 hc1 wf1 hh1 hs1
    refine ⟨pq.container.getD 1 default :: ys, q2, ?_, ?_, ?_, hz⟩
    · simp only [drain, peek_eq pq hne, hd, hdr]
    · exact ((hperm.cons _).trans (List.perm_append_singleton _ _).symm).trans hp1.symm
    · apply List.Pairwise.cons _ hord
      intro b hb
      have hb1 : b ∈ logical q1 := hperm.subset hb
      have hb2 : b ∈ logical pq :=
        hp1.symm.subset (List.mem_append_left _ hb1)
      exact root_top swo pq.container pq.size (by have := wf.len; have := wf.le; omega) hq b hb2

theorem enqueueAll_spec {compare : T → T → Bool} (swo : StrictWeakOrder compare) :
    ∀ (xs : List T) (pq : PriorityQueue T), pq.compare = compare → WF pq →
      HeapOrdered compare pq.container pq.size →
      (enqueueAll pq xs).compare = compare ∧ WF (enqueueAll pq xs) ∧
        HeapOrdered compare (enqueueAll pq xs).container (enqueueAll pq xs).size ∧
        (enqueueAll pq xs).size = pq.size + xs.length ∧
        (logical (enqueueAll pq xs)).Perm (logical pq ++ xs) := by
  intro xs
  induction xs with
  | nil =>
    intro pq hc wf hq
    exact ⟨hc, wf, hq, rfl, by simp [enqueueAll]⟩
  | cons x xs ih =>
    intro pq hc wf hq
    have swo2 : StrictWeakOrder pq.compare := by rw [hc]; exact swo
    have hq2 : HeapOrdered pq.compare pq.container pq.size := by rw [hc]; exact hq
    have h1 := enqueue_heapOrdered swo2 wf hq2 x
    rw [hc] at h1
    obtain ⟨a, b, c, d, e⟩ := ih (Enqueue pq x) ((enqueue_compare pq x).trans hc)
      (enqueue_wf pq x wf) h1
    refine ⟨a, b, c, ?_, ?_⟩
    · show (enqueueAll (Enqueue pq x) xs).size = _
      rw [d, enqueue_size, List.length_cons]; omega
    · show (logical (enqueueAll (Enqueue pq x) xs)).Perm _
      refine e.trans ?_
      have := (enqueue_logical pq wf x).append_right xs
      simpa using this

theorem new_wf (compare : T → T → Bool) : WF (New compare) :=
  ⟨rfl, le_refl _⟩

theorem new_heapOrdered (compare : T → T → Bool) :
    HeapOrdered compare (New compare).container (New compare).size := by
  intro i c hi his
  exact absurd his (by simp [New]; omega)

/-! ## The representation invariant holds in every reachable state -/

theorem length_applyLoop (f : T → T) :
    ∀ (n i : Nat) (container : List T), (applyLoop f n i container).length = container.length := by
  intro n
  induction n with
  | zero => intro i container; rfl
  | succ n ih =>
    intro i container
    unfold applyLoop
    rw [ih, List.length_set]

theorem remove_wf (pq q : PriorityQueue T) (x : T) (b : Bool) (wf : WF pq)
    (h : Remove pq x = .ok (b, q)) : WF q := by
  unfold Remove at h
  split at h
  · exact absurd h (by simp)
  · simp only at h
    split at h
    · injection h with h
      injection h with _ h
      subst h
      exact wf
    · injection h with h
      injection h with _ h
      subst h
      have := wf.len
      have := wf.le
      constructor
      · simp only [length_siftDown, length_swap]
        exact wf.len
      · simp only
        omega

theorem forEach_wf (pq : PriorityQueue T) (f : T → T) (wf : WF pq) : WF (ForEach pq f) := by
  constructor
  · simp only [ForEach, length_heapifyLoop, length_applyLoop]
    exact wf.len
  · exact wf.le

theorem reachable_wf (pq : PriorityQueue T) (h : Reachable pq) : WF pq := by
  induction h with
  | new compare => exact new_wf compare
  | heapify elements compare => exact heapify_wf elements compare
  | setEqualityComparer equals _ ih => exact ⟨ih.len, ih.le⟩
  | enqueue x _ ih => exact enqueue_wf _ x ih
  | add x _ ih => exact enqueue_wf _ x ih
  | dequeue _ hd ih => exact dequeue_wf _ _ ih hd
  | remove x b _ hr ih => exact remove_wf _ _ x b ih hr
  | clear _ ih => exact ⟨ih.len, Nat.zero_le _⟩
  | forEach f _ ih => exact forEach_wf _ f ih

theorem forEach_heapOrdered {pq : PriorityQueue T} (swo : StrictWeakOrder pq.compare)
    (wf : WF pq) (f : T → T) :
    HeapOrdered pq.compare (ForEach pq f).container (ForEach pq f).size := by
  simp only [ForEach]
  apply heapifyLoop_heapOrdered swo
  rw [length_applyLoop]
  have := wf.len
  have := wf.le
  omega

/-! ## The linear scans of Remove and Contains -/

theorem scan_spec (equals : T → T → Bool) (container : List T) (x : T) :
    ∀ (n i : Nat),
      i ≤ scan equals container x n i ∧ scan equals container x n i ≤ i + n ∧
      (scan equals container x n i < i + n →
        equals (container.getD (scan equals container x n i) default) x = true) ∧
      (∀ j, i ≤ j → j < scan equals container x n i →
        equals (container.getD j default) x = false) := by
  intro n
  induction n with
  | zero =>
    intro i
    simp only [scan]
    exact ⟨le_refl _, le_refl _, fun h => absurd h (by omega), fun j h1 h2 => absurd h2 (by omega)⟩
  | succ n ih =>
    intro i
    simp only [scan]
    split
    · rename_i heq
      exact ⟨le_refl _, by omega, fun _ => heq, fun j h1 h2 => absurd h2 (by omega)⟩
    · rename_i hne
      simp only [Bool.not_eq_true] at hne
      obtain ⟨h1, h2, h3, h4⟩ := ih (i + 1)
      refine ⟨by omega, by omega, fun h => h3 (by omega), ?_⟩
      intro j hj1 hj2
      by_cases hji : j = i
      · subst hji; exact hne
      · exact h4 j (by omega) hj2

theorem scan_le_iff (equals : T → T → Bool) (container : List T) (x : T) (size : Nat) :
    scan equals container x size 1 ≤ size ↔
      ∃ j, 1 ≤ j ∧ j ≤ size ∧ equals (container.getD j default) x = true := by
  obtain ⟨h1, h2, h3, h4⟩ := scan_spec equals container x size 1
  constructor
  · intro h
    exact ⟨_, h1, h, h3 (by omega)⟩
  · rintro ⟨j, hj1, hjs, hj⟩
    by_contra hcon
    have := h4 j hj1 (by omega)
    rw [hj] at this
    exact absurd this (by decide)

theorem containsLoop_iff (equals : T → T → Bool) (container : List T) (x : T) :
    ∀ (n i : Nat), containsLoop equals container x n i = true ↔
      ∃ j, i ≤ j ∧ j < i + n ∧ equals (container.getD j default) x = true := by
  intro n
  induction n with
  | zero =>
    intro i
    simp only [containsLoop]
    constructor
    · intro h; exact absurd h (by decide)
    · rintro ⟨j, h1, h2, _⟩; omega
  | succ n ih =>
    intro i
    simp only [containsLoop]
    split
    · rename_i heq
      exact ⟨fun _ => ⟨i, le_refl _, by omega, heq⟩, fun _ => rfl⟩
    · rename_i hne
      simp only [Bool.not_eq_true] at hne
      rw [ih (i + 1)]
      constructor
      · rintro ⟨j, h1, h2, h3⟩
        exact ⟨j, by omega, by omega, h3⟩
      · rintro ⟨j, h1, h2, h3⟩
        have hji : j ≠ i := by
          intro e
          subst e
          rw [hne] at h3
          exact absurd h3 (by decide)
        exact ⟨j, by omega, by omega, h3⟩

theorem contains_eq (pq : PriorityQueue T) (equals : T → T → Bool) (he : pq.equals = some equals)
    (x : T) : Contains pq x = .ok (containsLoop equals pq.container x pq.size 1) := by
  unfold Contains
  rw [he]

theorem contains_iff (pq : PriorityQueue T) (equals : T → T → Bool)
    (he : pq.equals = some equals) (x : T) :
    Contains pq x = .ok true ↔
      ∃ j, 1 ≤ j ∧ j ≤ pq.size ∧ equals (pq.container.getD j default) x = true := by
  rw [contains_eq pq equals he]
  constructor
  · intro h
    injection h with h
    obtain ⟨j, h1, h2, h3⟩ := (containsLoop_iff equals pq.container x pq.size 1).mp h
    exact ⟨j, h1, by omega, h3⟩
  · rintro ⟨j, h1, h2, h3⟩
    rw [(containsLoop_iff equals pq.container x pq.size 1).mpr ⟨j, h1, by omega, h3⟩]

/-! ## Remove -/

theorem remove_found (pq : PriorityQueue T) (equals : T → T → Bool)
    (he : pq.equals = some equals) (x : T)
    (h : scan equals pq.container x pq.size 1 ≤ pq.size) :
    Remove pq x = .ok (true, { pq with
      size := pq.size - 1
      container := siftDown (scan equals pq.container x pq.size 1)
        (swap pq.container (scan equals pq.container x pq.size 1) pq.size) (pq.size - 1)
        pq.compare }) := by
  unfold Remove
  rw [he]
  simp only
  rw [if_neg (by omega)]

theorem remove_absent (pq : PriorityQueue T) (equals : T → T → Bool)
    (he : pq.equals = some equals) (x : T)
    (h : pq.size < scan equals pq.container x pq.size 1) :
    Remove pq x = .ok (false, pq) := by
  unfold Remove
  rw [he]
  simp only
  rw [if_pos h]

theorem slots_swap_last (heap : List T) (size i : Nat) (hi : 1 ≤ i) (his : i ≤ size)
    (hlen : size < heap.length) :
    (slots heap size).Perm (slots (swap heap i size) (size - 1) ++ [heap.getD i default]) := by
  have hsl : size - 1 + 1 = size := by omega
  have hl2 : size - 1 + 1 < (swap heap i size).length := by
    rw [length_swap]; omega
  have e := slots_succ (swap heap i size) (size - 1) hl2
  rw [hsl, getD_swap _ _ _ _ (by omega) hlen, if_pos rfl] at e
  have p1 := slots_swap_perm heap size i size hi (by omega) his (le_refl _) hlen
  rw [e] at p1
  exact p1.symm

theorem remove_found_logical (pq : PriorityQueue T) (wf : WF pq) (i : Nat) (hi : 1 ≤ i)
    (his : i ≤ pq.size) :
    (logical pq).Perm
      (slots (siftDown i (swap pq.container i pq.size) (pq.size - 1) pq.compare) (pq.size - 1)
        ++ [pq.container.getD i default]) := by
  have hlen := wf.len
  have hle := wf.le
  refine (slots_swap_last pq.container pq.size i hi his (by omega)).trans ?_
  apply List.Perm.append_right
  exact (siftDown_slots_perm pq.compare (pq.size - 1) i _ hi (by rw [length_swap]; omega)).symm

/-! ## Slots outside the sifted range are untouched -/

theorem siftDownLoop_getD_frame (compare : T → T → Bool) (size : Nat) :
    ∀ (fuel i : Nat) (heap : List T), 1 ≤ i → size < heap.length →
      ∀ k, k < i ∨ size < k →
        (siftDownLoop compare size fuel i heap).getD k default = heap.getD k default := by
  intro fuel
  induction fuel with
  | zero => intro i heap _ _ k _; rfl
  | succ fuel ih =>
    intro i heap hi hlen k hk
    unfold siftDownLoop
    simp only [shiftLeft_one]
    split
    · rename_i h2i
      have hpick := pickChild_eq compare heap size i
      generalize pickChild compare heap size i = child at hpick
      split
      · rw [ih child (swap heap child i) (by omega) (by rw [length_swap]; exact hlen) k (by omega),
          getD_swap _ _ _ _ (by omega) (by omega), if_neg (by omega), if_neg (by omega)]
      · rfl
    · rfl

theorem siftDown_getD_frame (compare : T → T → Bool) (size start : Nat) (heap : List T)
    (hstart : 1 ≤ start) (hlen : size < heap.length) (k : Nat) (hk : k < start ∨ size < k) :
    (siftDown start heap size compare).getD k default = heap.getD k default :=
  siftDownLoop_getD_frame compare size size start heap hstart hlen k hk

theorem heapifyLoop_getD_frame (compare : T → T → Bool) (size : Nat) :
    ∀ (i : Nat) (heap : List T), size < heap.length → ∀ k, k = 0 ∨ size < k →
      (heapifyLoop compare size i heap).getD k default = heap.getD k default := by
  intro i
  induction i with
  | zero => intro heap _ k _; rfl
  | succ i ih =>
    intro heap hlen k hk
    unfold heapifyLoop
    rw [ih _ (by rw [length_siftDown]; exact hlen) k hk,
      siftDown_getD_frame compare size (i + 1) heap (by omega) hlen k (by omega)]

/-! ## ForEach -/

theorem getD_applyLoop (f : T → T) :
    ∀ (n i : Nat) (container : List T), i + n ≤ container.length → ∀ k,
      (applyLoop f n i container).getD k default =
        if i ≤ k ∧ k < i + n then f (container.getD k default) else container.getD k default := by
  intro n
  induction n with
  | zero =>
    intro i container _ k
    simp only [applyLoop]
    rw [if_neg (by omega)]
  | succ n ih =>
    intro i container hlen k
    simp only [applyLoop]
    rw [ih (i + 1) _ (by rw [List.length_set]; omega) k, getD_set_default _ _ _ _ (by omega)]
    by_cases hki : k = i
    · subst hki
      rw [if_neg (by omega), if_pos rfl, if_pos (by omega)]
    · rw [if_neg hki]
      by_cases h : i + 1 ≤ k ∧ k < i + 1 + n
      · rw [if_pos h, if_pos (by omega)]
      · rw [if_neg h, if_neg (by omega)]

theorem slots_eq_map (f : T → T) (h1 h2 : List T) (size : Nat) (hl1 : size < h1.length)
    (hl2 : size < h2.length)
    (h : ∀ k, 1 ≤ k → k ≤ size → h1.getD k default = f (h2.getD k default)) :
    slots h1 size = (slots h2 size).map f := by
  apply List.ext_getElem
  · rw [List.length_map, length_slots _ _ hl1, length_slots _ _ hl2]
  · intro n hn1 hn2
    rw [length_slots _ _ hl1] at hn1
    have e1 := getD_slots h1 size n hn1
    have e2 := getD_slots h2 size n hn1
    rw [List.getD_eq_getElem _ _ (by rw [length_slots _ _ hl1]; exact hn1)] at e1
    rw [List.getD_eq_getElem _ _ (by rw [length_slots _ _ hl2]; exact hn1)] at e2
    rw [List.getElem_map, e1, e2]
    exact h (n + 1) (by omega) (by omega)

theorem slots_applyLoop (f : T → T) (container : List T) (size : Nat)
    (hlen : size < container.length) :
    slots (applyLoop f size 1 container) size = (slots container size).map f := by
  apply slots_eq_map f _ _ size (by rw [length_applyLoop]; exact hlen) hlen
  intro k hk1 hks
  rw [getD_applyLoop f size 1 container (by omega) k, if_pos (by omega)]

theorem forEach_logical (pq : PriorityQueue T) (wf : WF pq) (f : T → T) :
    (logical (ForEach pq f)).Perm ((logical pq).map f) := by
  have hlen := wf.len
  have hle := wf.le
  unfold logical
  simp only [ForEach]
  rw [← slots_applyLoop f pq.container pq.size (by omega)]
  exact heapifyLoop_slots_perm pq.compare pq.size _ _ (by rw [length_applyLoop]; omega)

theorem forEach_frame (pq : PriorityQueue T) (wf : WF pq) (f : T → T) (k : Nat)
    (hk : k = 0 ∨ pq.size < k) :
    (ForEach pq f).container.getD k default = pq.container.getD k default := by
  have hlen := wf.len
  have hle := wf.le
  simp only [ForEach]
  rw [heapifyLoop_getD_frame pq.compare pq.size _ _ (by rw [length_applyLoop]; omega) k hk,
    getD_applyLoop f pq.size 1 pq.container (by omega) k, if_neg (by omega)]

theorem remove_then_contains_two (pq q : PriorityQueue T) (wf : WF pq)
    (equals : T → T → Bool) (he : pq.equals = some equals) (x : T)
    (hr : Remove pq x = .ok (true, q)) (hc : Contains q x = .ok true) :
    ∃ i j, i ≠ j ∧ 1 ≤ i ∧ i ≤ pq.size ∧ 1 ≤ j ∧ j ≤ pq.size ∧
      equals (pq.container.getD i default) x = true ∧
      equals (pq.container.getD j default) x = true := by
  have hlen := wf.len
  have hle := wf.le
  by_cases hs : scan equals pq.container x pq.size 1 ≤ pq.size
  · obtain ⟨h1, _, h3, _⟩ := scan_spec equals pq.container x pq.size 1
    have hfound := remove_found pq equals he x hs
    generalize scan equals pq.container x pq.size 1 = i at hs h1 h3 hfound
    have hq : q = { pq with
        size := pq.size - 1
        container := siftDown i (swap pq.container i pq.size) (pq.size - 1) pq.compare } := by
      rw [hfound] at hr
      injection hr with hr
      injection hr with _ hr
      exact hr.symm
    have heq : q.equals = some equals := by rw [hq]; exact he
    obtain ⟨k, hk1, hk2, hk3⟩ := (contains_iff q equals heq x).mp hc
    rw [hq] at hk2 hk3
    simp only at hk2 hk3
    have hlen2 : pq.size - 1 < (swap pq.container i pq.size).length := by
      rw [length_swap]; omega
    have hmem : (siftDown i (swap pq.container i pq.size) (pq.size - 1) pq.compare).getD k default
        ∈ slots (siftDown i (swap pq.container i pq.size) (pq.size - 1) pq.compare)
          (pq.size - 1) :=
      (mem_slots_iff _ _ (by rw [length_siftDown]; exact hlen2) _).mpr ⟨k, hk1, hk2, rfl⟩
    have hmem2 := (siftDown_slots_perm pq.compare (pq.size - 1) i _ h1 hlen2).subset hmem
    obtain ⟨m, hm1, hm2, hm3⟩ := (mem_slots_iff _ _ hlen2 _).mp hmem2
    rw [← hm3, getD_swap _ _ _ _ (by omega) (by omega), if_neg (by omega)] at hk3
    by_cases hmi : m = i
    · rw [if_pos hmi] at hk3
      exact ⟨i, pq.size, by omega, h1, hs, by omega, le_refl _, h3 (by omega), hk3⟩
    · rw [if_neg hmi] at hk3
      exact ⟨i, m, fun e => hmi e.symm, h1, hs, hm1, by omega, h3 (by omega), hk3⟩
  · rw [remove_absent pq equals he x (by omega)] at hr
    injection hr with hr
    injection hr with hb _
    exact absurd hb (by decide)

/-! ## States reachable by calls -/

theorem run_reachable (pq : PriorityQueue T) (c : Call T) (h : Reachable pq) :
    Reachable (run pq c).1 := by
  cases c with
  | setEqualityComparer equals => exact Reachable.setEqualityComparer equals h
  | size => exact h
  | empty => exact h
  | enqueue x => exact Reachable.enqueue x h
  | dequeue =>
    simp only [run]
    split
    · rename_i q hq
      exact Reachable.dequeue h hq
    · exact h
  | peek =>
    simp only [run]
    split <;> exact h
  | add x => exact Reachable.add x h
  | remove x =>
    simp only [run]
    split
    · rename_i b q hq
      exact Reachable.remove x b h hq
    · exact h
  | contains x =>
    simp only [run]
    split <;> exact h
  | clear => exact Reachable.clear h
  | forEach f => exact Reachable.forEach f h

theorem reachableByCalls_reachable (pq : PriorityQueue T) (h : ReachableByCalls pq) :
    Reachable pq := by
  induction h with
  | new compare => exact Reachable.new compare
  | heapify elements compare => exact Reachable.heapify elements compare
  | call c _ ih => exact run_reachable _ c ih

theorem length_enqueue (pq : PriorityQueue T) (x : T) :
    (Enqueue pq x).container.length =
      if pq.cap < pq.size + 1 then pq.container.length + 1 else pq.container.length := by
  rw [enqueue_container, siftUp, length_siftUpLoop]
  unfold enqueuePlaced
  split
  · simp
  · simp

theorem run_frame (pq : PriorityQueue T) (c : Call T)
    (hc : ∀ x, c ≠ .enqueue x ∧ c ≠ .add x) :
    (run pq c).1.cap = pq.cap ∧ (run pq c).1.container.length = pq.container.length := by
  cases c with
  | setEqualityComparer equals => exact ⟨rfl, rfl⟩
  | size => exact ⟨rfl, rfl⟩
  | empty => exact ⟨rfl, rfl⟩
  | enqueue x => exact absurd rfl (hc x).1
  | dequeue =>
    by_cases h : pq.size = 0
    · have hd : Dequeue pq = .error "Cannot Dequeue. PriorityQueue is empty" := by
        unfold Dequeue
        rw [if_pos h]
      simp only [run, hd, and_self]
    · simp only [run, dequeue_eq pq h, length_siftDown, length_swap, and_self]
  | peek =>
    simp only [run]
    split <;> exact ⟨rfl, rfl⟩
  | add x => exact absurd rfl (hc x).2
  | remove x =>
    cases he : pq.equals with
    | none =>
      have hr : Remove pq x = .error "Cannot Remove. Equality comparer was not set" := by
        unfold Remove
        rw [he]
      simp only [run, hr, and_self]
    | some equals =>
      by_cases hs : scan equals pq.container x pq.size 1 ≤ pq.size
      · simp only [run, remove_found pq equals he x hs, length_siftDown, length_swap, and_self]
      · simp only [run, remove_absent pq equals he x (Nat.lt_of_not_le hs), and_self]
  | contains x =>
    simp only [run]
    split <;> exact ⟨rfl, rfl⟩
  | clear => exact ⟨rfl, rfl⟩
  | forEach f =>
    simp only [run, ForEach, length_heapifyLoop, length_applyLoop, and_self]

/-! ## The sift loops only depend on the logical slots -/

theorem pickChild_agree (compare : T → T → Bool) (h1 h2 : List T) (size i : Nat)
    (ha : Agree h1 h2 size) (hi : 1 ≤ i) (h2i : 2 * i ≤ size) :
    pickChild compare h1 size i = pickChild compare h2 size i := by
  unfold pickChild
  simp only [shiftLeft_one]
  by_cases hc : 2 * i + 1 ≤ size
  · rw [ha (2 * i + 1) (by omega) hc, ha (2 * i) (by omega) h2i]
  · simp [hc]

theorem swap_agree (h1 h2 : List T) (size i j : Nat) (ha : Agree h1 h2 size)
    (hi : 1 ≤ i) (his : i ≤ size) (hj : 1 ≤ j) (hjs : j ≤ size)
    (hl1 : size < h1.length) (hl2 : size < h2.length) :
    Agree (swap h1 i j) (swap h2 i j) size := by
  intro k hk1 hks
  rw [getD_swap _ _ _ _ (by omega) (by omega), getD_swap _ _ _ _ (by omega) (by omega),
    ha i hi his, ha j hj hjs, ha k hk1 hks]

theorem siftDownLoop_agree (compare : T → T → Bool) (size : Nat) :
    ∀ (fuel i : Nat) (h1 h2 : List T), 1 ≤ i → size < h1.length → size < h2.length →
      Agree h1 h2 size →
      Agree (siftDownLoop compare size fuel i h1) (siftDownLoop compare size fuel i h2) size := by
  intro fuel
  induction fuel with
  | zero => intro i h1 h2 _ _ _ ha; exact ha
  | succ fuel ih =>
    intro i h1 h2 hi hl1 hl2 ha
    unfold siftDownLoop
    simp only [shiftLeft_one]
    split
    · rename_i h2i
      rw [pickChild_agree compare h1 h2 size i ha hi h2i]
      have hpick := pickChild_eq compare h2 size i
      generalize pickChild compare h2 size i = child at hpick
      have hcs : child ≤ size := by omega
      rw [ha child (by omega) hcs, ha i hi (by omega)]
      split
      · exact ih child _ _ (by omega) (by rw [length_swap]; exact hl1)
          (by rw [length_swap]; exact hl2)
          (swap_agree h1 h2 size child i ha (by omega) hcs hi (by omega) hl1 hl2)
      · exact ha
    · exact ha

theorem siftUpLoop_agree (compare : T → T → Bool) (size : Nat) :
    ∀ (fuel i : Nat) (h1 h2 : List T), i ≤ size → size < h1.length → size < h2.length →
      Agree h1 h2 size →
      Agree (siftUpLoop compare fuel i h1) (siftUpLoop compare fuel i h2) size := by
  intro fuel
  induction fuel with
  | zero => intro i h1 h2 _ _ _ ha; exact ha
  | succ fuel ih =>
    intro i h1 h2 his hl1 hl2 ha
    unfold siftUpLoop
    simp only [shiftRight_one]
    split
    · rename_i hi1
      rw [ha i (by omega) his, ha (i / 2) (by omega) (by omega)]
      split
      · exact ih (i / 2) _ _ (by omega) (by rw [length_swap]; exact hl1)
          (by rw [length_swap]; exact hl2)
          (swap_agree h1 h2 size i (i / 2) ha (by omega) his (by omega) (by omega) hl1 hl2)
      · exact ha
    · exact ha

theorem similar_logical (q1 q2 : PriorityQueue T) (h : Similar q1 q2) :
    logical q1 = logical q2 := by
  have := h.wf1.len
  have := h.wf1.le
  have := h.wf2.len
  have := h.wf2.le
  have := h.size
  unfold logical
  rw [← h.size]
  exact slots_congr _ _ _ (by omega) (by omega) h.agree

theorem enqueue_similar (q1 q2 : PriorityQueue T) (h : Similar q1 q2) (x : T) :
    Similar (Enqueue q1 x) (Enqueue q2 x) := by
  have hl1 := length_enqueuePlaced q1 x h.wf1
  have hl2 := length_enqueuePlaced q2 x h.wf2
  have hle1 := h.wf1.le
  have hle2 := h.wf2.le
  have hs := h.size
  refine ⟨?_, ?_, enqueue_wf q1 x h.wf1, enqueue_wf q2 x h.wf2, ?_⟩
  · rw [enqueue_compare, enqueue_compare]; exact h.compare
  · rw [enqueue_size, enqueue_size, h.size]
  · rw [enqueue_container, enqueue_container, enqueue_size, ← h.compare, ← h.size]
    apply siftUpLoop_agree q1.compare (q1.size + 1) (q1.size + 1) (q1.size + 1) _ _ (le_refl _)
      (by rw [hl1]; split <;> omega) (by rw [hl2]; split <;> omega)
    intro k hk1 hks
    rw [getD_enqueuePlaced _ _ h.wf1, getD_enqueuePlaced _ _ h.wf2, ← h.size]
    by_cases hk : k = q1.size + 1
    · rw [if_pos hk, if_pos hk]
    · rw [if_neg hk, if_neg hk]
      exact h.agree k hk1 (by omega)

theorem enqueueAll_similar (ys : List T) :
    ∀ (q1 q2 : PriorityQueue T), Similar q1 q2 →
      Similar (enqueueAll q1 ys) (enqueueAll q2 ys) := by
  induction ys with
  | nil => intro q1 q2 h; exact h
  | cons y ys ih =>
    intro q1 q2 h
    exact ih _ _ (enqueue_similar q1 q2 h y)

theorem dequeue_similar (q1 q2 a : PriorityQueue T) (h : Similar q1 q2)
    (hd : Dequeue q1 = .ok a) : ∃ b, Dequeue q2 = .ok b ∧ Similar a b := by
  have hne : q1.size ≠ 0 := by
    intro h0
    simp [Dequeue, h0] at hd
  have hne2 : q2.size ≠ 0 := by rw [← h.size]; exact hne
  have hw1 := dequeue_wf q1 a h.wf1 hd
  have hd2 := dequeue_eq q2 hne2
  have hw2 := dequeue_wf q2 _ h.wf2 hd2
  refine ⟨_, hd2, ?_⟩
  rw [dequeue_eq q1 hne] at hd
  injection hd with hd
  subst hd
  have hl1 := h.wf1.len
  have hle1 := h.wf1.le
  have hl2 := h.wf2.len
  have hle2 := h.wf2.le
  have hs := h.size
  refine ⟨h.compare, by simp only [h.size], hw1, hw2, ?_⟩
  simp only
  rw [← h.compare, ← h.size]
  apply siftDownLoop_agree q1.compare (q1.size - 1) (q1.size - 1) 1 _ _ (le_refl 1)
    (by rw [length_swap]; omega) (by rw [length_swap]; omega)
  intro k hk1 hks
  exact swap_agree q1.container q2.container q1.size 1 q1.size h.agree (le_refl 1) (by omega)
    (by omega) (le_refl _) (by omega) (by omega) k hk1 (by omega)

theorem drain_similar :
    ∀ (n : Nat) (q1 q2 : PriorityQueue T), Similar q1 q2 → q1.size = n →
      ∃ zs a b, drain n q1 = .ok (zs, a) ∧ drain n q2 = .ok (zs, b) := by
  intro n
  induction n with
  | zero => intro q1 q2 _ _; exact ⟨[], q1, q2, rfl, rfl⟩
  | succ n ih =>
    intro q1 q2 h hsz
    have hne : q1.size ≠ 0 := by omega
    have hne2 : q2.size ≠ 0 := by rw [← h.size]; exact hne
    have hd1 := dequeue_eq q1 hne
    obtain ⟨b, hd2, hsim⟩ := dequeue_similar q1 q2 _ h hd1
    obtain ⟨zs, a2, b2, ha, hb⟩ := ih _ b hsim (by simp only; omega)
    refine ⟨q1.container.getD 1 default :: zs, a2, b2, ?_, ?_⟩
    · simp only [drain, peek_eq q1 hne, hd1, ha]
    · simp only [drain, peek_eq q2 hne2, hd2, hb]
      rw [h.agree 1 (le_refl 1) (by omega)]

/-! ## The audited methods never leave the range `[1, len-1]` -/

omit [Inhabited T] in
theorem andThen_ok {α β : Type} (a : α) (f : α → Except String β) :
    andThen (.ok a) f = f a := rfl

theorem readAt_ok (heap : List T) (i : Nat) (hi : 1 ≤ i) (hl : i < heap.length) :
    readAt heap i = .ok (heap.getD i default) := by
  unfold readAt
  rw [if_pos ⟨hi, hl⟩]

omit [Inhabited T] in
theorem writeAt_ok (heap : List T) (i : Nat) (v : T) (hi : 1 ≤ i) (hl : i < heap.length) :
    writeAt heap i v = .ok (heap.set i v) := by
  unfold writeAt
  rw [if_pos ⟨hi, hl⟩]

theorem swapChecked_ok (heap : List T) (i j : Nat) (hi : 1 ≤ i) (hil : i < heap.length)
    (hj : 1 ≤ j) (hjl : j < heap.length) :
    swapChecked heap i j = .ok (swap heap i j) := by
  unfold swapChecked swap
  rw [readAt_ok heap j hj hjl, andThen_ok, readAt_ok heap i hi hil, andThen_ok,
    writeAt_ok heap i _ hi hil, andThen_ok, writeAt_ok _ j _ hj (by simpa using hjl)]

theorem siftUpLoopChecked_ok (compare : T → T → Bool) :
    ∀ (fuel i : Nat) (heap : List T), i < heap.length →
      siftUpLoopChecked compare fuel i heap = .ok (siftUpLoop compare fuel i heap) := by
  intro fuel
  induction fuel with
  | zero => intro i heap _; rfl
  | succ fuel ih =>
    intro i heap hl
    unfold siftUpLoopChecked siftUpLoop
    simp only [shiftRight_one]
    split
    · rename_i hi1
      rw [readAt_ok heap i (by omega) hl, andThen_ok,
        readAt_ok heap (i / 2) (by omega) (by omega), andThen_ok]
      split
      · rw [swapChecked_ok heap i (i / 2) (by omega) hl (by omega) (by omega), andThen_ok]
        exact ih (i / 2) _ (by rw [length_swap]; omega)
      · rfl
    · rfl

theorem pickChildChecked_ok (compare : T → T → Bool) (heap : List T) (size i : Nat)
    (hi : 1 ≤ i) (hl : size < heap.length) :
    pickChildChecked compare heap size i = .ok (pickChild compare heap size i) := by
  unfold pickChildChecked pickChild
  simp only [shiftLeft_one]
  by_cases hc : 2 * i + 1 ≤ size
  · rw [if_pos hc, readAt_ok heap (2 * i + 1) (by omega) (by omega), andThen_ok,
      readAt_ok heap (2 * i) (by omega) (by omega), andThen_ok]
    simp [hc]
  · rw [if_neg hc]
    simp [hc]

theorem siftDownLoopChecked_ok (compare : T → T → Bool) (size : Nat) :
    ∀ (fuel i : Nat) (heap : List T), 1 ≤ i → size < heap.length →
      siftDownLoopChecked compare size fuel i heap =
        .ok (siftDownLoop compare size fuel i heap) := by
  intro fuel
  induction fuel with
  | zero => intro i heap _ _; rfl
  | succ fuel ih =>
    intro i heap hi hl
    unfold siftDownLoopChecked siftDownLoop
    simp only [shiftLeft_one]
    split
    · rename_i h2i
      rw [pickChildChecked_ok compare heap size i hi hl, andThen_ok]
      have hpick := pickChild_eq compare heap size i
      generalize pickChild compare heap size i = child at hpick
      rw [readAt_ok heap child (by omega) (by omega), andThen_ok,
        readAt_ok heap i hi (by omega), andThen_ok]
      split
      · rw [swapChecked_ok heap child i (by omega) (by omega) hi (by omega), andThen_ok]
        exact ih child _ (by omega) (by rw [length_swap]; exact hl)
      · rfl
    · rfl

theorem enqueueChecked_ok (pq : PriorityQueue T) (wf : WF pq) (x : T) :
    EnqueueChecked pq x = .ok (Enqueue pq x) := by
  have hlen := wf.len
  have hle := wf.le
  unfold EnqueueChecked Enqueue siftUpChecked siftUp
  simp only
  split
  · rw [siftUpLoopChecked_ok pq.compare (pq.size + 1) (pq.size + 1) _
      (by rw [List.length_append, List.length_singleton]; omega), andThen_ok]
  · rw [writeAt_ok pq.container (pq.size + 1) x (by omega) (by omega), andThen_ok,
      siftUpLoopChecked_ok pq.compare (pq.size + 1) (pq.size + 1) _
        (by rw [List.length_set]; omega), andThen_ok]

theorem dequeueChecked_ok (pq : PriorityQueue T) (wf : WF pq) :
    DequeueChecked pq = Dequeue pq := by
  have hlen := wf.len
  have hle := wf.le
  unfold DequeueChecked Dequeue siftDownChecked siftDown
  split
  · rfl
  · rename_i hne
    rw [swapChecked_ok pq.container 1 pq.size (le_refl 1) (by omega) (by omega) (by omega),
      andThen_ok, siftDownLoopChecked_ok pq.compare (pq.size - 1) (pq.size - 1) 1 _ (le_refl 1)
        (by rw [length_swap]; omega), andThen_ok]

theorem peekChecked_ok (pq : PriorityQueue T) (wf : WF pq) : PeekChecked pq = Peek pq := by
  have hlen := wf.len
  have hle := wf.le
  unfold PeekChecked Peek
  split
  · rfl
  · rw [readAt_ok pq.container 1 (le_refl 1) (by omega)]

theorem scanChecked_ok (equals : T → T → Bool) (container : List T) (x : T) :
    ∀ (n i : Nat), 1 ≤ i → i + n ≤ container.length →
      scanChecked equals container x n i = .ok (scan equals container x n i) := by
  intro n
  induction n with
  | zero => intro i _ _; rfl
  | succ n ih =>
    intro i hi hl
    unfold scanChecked scan
    rw [readAt_ok container i hi (by omega), andThen_ok]
    split
    · rfl
    · exact ih (i + 1) (by omega) (by omega)

theorem containsLoopChecked_ok (equals : T → T → Bool) (container : List T) (x : T) :
    ∀ (n i : Nat), 1 ≤ i → i + n ≤ container.length →
      containsLoopChecked equals container x n i =
        .ok (containsLoop equals container x n i) := by
  intro n
  induction n with
  | zero => intro i _ _; rfl
  | succ n ih =>
    intro i hi hl
    unfold containsLoopChecked containsLoop
    rw [readAt_ok container i hi (by omega), andThen_ok]
    split
    · rfl
    · exact ih (i + 1) (by omega) (by omega)

theorem removeChecked_ok (pq : PriorityQueue T) (wf : WF pq) (x : T) :
    RemoveChecked pq x = Remove pq x := by
  have hlen := wf.len
  have hle := wf.le
  unfold RemoveChecked Remove siftDownChecked siftDown
  split
  · rfl
  · rename_i equals _
    rw [scanChecked_ok equals pq.container x pq.size 1 (le_refl 1) (by omega), andThen_ok]
    simp only
    obtain ⟨h1, _, _, _⟩ := scan_spec equals pq.container x pq.size 1
    generalize scan equals pq.container x pq.size 1 = i at h1
    split
    · rfl
    · rename_i hi
      rw [swapChecked_ok pq.container i pq.size h1 (by omega) (by omega) (by omega), andThen_ok,
        siftDownLoopChecked_ok pq.compare (pq.size - 1) (pq.size - 1) i _ h1
          (by rw [length_swap]; omega), andThen_ok]

theorem containsChecked_ok (pq : PriorityQueue T) (wf : WF pq) (x : T) :
    ContainsChecked pq x = Contains pq x := by
  have hlen := wf.len
  have hle := wf.le
  unfold ContainsChecked Contains
  split
  · rfl
  · rename_i equals _
    exact containsLoopChecked_ok equals pq.container x pq.size 1 (le_refl 1) (by omega)

theorem applyLoopChecked_ok (f : T → T) :
    ∀ (n i : Nat) (container : List T), 1 ≤ i → i + n ≤ container.length →
      applyLoopChecked f n i container = .ok (applyLoop f n i container) := by
  intro n
  induction n with
  | zero => intro i container _ _; rfl
  | succ n ih =>
    intro i container hi hl
    unfold applyLoopChecked applyLoop
    rw [readAt_ok container i hi (by omega), andThen_ok,
      writeAt_ok container i _ hi (by omega), andThen_ok]
    exact ih (i + 1) _ (by omega) (by rw [List.length_set]; omega)

theorem heapifyLoopChecked_ok (compare : T → T → Bool) (size : Nat) :
    ∀ (i : Nat) (container : List T), size < container.length →
      heapifyLoopChecked compare size i container =
        .ok (heapifyLoop compare size i container) := by
  intro i
  induction i with
  | zero => intro container _; rfl
  | succ i ih =>
    intro container hl
    unfold heapifyLoopChecked heapifyLoop siftDownChecked siftDown
    rw [siftDownLoopChecked_ok compare size size (i + 1) container (by omega) hl, andThen_ok]
    exact ih _ (by rw [length_siftDownLoop]; exact hl)

theorem forEachChecked_ok (pq : PriorityQueue T) (wf : WF pq) (f : T → T) :
    ForEachChecked pq f = .ok (ForEach pq f) := by
  have hlen := wf.len
  have hle := wf.le
  unfold ForEachChecked ForEach
  rw [applyLoopChecked_ok f pq.size 1 pq.container (le_refl 1) (by omega), andThen_ok,
    heapifyLoopChecked_ok pq.compare pq.size _ _ (by rw [length_applyLoop]; omega), andThen_ok]

/-! ## The only faults of the methods -/

theorem dequeue_error (pq : PriorityQueue T) (msg : String) (h : Dequeue pq = .error msg) :
    msg = "Cannot Dequeue. PriorityQueue is empty" ∧ pq.size = 0 := by
  by_cases h0 : pq.size = 0
  · unfold Dequeue at h
    rw [if_pos h0] at h
    injection h with h
    exact ⟨h.symm, h0⟩
  · rw [dequeue_eq pq h0] at h
    exact absurd h (by simp)

theorem peek_error (pq : PriorityQueue T) (msg : String) (h : Peek pq = .error msg) :
    msg = "Cannot Peek. PriorityQueue is empty" ∧ pq.size = 0 := by
  by_cases h0 : pq.size = 0
  · unfold Peek at h
    rw [if_pos h0] at h
    injection h with h
    exact ⟨h.symm, h0⟩
  · rw [peek_eq pq h0] at h
    exact absurd h (by simp)

theorem remove_returns (pq : PriorityQueue T) (equals : T → T → Bool)
    (he : pq.equals = some equals) (x : T) : ∃ b q, Remove pq x = .ok (b, q) := by
  by_cases hs : scan equals pq.container x pq.size 1 ≤ pq.size
  · exact ⟨_, _, remove_found pq equals he x hs⟩
  · exact ⟨_, _, remove_absent pq equals he x (Nat.lt_of_not_le hs)⟩

theorem remove_error (pq : PriorityQueue T) (x : T) (msg : String)
    (h : Remove pq x = .error msg) :
    msg = "Cannot Remove. Equality comparer was not set" ∧ pq.equals = none := by
  cases he : pq.equals with
  | none =>
    unfold Remove at h
    rw [he] at h
    injection h with h
    exact ⟨h.symm, rfl⟩
  | some equals =>
    obtain ⟨b, q, hr⟩ := remove_returns pq equals he x
    rw [hr] at h
    exact absurd h (by simp)

theorem contains_error (pq : PriorityQueue T) (x : T) (msg : String)
    (h : Contains pq x = .error msg) :
    msg = "Cannot execute Contains. Equality comparer was not set" ∧ pq.equals = none := by
  cases he : pq.equals with
  | none =>
    unfold Contains at h
    rw [he] at h
    injection h with h
    exact ⟨h.symm, rfl⟩
  | some equals =>
    rw [contains_eq pq equals he x] at h
    exact absurd h (by simp)

/-! ## Sifting down in a heap-ordered array changes nothing -/

theorem siftDownLoop_id (compare : T → T → Bool) (size : Nat) (heap : List T)
    (hq : HeapOrdered compare heap size) :
    ∀ (fuel i : Nat), 1 ≤ i → siftDownLoop compare size fuel i heap = heap := by
  intro fuel i hi
  cases fuel with
  | zero => rfl
  | succ fuel =>
    unfold siftDownLoop
    simp only [shiftLeft_one]
    split
    · rename_i h2i
      have hpick := pickChild_eq compare heap size i
      generalize pickChild compare heap size i = child at hpick
      have hc : compare (heap.getD child default) (heap.getD i default) = false :=
        hq i child hi (by omega) (by omega) (by omega)
      simp only [hc, Bool.false_eq_true, if_false]
    · rfl

theorem heapifyLoop_id (compare : T → T → Bool) (size : Nat) (heap : List T)
    (hq : HeapOrdered compare heap size) :
    ∀ (i : Nat), heapifyLoop compare size i heap = heap := by
  intro i
  induction i with
  | zero => rfl
  | succ i ih =>
    unfold heapifyLoop siftDown
    rw [siftDownLoop_id compare size heap hq size (i + 1) (by omega)]
    exact ih

omit [Inhabited T] in
theorem set_getD_self (d : T) : ∀ (l : List T) (i : Nat), l.set i (l.getD i d) = l := by
  intro l
  induction l with
  | nil => intro i; rfl
  | cons x l ih =>
    intro i
    cases i with
    | zero => rfl
    | succ i =>
      simp only [List.getD_cons_succ, List.set_cons_succ]
      rw [ih i]

theorem applyLoop_id (f : T → T) :
    ∀ (n i : Nat) (container : List T),
      (∀ k, i ≤ k → k < i + n → f (container.getD k default) = container.getD k default) →
      applyLoop f n i container = container := by
  intro n
  induction n with
  | zero => intro i container _; rfl
  | succ n ih =>
    intro i container hf
    unfold applyLoop
    have hset : container.set i (f (container.getD i default)) = container := by
      rw [hf i (le_refl _) (by omega)]
      exact set_getD_self default container i
    rw [hset]
    exact ih (i + 1) container (fun k h1 h2 => hf k (by omega) (by omega))

/-! ## The root after sifting up -/

theorem siftUpLoop_root {compare : T → T → Bool} (swo : StrictWeakOrder compare)
    (size : Nat) (x t : T) :
    ∀ (fuel i : Nat) (heap : List T), i ≤ size → size < heap.length → i ≤ fuel →
      (∀ k, 1 ≤ k → k ≤ size → k ≠ i → compare (heap.getD k default) t = false) →
      heap.getD i default = x →
      ((i = 1 ∧ compare x t = true) ∨ (2 ≤ i ∧ heap.getD 1 default = t)) →
      (siftUpLoop compare fuel i heap).getD 1 default = if compare x t then x else t := by
  intro fuel
  induction fuel with
  | zero =>
    intro i heap _ _ hfuel _ _ hcase
    rcases hcase with ⟨h1, _⟩ | ⟨h2, _⟩ <;> omega
  | succ fuel ih =>
    intro i heap his hlen hfuel hinv hx hcase
    unfold siftUpLoop
    simp only [shiftRight_one]
    split
    · rename_i hi1
      have hroot : heap.getD 1 default = t := by
        rcases hcase with ⟨h1, _⟩ | ⟨_, h2⟩
        · omega
        · exact h2
      have hp := hinv (i / 2) (by omega) (by omega) (by omega)
      split
      · rename_i hcmp
        rw [hx] at hcmp
        apply ih (i / 2) (swap heap i (i / 2)) (by omega) (by rw [length_swap]; exact hlen)
          (by omega)
        · intro k hk1 hks hkp
          rw [getD_swap _ _ _ _ (by omega) (by omega), if_neg hkp]
          by_cases hki : k = i
          · rw [if_pos hki]; exact hp
          · rw [if_neg hki]; exact hinv k hk1 hks hki
        · rw [getD_swap _ _ _ _ (by omega) (by omega), if_pos rfl]
          exact hx
        · by_cases hp1 : i / 2 = 1
          · left
            refine ⟨hp1, ?_⟩
            rw [hp1, hroot] at hcmp
            exact hcmp
          · right
            refine ⟨by omega, ?_⟩
            rw [getD_swap _ _ _ _ (by omega) (by omega), if_neg (by omega), if_neg (by omega)]
            exact hroot
      · rename_i hcmp
        simp only [Bool.not_eq_true] at hcmp
        rw [hx] at hcmp
        rw [hroot, swo.negTrans _ _ _ hcmp hp]
        rfl
    · rename_i hi1
      rcases hcase with ⟨h1, hc⟩ | ⟨h2, _⟩
      · rw [hc, if_pos rfl, ← hx, h1]
      · omega

/-! ## Subtrees of the implicit binary tree -/

theorem inSubtree_iff (start k : Nat) (hs : 1 ≤ start) :
    inSubtree start k = true ↔ ∃ d, k / 2 ^ d = start := by
  unfold inSubtree
  simp only [List.any_eq_true, List.mem_range, beq_iff_eq]
  constructor
  · rintro ⟨d, _, hd⟩
    exact ⟨d, hd⟩
  · rintro ⟨d, hd⟩
    refine ⟨d, ?_, hd⟩
    have hpos : 0 < 2 ^ d := by positivity
    have h1 : 2 ^ d ≤ k := by
      by_contra hcon
      rw [Nat.div_eq_of_lt (by omega)] at hd
      omega
    have h2 : d < 2 ^ d := Nat.lt_two_pow d
    omega

theorem inSubtree_self (k : Nat) : inSubtree k k = true := by
  unfold inSubtree
  simp only [List.any_eq_true, List.mem_range, beq_iff_eq]
  exact ⟨0, by omega, by simp⟩

theorem div_pow_succ (k d : Nat) : k / 2 ^ (d + 1) = k / 2 / 2 ^ d := by
  rw [Nat.pow_succ, Nat.mul_comm, Nat.div_div_eq_div_mul]

theorem inSubtree_child (start i c : Nat) (hs : 1 ≤ start) (hi : inSubtree start i = true)
    (hc : c / 2 = i) : inSubtree start c = true := by
  rw [inSubtree_iff _ _ hs] at hi ⊢
  obtain ⟨d, hd⟩ := hi
  exact ⟨d + 1, by rw [div_pow_succ, hc]; exact hd⟩

theorem inSubtree_parent (start k : Nat) (hs : 1 ≤ start) (hk : inSubtree start k = true)
    (hne : k ≠ start) : inSubtree start (k / 2) = true := by
  rw [inSubtree_iff _ _ hs] at hk ⊢
  obtain ⟨d, hd⟩ := hk
  cases d with
  | zero => simp at hd; exact absurd hd hne
  | succ d => exact ⟨d, by rw [← div_pow_succ]; exact hd⟩

theorem inSubtree_ge (start k : Nat) (hs : 1 ≤ start) (hk : inSubtree start k = true) :
    start ≤ k := by
  rw [inSubtree_iff _ _ hs] at hk
  obtain ⟨d, hd⟩ := hk
  rw [← hd]
  exact Nat.div_le_self _ _

theorem inSubtree_trans (a b k : Nat) (ha : 1 ≤ a) (hab : inSubtree a b = true)
    (hbk : inSubtree b k = true) : inSubtree a k = true := by
  have hb : 1 ≤ b := le_trans ha (inSubtree_ge a b ha hab)
  rw [inSubtree_iff _ _ ha] at hab ⊢
  rw [inSubtree_iff _ _ hb] at hbk
  obtain ⟨d, hd⟩ := hab
  obtain ⟨e, he⟩ := hbk
  refine ⟨e + d, ?_⟩
  rw [Nat.pow_add, ← Nat.div_div_eq_div_mul, he, hd]

theorem heapFrom_ancestor {compare : T → T → Bool} (swo : StrictWeakOrder compare)
    (heap : List T) (size a : Nat) (h : HeapFrom compare heap size 1) (ha : 1 ≤ a) :
    ∀ (d k : Nat), k ≤ size → k / 2 ^ d = a →
      compare (heap.getD k default) (heap.getD a default) = false := by
  intro d
  induction d with
  | zero =>
    intro k _ hk
    simp at hk
    rw [hk]
    exact swo.irrefl _
  | succ d ih =>
    intro k hks hk
    rw [div_pow_succ] at hk
    have hk2 : 1 ≤ k / 2 := by
      have : a ≤ k / 2 := by rw [← hk]; exact Nat.div_le_self _ _
      omega
    exact swo.negTrans _ _ _ (h k (by omega) hks hk2) (ih (k / 2) (by omega) hk)

theorem scan_eq_first (equals : T → T → Bool) (container : List T) (x : T) (size i : Nat)
    (hi1 : 1 ≤ i) (his : i ≤ size) (hi : equals (container.getD i default) x = true)
    (hfirst : ∀ j, 1 ≤ j → j < i → equals (container.getD j default) x = false) :
    scan equals container x size 1 = i := by
  obtain ⟨h1, _, h3, h4⟩ := scan_spec equals container x size 1
  have hs := (scan_le_iff equals container x size).mpr ⟨i, hi1, his, hi⟩
  generalize scan equals container x size 1 = r at h1 h3 h4 hs
  by_contra hne
  rcases Nat.lt_or_gt_of_ne hne with hlt | hgt
  · have := hfirst r h1 hlt
    rw [h3 (by omega)] at this
    exact absurd this (by decide)
  · have := h4 i hi1 hgt
    rw [hi] at this
    exact absurd this (by decide)

theorem remove_heapOrdered_of_ancestor {pq : PriorityQueue T}
    (swo : StrictWeakOrder pq.compare) (wf : WF pq)
    (hq : HeapOrdered pq.compare pq.container pq.size) (i : Nat) (hi1 : 1 ≤ i)
    (his : i ≤ pq.size) (hanc : inSubtree i pq.size = true) :
    HeapOrdered pq.compare
      (siftDown i (swap pq.container i pq.size) (pq.size - 1) pq.compare) (pq.size - 1) := by
  have hlen := wf.len
  have hle := wf.le
  rw [heapOrdered_iff_heapFrom] at hq ⊢
  obtain ⟨d, hd⟩ := (inSubtree_iff _ _ hi1).mp hanc
  unfold siftDown
  apply siftDownLoop_heapFrom swo (pq.size - 1) 1 (le_refl 1) (pq.size - 1) i _ hi1
    (by rw [length_swap]; omega) (by omega)
  · intro c hc2 hcs hk hne
    have e1 : c ≠ pq.size := by omega
    have e2 : c / 2 ≠ pq.size := by omega
    rw [getD_swap _ _ _ c (by omega) (by omega), getD_swap _ _ _ (c / 2) (by omega) (by omega),
      if_neg e1, if_neg e2, if_neg hne]
    by_cases hci : c = i
    · rw [if_pos hci]
      subst hci
      exact heapFrom_ancestor swo pq.container pq.size (c / 2) hq hk (d + 1) pq.size
        (le_refl _) (by rw [div_pow_succ, Nat.div_div_eq_div_mul, Nat.mul_comm,
          ← Nat.div_div_eq_div_mul, hd])
    · rw [if_neg hci]
      exact hq c hc2 (by omega) hk
  · intro c hc2 hcs hp hk
    have e1 : c ≠ pq.size := by omega
    have e2 : c ≠ i := by omega
    have e3 : i / 2 ≠ pq.size := by omega
    have e4 : i / 2 ≠ i := by omega
    rw [getD_swap _ _ _ c (by omega) (by omega), getD_swap _ _ _ (i / 2) (by omega) (by omega),
      if_neg e1, if_neg e2, if_neg e3, if_neg e4]
    have h1 := hq c hc2 (by omega) (by omega)
    rw [hp] at h1
    exact swo.negTrans _ _ _ h1 (hq i (by omega) his hk)

/-! ## siftDown works inside the subtree of its start index -/

theorem siftDownLoop_heapOn {compare : T → T → Bool} (swo : StrictWeakOrder compare)
    (size : Nat) (P : Nat → Prop) (hP : ∀ c, 2 ≤ c → P (c / 2) → P c) :
    ∀ (fuel i : Nat) (heap : List T), 1 ≤ i → P i → size < heap.length → size < i + fuel →
      (∀ c, 2 ≤ c → c ≤ size → P (c / 2) → c / 2 ≠ i →
        compare (heap.getD c default) (heap.getD (c / 2) default) = false) →
      (∀ c, 2 ≤ c → c ≤ size → c / 2 = i → P (i / 2) →
        compare (heap.getD c default) (heap.getD (i / 2) default) = false) →
      ∀ c, 2 ≤ c → c ≤ size → P (c / 2) →
        compare ((siftDownLoop compare size fuel i heap).getD c default)
          ((siftDownLoop compare size fuel i heap).getD (c / 2) default) = false := by
  intro fuel
  induction fuel with
  | zero =>
    intro i heap _ _ _ hfuel ha _ c hc2 hcs hkc
    exact ha c hc2 hcs hkc (by omega)
  | succ fuel ih =>
    intro i heap hi1 hPi hlen hfuel ha hb
    unfold siftDownLoop
    simp only [shiftLeft_one]
    split
    · rename_i h2i
      have hpick := pickChild_eq compare heap size i
      have hbest := pickChild_best swo heap size i
      generalize pickChild compare heap size i = child at hpick hbest
      have hchild : (child = 2 * i ∨ child = 2 * i + 1) ∧ child ≤ size := by omega
      have hchild2 : child / 2 = i := by omega
      have hPc : P child := hP child (by omega) (by rw [hchild2]; exact hPi)
      split
      · rename_i hcmp
        have hil : i < heap.length := by omega
        have hcl : child < heap.length := by omega
        apply ih child (swap heap child i) (by omega) hPc (by rw [length_swap]; exact hlen)
          (by omega)
        · intro c hc2 hcs hkc hne
          rw [getD_swap _ _ _ _ hcl hil, getD_swap _ _ _ _ hcl hil]
          by_cases hci : c = i
          · subst hci
            have h1 : ¬ c / 2 = c := by omega
            have h2 : ¬ c / 2 = child := by omega
            have h3 : ¬ c = child := by omega
            simp only [h1, h2, h3, if_true, if_false]
            exact hb child (by omega) hchild.2 (by omega) hkc
          · by_cases hcc : c = child
            · subst hcc
              have h1 : c / 2 = i := by omega
              simp only [h1, hci, if_true, if_false]
              exact swo.asymm hcmp
            · by_cases hp : c / 2 = i
              · have h1 : ¬ i = child := by omega
                simp only [hci, hcc, hp, h1, if_true, if_false]
                exact hbest c (by omega) hcs
              · simp only [hci, hcc, hp, hne, if_false]
                exact ha c hc2 hcs hkc hp
        · intro c hc2 hcs hp hkp
          rw [getD_swap _ _ _ _ hcl hil, getD_swap _ _ _ _ hcl hil]
          have h1 : ¬ c = i := by omega
          have h2 : ¬ c = child := by omega
          have h4 : ¬ i = child := by omega
          simp only [h1, h2, hchild2, h4, if_true, if_false]
          have := ha c hc2 hcs (by rw [hp]; exact hPc) (by omega)
          rw [hp] at this
          exact this
      · rename_i hcmp
        simp only [Bool.not_eq_true] at hcmp
        intro c hc2 hcs hkc
        by_cases hp : c / 2 = i
        · rw [hp]
          exact swo.negTrans _ _ _ (hbest c (by omega) hcs) hcmp
        · exact ha c hc2 hcs hkc hp
    · intro c hc2 hcs hkc
      exact ha c hc2 hcs hkc (by omega)

theorem siftDownLoop_subtree_frame (compare : T → T → Bool) (size : Nat) :
    ∀ (fuel i : Nat) (heap : List T), 1 ≤ i → size < heap.length →
      ∀ k, inSubtree i k = false →
        (siftDownLoop compare size fuel i heap).getD k default = heap.getD k default := by
  intro fuel
  induction fuel with
  | zero => intro i heap _ _ k _; rfl
  | succ fuel ih =>
    intro i heap hi hlen k hk
    unfold siftDownLoop
    simp only [shiftLeft_one]
    split
    · rename_i h2i
      have hpick := pickChild_eq compare heap size i
      generalize pickChild compare heap size i = child at hpick
      have hchild2 : child / 2 = i := by omega
      have hic : inSubtree i child = true := inSubtree_child i i child hi (inSubtree_self i) hchild2
      have hki : k ≠ i := by
        intro h
        rw [h, inSubtree_self] at hk
        exact absurd hk (by decide)
      have hkc : k ≠ child := by
        intro h
        rw [h, hic] at hk
        exact absurd hk (by decide)
      have hsub : inSubtree child k = false := by
        cases hck : inSubtree child k with
        | false => rfl
        | true =>
          rw [inSubtree_trans i child k hi hic hck] at hk
          exact absurd hk (by decide)
      split
      · rw [ih child (swap heap child i) (by omega) (by rw [length_swap]; exact hlen) k hsub,
          getD_swap _ _ _ _ (by omega) (by omega), if_neg hki, if_neg hkc]
      · rfl
    · rfl

theorem slots_eq_range (heap : List T) (size : Nat) (hlen : size < heap.length) :
    slots heap size = (List.range' 1 size).map fun k => heap.getD k default := by
  apply List.ext_getElem
  · rw [List.length_map, length_slots _ _ hlen, List.length_range']
  · intro n hn1 hn2
    rw [length_slots _ _ hlen] at hn1
    have e1 := getD_slots heap size n hn1
    rw [List.getD_eq_getElem _ _ (by rw [length_slots _ _ hlen]; exact hn1)] at e1
    rw [e1, List.getElem_map, List.getElem_range', Nat.add_comm, Nat.one_mul]

theorem subtreeSlots_perm (h1 h2 : List T) (size start : Nat) (hl1 : size < h1.length)
    (hl2 : size < h2.length) (hperm : (slots h1 size).Perm (slots h2 size))
    (hframe : ∀ k, inSubtree start k = false → h1.getD k default = h2.getD k default) :
    (subtreeSlots h1 size start).Perm (subtreeSlots h2 size start) := by
  unfold subtreeSlots
  rw [slots_eq_range _ _ hl1, slots_eq_range _ _ hl2] at hperm
  have s1 := ((List.filter_append_perm (inSubtree start) (List.range' 1 size)).map
    fun k => h1.getD k default)
  have s2 := ((List.filter_append_perm (inSubtree start) (List.range' 1 size)).map
    fun k => h2.getD k default)
  rw [List.map_append] at s1 s2
  have hout : ((List.range' 1 size).filter fun k => !inSubtree start k).map
        (fun k => h1.getD k default) =
      ((List.range' 1 size).filter fun k => !inSubtree start k).map
        (fun k => h2.getD k default) := by
    apply List.map_congr_left
    intro k hk
    rw [List.mem_filter] at hk
    exact hframe k (by simpa using hk.2)
  rw [hout] at s1
  exact (List.perm_append_right_iff _).mp ((s1.trans hperm).trans s2.symm)

/-! ## Every loop exits within its budget -/

theorem siftUpRun_eq (compare : T → T → Bool) :
    ∀ (gas i fuel : Nat) (heap : List T), i < gas → i ≤ fuel →
      siftUpRun compare gas i heap = some (siftUpLoop compare fuel i heap) := by
  intro gas
  induction gas with
  | zero => intro i fuel heap h _; omega
  | succ gas ih =>
    intro i fuel heap hg hf
    unfold siftUpRun
    cases fuel with
    | zero =>
      rw [if_neg (by omega)]
      rfl
    | succ fuel =>
      unfold siftUpLoop
      simp only [shiftRight_one]
      split
      · split
        · exact ih (i / 2) fuel _ (by omega) (by omega)
        · rfl
      · rfl

theorem siftDownRun_eq (compare : T → T → Bool) (size : Nat) :
    ∀ (gas i fuel : Nat) (heap : List T), 1 ≤ i → 1 ≤ gas → size < i + gas → size < i + fuel →
      siftDownRun compare size gas i heap = some (siftDownLoop compare size fuel i heap) := by
  intro gas
  induction gas with
  | zero => intro i fuel heap _ h _ _; omega
  | succ gas ih =>
    intro i fuel heap hi _ hg hf
    unfold siftDownRun
    simp only [shiftLeft_one]
    cases fuel with
    | zero =>
      rw [if_neg (by omega)]
      rfl
    | succ fuel =>
      unfold siftDownLoop
      simp only [shiftLeft_one]
      split
      · have hpick := pickChild_eq compare heap size i
        generalize pickChild compare heap size i = child at hpick
        split
        · exact ih child fuel _ (by omega) (by omega) (by omega) (by omega)
        · rfl
      · rfl

theorem heapifyRun_eq (compare : T → T → Bool) (size inner : Nat) (hinner : size < inner) :
    ∀ (gas i : Nat) (container : List T), i < gas →
      heapifyRun compare size inner gas i container =
        some (heapifyLoop compare size i container) := by
  intro gas
  induction gas with
  | zero => intro i container h; omega
  | succ gas ih =>
    intro i container hg
    unfold heapifyRun
    cases i with
    | zero => rfl
    | succ i =>
      rw [if_pos (by omega),
        siftDownRun_eq compare size inner (i + 1) size container (by omega) (by omega)
          (by omega) (by omega)]
      simp only [Nat.add_sub_cancel]
      rw [ih i _ (by omega)]
      rfl

theorem scanRun_eq (equals : T → T → Bool) (container : List T) (element : T) (size : Nat) :
    ∀ (gas n i : Nat), n < gas → i + n = size + 1 →
      scanRun equals container element size gas i = some (scan equals container element n i) := by
  intro gas
  induction gas with
  | zero => intro n i h _; omega
  | succ gas ih =>
    intro n i hg hn
    unfold scanRun
    cases n with
    | zero =>
      rw [if_neg (by omega)]
      rfl
    | succ n =>
      rw [if_pos (by omega)]
      unfold scan
      split
      · rfl
      · exact ih n (i + 1) (by omega) (by omega)

theorem containsRun_eq (equals : T → T → Bool) (container : List T) (element : T)
    (size : Nat) :
    ∀ (gas n i : Nat), n < gas → i + n = size + 1 →
      containsRun equals container element size gas i =
        some (containsLoop equals container element n i) := by
  intro gas
  induction gas with
  | zero => intro n i h _; omega
  | succ gas ih =>
    intro n i hg hn
    unfold containsRun
    cases n with
    | zero =>
      rw [if_neg (by omega)]
      rfl
    | succ n =>
      rw [if_pos (by omega)]
      unfold containsLoop
      split
      · rfl
      · exact ih n (i + 1) (by omega) (by omega)

theorem applyRun_eq (f : T → T) (size : Nat) :
    ∀ (gas n i : Nat) (container : List T), n < gas → i + n = size + 1 →
      applyRun f size gas i container = some (applyLoop f n i container) := by
  intro gas
  induction gas with
  | zero => intro n i container h _; omega
  | succ gas ih =>
    intro n i container hg hn
    unfold applyRun
    cases n with
    | zero =>
      rw [if_neg (by omega)]
      rfl
    | succ n =>
      rw [if_pos (by omega)]
      unfold applyLoop
      exact ih n (i + 1) _ (by omega) (by omega)

/-- The bound `start >= 1` of `siftDown` is needed: from index 0, with a
`compare` that always holds, the loop swaps slot 0 with itself for ever. -/
theorem siftDownRun_start_zero (gas : Nat) :
    ∀ heap : List T, siftDownRun (fun _ _ => true) 0 gas 0 heap = none := by
  induction gas with
  | zero => intro heap; rfl
  | succ gas ih =>
    intro heap
    unfold siftDownRun
    simp only [pickChild, shiftLeft_one]
    exact ih _

/-! ## Every operation depends on the slots `1..size` only -/

theorem agree_mono (h1 h2 : List T) (m n : Nat) (ha : Agree h1 h2 n) (hmn : m ≤ n) :
    Agree h1 h2 m :=
  fun k hk1 hkm => ha k hk1 (by omega)

theorem scan_agree (equals : T → T → Bool) (c1 c2 : List T) (x : T) (size : Nat)
    (ha : Agree c1 c2 size) :
    ∀ (n i : Nat), 1 ≤ i → i + n ≤ size + 1 →
      scan equals c1 x n i = scan equals c2 x n i := by
  intro n
  induction n with
  | zero => intro i _ _; rfl
  | succ n ih =>
    intro i hi hn
    unfold scan
    rw [ha i hi (by omega), ih (i + 1) (by omega) (by omega)]

theorem containsLoop_agree (equals : T → T → Bool) (c1 c2 : List T) (x : T) (size : Nat)
    (ha : Agree c1 c2 size) :
    ∀ (n i : Nat), 1 ≤ i → i + n ≤ size + 1 →
      containsLoop equals c1 x n i = containsLoop equals c2 x n i := by
  intro n
  induction n with
  | zero => intro i _ _; rfl
  | succ n ih =>
    intro i hi hn
    unfold containsLoop
    rw [ha i hi (by omega), ih (i + 1) (by omega) (by omega)]

theorem applyLoop_agree (f : T → T) (c1 c2 : List T) (size : Nat) (ha : Agree c1 c2 size)
    (hl1 : size < c1.length) (hl2 : size < c2.length) :
    Agree (applyLoop f size 1 c1) (applyLoop f size 1 c2) size := by
  intro k hk1 hks
  rw [getD_applyLoop f size 1 c1 (by omega), getD_applyLoop f size 1 c2 (by omega),
    ha k hk1 hks]

theorem heapifyLoop_agree (compare : T → T → Bool) (size : Nat) :
    ∀ (i : Nat) (c1 c2 : List T), size < c1.length → size < c2.length → Agree c1 c2 size →
      Agree (heapifyLoop compare size i c1) (heapifyLoop compare size i c2) size := by
  intro i
  induction i with
  | zero => intro c1 c2 _ _ ha; exact ha
  | succ i ih =>
    intro c1 c2 hl1 hl2 ha
    unfold heapifyLoop
    exact ih _ _ (by rw [length_siftDown]; exact hl1) (by rw [length_siftDown]; exact hl2)
      (siftDownLoop_agree compare size size (i + 1) c1 c2 (by omega) hl1 hl2 ha)

theorem enqueue_equals (pq : PriorityQueue T) (x : T) : (Enqueue pq x).equals = pq.equals := by
  unfold Enqueue
  simp only
  split <;> rfl

theorem dequeue_empty (pq : PriorityQueue T) (h : pq.size = 0) :
    Dequeue pq = .error "Cannot Dequeue. PriorityQueue is empty" := by
  unfold Dequeue
  rw [if_pos h]

theorem peek_empty (pq : PriorityQueue T) (h : pq.size = 0) :
    Peek pq = .error "Cannot Peek. PriorityQueue is empty" := by
  unfold Peek
  rw [if_pos h]

theorem remove_similar (q1 q2 : PriorityQueue T) (h : Similar q1 q2)
    (equals : T → T → Bool) (he1 : q1.equals = some equals) (he2 : q2.equals = some equals)
    (x : T) :
    ∃ b a1 a2, Remove q1 x = .ok (b, a1) ∧ Remove q2 x = .ok (b, a2) ∧ Similar a1 a2 ∧
      a1.equals = a2.equals := by
  have hl1 := h.wf1.len
  have hle1 := h.wf1.le
  have hl2 := h.wf2.len
  have hle2 := h.wf2.le
  have hs := h.size
  have hscan : scan equals q2.container x q2.size 1 = scan equals q1.container x q1.size 1 := by
    rw [← hs]
    exact (scan_agree equals q1.container q2.container x q1.size h.agree q1.size 1 (le_refl 1)
      (by omega)).symm
  have hi1 := (scan_spec equals q1.container x q1.size 1).1
  by_cases hf : scan equals q1.container x q1.size 1 ≤ q1.size
  · have r1 := remove_found q1 equals he1 x hf
    have r2 := remove_found q2 equals he2 x (by rw [hscan, ← hs]; exact hf)
    refine ⟨true, _, _, r1, r2, ⟨h.compare, by simp only [hs], remove_wf q1 _ x true h.wf1 r1,
      remove_wf q2 _ x true h.wf2 r2, ?_⟩, by simp only [he1, he2]⟩
    simp only
    rw [hscan, ← h.compare, ← hs]
    generalize scan equals q1.container x q1.size 1 = i at hf hi1
    apply siftDownLoop_agree q1.compare (q1.size - 1) (q1.size - 1) i _ _ hi1
      (by rw [length_swap]; omega) (by rw [length_swap]; omega)
    exact agree_mono _ _ _ _ (swap_agree q1.container q2.container q1.size i q1.size h.agree
      hi1 hf (by omega) (le_refl _) (by omega) (by omega)) (by omega)
  · have r1 := remove_absent q1 equals he1 x (by omega)
    have r2 := remove_absent q2 equals he2 x (by rw [hscan, ← hs]; omega)
    exact ⟨false, _, _, r1, r2, h, by rw [he1, he2]⟩

theorem forEach_similar (q1 q2 : PriorityQueue T) (h : Similar q1 q2) (f : T → T) :
    Similar (ForEach q1 f) (ForEach q2 f) := by
  have hl1 := h.wf1.len
  have hle1 := h.wf1.le
  have hl2 := h.wf2.len
  have hle2 := h.wf2.le
  have hs := h.size
  refine ⟨h.compare, h.size, forEach_wf q1 f h.wf1, forEach_wf q2 f h.wf2, ?_⟩
  unfold ForEach
  simp only
  rw [← h.compare, ← hs]
  exact heapifyLoop_agree q1.compare q1.size _ _ _ (by rw [length_applyLoop]; omega)
    (by rw [length_applyLoop]; omega)
    (applyLoop_agree f q1.container q2.container q1.size h.agree (by omega) (by omega))

/-! ## The claims -/

/-- C1 (Enqueue/Dequeue duality): for every sequence `xs` and every strict weak
ordering `compare`, enqueueing `xs` one by one into `New(compare)` and then
draining `len(xs)` times (read `Peek`, call `Dequeue`) succeeds, yields a
permutation of `xs` in which no later element outranks an earlier one, and
leaves the queue empty. -/
theorem C1_enqueue_then_drain (compare : T → T → Bool) (swo : StrictWeakOrder compare)
    (xs : List T) :
    ∃ ys q, drain xs.length (enqueueAll (New compare) xs) = .ok (ys, q) ∧ ys.Perm xs ∧
      DrainOrdered compare ys ∧ Empty q = true := by
  obtain ⟨hc, wf, hq, hsz, hperm⟩ := enqueueAll_spec swo xs (New compare) rfl (new_wf compare)
    (new_heapOrdered compare)
  have hsz2 : (enqueueAll (New compare) xs).size = xs.length := by
    rw [hsz]; simp [New]
  obtain ⟨ys, q, hd, hp, ho, hz⟩ := drain_spec swo xs.length _ hc wf hq hsz2
  refine ⟨ys, q, hd, hp.trans ?_, ho, by simp [Empty, hz]⟩
  simpa [logical, slots, New] using hperm

/-- Witness of C1 at the test `Test_EnqueueShouldAddProvidedValueAtCorrectPosition_GivenEmptyPriorityQueue`:
enqueueing 16, 14, 20 with `<` drains as 14, 16, 20. -/
theorem C1_enqueue_then_drain_witness :
    StrictWeakOrder lt ∧
    (∃ ys q, drain 3 (enqueueAll (New lt) [16, 14, 20]) = .ok (ys, q) ∧
      ys.Perm [16, 14, 20] ∧ DrainOrdered lt ys ∧ Empty q = true) ∧
    drained 3 (enqueueAll (New lt) [16, 14, 20]) = some [14, 16, 20] :=
  ⟨lt_strictWeakOrder, C1_enqueue_then_drain lt lt_strictWeakOrder [16, 14, 20], by decide⟩

/-- C2 (Heapify correctness): for every slice `xs` and every strict weak
ordering `compare`, draining `Heapify(xs, compare)` until it is empty (`Size()`
rounds of `Peek` and `Dequeue`) succeeds and yields a permutation of `xs` in
which no later element outranks an earlier one. -/
theorem C2_heapify_then_drain (compare : T → T → Bool) (swo : StrictWeakOrder compare)
    (xs : List T) :
    ∃ ys q, drain (Size (Heapify xs compare)) (Heapify xs compare) = .ok (ys, q) ∧
      ys.Perm xs ∧ DrainOrdered compare ys ∧ Empty q = true := by
  obtain ⟨ys, q, hd, hp, ho, hz⟩ := drain_spec swo (Size (Heapify xs compare)) (Heapify xs compare)
    rfl (heapify_wf xs compare) (heapify_heapOrdered swo xs) rfl
  exact ⟨ys, q, hd, hp.trans (heapify_logical xs compare), ho, by simp [Empty, hz]⟩

/-- Witness of C2 at the test `Test_HeapifyShouldCorrectlyOrder_GivenArray`:
`Heapify([14,16,5,23,7,10], <)` drains as 5, 7, 10, 14, 16, 23. -/
theorem C2_heapify_then_drain_witness :
    StrictWeakOrder lt ∧
    (∃ ys q, drain (Size (Heapify [14, 16, 5, 23, 7, 10] lt)) (Heapify [14, 16, 5, 23, 7, 10] lt)
        = .ok (ys, q) ∧
      ys.Perm [14, 16, 5, 23, 7, 10] ∧ DrainOrdered lt ys ∧ Empty q = true) ∧
    drained 6 (Heapify [14, 16, 5, 23, 7, 10] lt) = some [5, 7, 10, 14, 16, 23] :=
  ⟨lt_strictWeakOrder, C2_heapify_then_drain lt lt_strictWeakOrder [14, 16, 5, 23, 7, 10],
    by decide⟩

/-- C3 (Heapify establishes heap order): for every slice `xs` and every strict
weak ordering `compare`, in the queue returned by `Heapify(xs, compare)` no
child `c ∈ {2i, 2i+1}`, `c ≤ size`, of an index `i ∈ [1,size]` outranks its
parent: `compare(container[c], container[i])` is false. -/
theorem C3_heapify_heap_order (compare : T → T → Bool) (swo : StrictWeakOrder compare)
    (xs : List T) :
    ∀ i c, 1 ≤ i → i ≤ (Heapify xs compare).size → (c = 2 * i ∨ c = 2 * i + 1) →
      c ≤ (Heapify xs compare).size →
      compare ((Heapify xs compare).container.getD c default)
        ((Heapify xs compare).container.getD i default) = false :=
  heapify_heapOrdered swo xs

/-- Witness of C3: the root of `Heapify([14,16,5,23,7,10], <)` is not outranked
by its left child. -/
theorem C3_heapify_heap_order_witness :
    StrictWeakOrder lt ∧
    lt ((Heapify [14, 16, 5, 23, 7, 10] lt).container.getD 2 default)
      ((Heapify [14, 16, 5, 23, 7, 10] lt).container.getD 1 default) = false :=
  ⟨lt_strictWeakOrder,
    C3_heapify_heap_order lt lt_strictWeakOrder [14, 16, 5, 23, 7, 10] 1 2 (by decide)
      (by decide) (Or.inl rfl) (by decide)⟩

/-- C4 (Enqueue preserves heap order): for every queue satisfying the
representation invariant (as every reachable state does, `reachable_wf`) whose
`container[1..size]` is heap ordered under a strict weak ordering `compare`, and
every element `x`, the queue after `Enqueue(x)` is heap ordered on
`container[1..size]`. -/
theorem C4_enqueue_preserves_heap_order (pq : PriorityQueue T) (wf : WF pq)
    (swo : StrictWeakOrder pq.compare)
    (hq : HeapOrdered pq.compare pq.container pq.size) (x : T) :
    HeapOrdered (Enqueue pq x).compare (Enqueue pq x).container (Enqueue pq x).size := by
  rw [enqueue_compare]
  exact enqueue_heapOrdered swo wf hq x

/-- Witness of C4: enqueueing 21 into `Heapify([14,16,5,23,7,10], <)`, the
queue of `Test_SizeShouldReturnCorrectSize`. -/
theorem C4_enqueue_preserves_heap_order_witness :
    WF testQueue ∧ StrictWeakOrder testQueue.compare ∧
    HeapOrdered testQueue.compare testQueue.container testQueue.size ∧
    HeapOrdered (Enqueue testQueue 21).compare (Enqueue testQueue 21).container
      (Enqueue testQueue 21).size :=
  ⟨heapify_wf _ _, lt_strictWeakOrder, heapify_heapOrdered lt_strictWeakOrder _,
    C4_enqueue_preserves_heap_order testQueue (heapify_wf _ _) lt_strictWeakOrder
      (heapify_heapOrdered lt_strictWeakOrder _) 21⟩

/-- C5 (Dequeue preserves heap order): for every non-empty queue satisfying the
representation invariant whose `container[1..size]` is heap ordered under a
strict weak ordering `compare`, `Dequeue()` returns and the queue after it is
heap ordered on the reduced range `container[1..size-1]`. -/
theorem C5_dequeue_preserves_heap_order (pq : PriorityQueue T) (wf : WF pq)
    (swo : StrictWeakOrder pq.compare)
    (hq : HeapOrdered pq.compare pq.container pq.size) (hne : pq.size ≠ 0) :
    ∃ q, Dequeue pq = .ok q ∧ q.size = pq.size - 1 ∧ q.compare = pq.compare ∧
      HeapOrdered pq.compare q.container (pq.size - 1) := by
  have hd := dequeue_eq pq hne
  refine ⟨_, hd, rfl, rfl, ?_⟩
  have := dequeue_heapOrdered swo wf hq hd
  exact this

/-- Witness of C5: dequeueing from `Heapify([14,16,5,23,7,10], <)`. -/
theorem C5_dequeue_preserves_heap_order_witness :
    WF testQueue ∧ StrictWeakOrder testQueue.compare ∧
    HeapOrdered testQueue.compare testQueue.container testQueue.size ∧ testQueue.size ≠ 0 ∧
    ∃ q, Dequeue testQueue = .ok q ∧ q.size = testQueue.size - 1 ∧
      q.compare = testQueue.compare ∧
      HeapOrdered testQueue.compare q.container (testQueue.size - 1) :=
  ⟨heapify_wf _ _, lt_strictWeakOrder, heapify_heapOrdered lt_strictWeakOrder _, by decide,
    C5_dequeue_preserves_heap_order testQueue (heapify_wf _ _) lt_strictWeakOrder
      (heapify_heapOrdered lt_strictWeakOrder _) (by decide)⟩

/-- C6 (Remove preserves heap order) fails on the code: in the heap-ordered
queue `Heapify([1,2,4,3,5,6], <)`, whose backing array is `[_,1,4,2,5,6,3]`,
`Remove(5)` finds 5 at index 4, moves the last element 3 there and sifts down
only; it returns true and leaves `[_,1,4,2,3,6]`, where the child 3 at index 4
outranks its parent 4 at index 2. -/
theorem C6_remove_breaks_heap_order :
    WF removeQueue6 ∧ StrictWeakOrder removeQueue6.compare ∧
    HeapOrdered removeQueue6.compare removeQueue6.container removeQueue6.size ∧
    ∃ q, Remove removeQueue6 5 = .ok (true, q) ∧ q.size = 5 ∧
      q.container = [0, 1, 4, 2, 3, 6, 5] ∧
      q.compare (q.container.getD 4 default) (q.container.getD 2 default) = true ∧
      ¬ HeapOrdered q.compare q.container q.size := by
  refine ⟨⟨by decide, by decide⟩, lt_strictWeakOrder, heapify_heapOrdered lt_strictWeakOrder _,
    _, rfl, rfl, by decide, by decide, ?_⟩
  intro h
  exact absurd (h 2 4 (by decide) (by decide) (Or.inl rfl) (by decide)) (by decide)

/-- C7 (Remove keeps the drain order correct) fails on the code: after
`Heapify([1,2,4,3,5,6,7], <)`, `SetEqualityComparer(equals)` and `Remove(5)`,
which returns true, draining yields 1, 2, 4, 3, 6, 7: the remaining elements,
but with 3 read after 4 although `3 < 4`. -/
theorem C7_remove_breaks_drain_order :
    ∃ q, Remove removeQueue7 5 = .ok (true, q) ∧ q.size = 6 ∧
      drained 6 q = some [1, 2, 4, 3, 6, 7] ∧
      ¬ DrainOrdered q.compare [1, 2, 4, 3, 6, 7] := by
  refine ⟨_, rfl, rfl, by decide, ?_⟩
  unfold DrainOrdered
  decide

/-- C8 as stated fails: after enqueueing 5 twice into `New(<)` the root 5 has
the child 5 and `compare(container[1], container[2])` is false; likewise in
`Heapify([14,16,5,23,7,5,10,5], <)`, the queue of the Remove test. -/
theorem C8_spec_invariant_fails :
    ¬ SpecHeapInvariant lt (Enqueue (Enqueue (New lt) 5) 5).container
        (Enqueue (Enqueue (New lt) 5) 5).size ∧
    ¬ SpecHeapInvariant lt (Heapify [14, 16, 5, 23, 7, 5, 10, 5] lt).container
        (Heapify [14, 16, 5, 23, 7, 5, 10, 5] lt).size := by
  constructor
  · intro h
    exact absurd (h 1 2 (by decide) (by decide) (Or.inl rfl) (by decide)) (by decide)
  · intro h
    exact absurd (h 1 2 (by decide) (by decide) (Or.inl rfl) (by decide)) (by decide)

/-- C8 amended: under a strict weak ordering `compare`, the queues returned by
`New` and `Heapify` are heap ordered (no existing child `c` of an index `i` in
`[1,size]` has `compare(container[c], container[i])` true), and for every queue
that satisfies the representation invariant and is heap ordered, the queue
after `Enqueue`, `Add`, `Dequeue` (which returns when the queue is non-empty),
`Clear`, `ForEach` and `SetEqualityComparer` is heap ordered again. -/
theorem C8_heap_invariant_amended (compare : T → T → Bool) (swo : StrictWeakOrder compare) :
    HeapOrdered compare (New compare).container (New compare).size ∧
    (∀ xs : List T,
      HeapOrdered compare (Heapify xs compare).container (Heapify xs compare).size) ∧
    ∀ pq : PriorityQueue T, pq.compare = compare → WF pq →
      HeapOrdered compare pq.container pq.size →
      (∀ x, HeapOrdered compare (Enqueue pq x).container (Enqueue pq x).size) ∧
      (∀ x, HeapOrdered compare (Add pq x).2.container (Add pq x).2.size) ∧
      (pq.size ≠ 0 → ∃ q, Dequeue pq = .ok q ∧ HeapOrdered compare q.container q.size) ∧
      HeapOrdered compare (Clear pq).container (Clear pq).size ∧
      (∀ f, HeapOrdered compare (ForEach pq f).container (ForEach pq f).size) ∧
      (∀ e, HeapOrdered compare (SetEqualityComparer pq e).container
        (SetEqualityComparer pq e).size) := by
  refine ⟨new_heapOrdered compare, heapify_heapOrdered swo, ?_⟩
  intro pq hc wf hq
  subst hc
  refine ⟨enqueue_heapOrdered swo wf hq, enqueue_heapOrdered swo wf hq, ?_, ?_, ?_, ?_⟩
  · intro hne
    exact ⟨_, dequeue_eq pq hne, dequeue_heapOrdered swo wf hq (dequeue_eq pq hne)⟩
  · intro i c _ his
    exact absurd his (by simp [Clear]; omega)
  · exact forEach_heapOrdered swo wf
  · intro e
    exact hq

/-- Witness of C8 amended: the queue holding 5 twice is heap ordered. -/
theorem C8_heap_invariant_amended_witness :
    StrictWeakOrder lt ∧
    HeapOrdered lt (Enqueue (Enqueue (New lt) 5) 5).container
      (Enqueue (Enqueue (New lt) 5) 5).size :=
  ⟨lt_strictWeakOrder,
    ((C8_heap_invariant_amended lt lt_strictWeakOrder).2.2 (Enqueue (New lt) 5) rfl
      (enqueue_wf _ _ (new_wf lt))
      (enqueue_heapOrdered lt_strictWeakOrder (new_wf lt) (new_heapOrdered lt) 5)).1 5⟩

/-- C9 (Peek returns the highest-priority element): for every non-empty queue
whose `container[1..size]` is heap ordered under a strict weak ordering
`compare`, `Peek` returns an element `t` such that `compare(e, t)` is false for
every element `e` of `container[1..size]`. -/
theorem C9_peek_is_top (pq : PriorityQueue T) (swo : StrictWeakOrder pq.compare)
    (hq : HeapOrdered pq.compare pq.container pq.size) (hne : pq.size ≠ 0) :
    ∃ t, Peek pq = .ok t ∧
      ∀ k, 1 ≤ k → k ≤ pq.size → pq.compare (pq.container.getD k default) t = false :=
  ⟨_, peek_eq pq hne,
    heapFrom_top swo pq.container pq.size ((heapOrdered_iff_heapFrom _ _ _).mp hq)⟩

/-- Witness of C9: `Peek` on `Heapify([14,16,5,23,7,10], <)` returns 5. -/
theorem C9_peek_is_top_witness :
    StrictWeakOrder testQueue.compare ∧
    HeapOrdered testQueue.compare testQueue.container testQueue.size ∧ testQueue.size ≠ 0 ∧
    (∃ t, Peek testQueue = .ok t ∧
      ∀ k, 1 ≤ k → k ≤ testQueue.size →
        testQueue.compare (testQueue.container.getD k default) t = false) ∧
    Peek testQueue = .ok 5 :=
  ⟨lt_strictWeakOrder, heapify_heapOrdered lt_strictWeakOrder _, by decide,
    C9_peek_is_top testQueue lt_strictWeakOrder
      (heapify_heapOrdered lt_strictWeakOrder _) (by decide), rfl⟩

/-- C10 (Dequeue removes exactly the top element): for every non-empty queue
satisfying the representation invariant, and every `compare`, `Dequeue()`
returns, decreases `Size` by exactly one, and the multiset of
`container[1..size]` before the call is the multiset after it plus one
occurrence of the element `Peek` returned immediately before. -/
theorem C10_dequeue_removes_top (pq : PriorityQueue T) (wf : WF pq) (hne : pq.size ≠ 0) :
    ∃ t q, Peek pq = .ok t ∧ Dequeue pq = .ok q ∧ Size q + 1 = Size pq ∧
      (↑(logical pq) : Multiset T) = t ::ₘ (↑(logical q) : Multiset T) := by
  have hd := dequeue_eq pq hne
  refine ⟨_, _, peek_eq pq hne, hd, ?_, ?_⟩
  · simp only [Size]
    omega
  · have hp := (dequeue_logical pq _ wf hd).trans (List.perm_append_singleton _ _)
    exact (Multiset.coe_eq_coe.mpr hp).trans (Multiset.cons_coe _ _).symm

/-- Witness of C10: dequeueing from `Heapify([14,16,5,23,7,10], <)`. -/
theorem C10_dequeue_removes_top_witness :
    WF testQueue ∧ testQueue.size ≠ 0 ∧
    ∃ t q, Peek testQueue = .ok t ∧ Dequeue testQueue = .ok q ∧ Size q + 1 = Size testQueue ∧
      (↑(logical testQueue) : Multiset Int) = t ::ₘ (↑(logical q) : Multiset Int) :=
  ⟨heapify_wf _ _, by decide,
    C10_dequeue_removes_top testQueue (heapify_wf _ _) (by decide)⟩

/-- C11 (Enqueue adds exactly the given element): for every queue satisfying
the representation invariant (as every reachable state does) and every element
`x`, `Enqueue(x)` increases `Size` by exactly one and the multiset of
`container[1..size]` afterwards is the multiset before plus one occurrence of
`x`, in the appending branch (`size == cap`) and in the overwriting branch
(`size < cap`) alike. -/
theorem C11_enqueue_adds_element (pq : PriorityQueue T) (wf : WF pq) (x : T) :
    Size (Enqueue pq x) = Size pq + 1 ∧
      (↑(logical (Enqueue pq x)) : Multiset T) = x ::ₘ (↑(logical pq) : Multiset T) := by
  refine ⟨enqueue_size pq x, ?_⟩
  have hp := (enqueue_logical pq wf x).trans (List.perm_append_singleton _ _)
  exact (Multiset.coe_eq_coe.mpr hp).trans (Multiset.cons_coe _ _).symm

/-- Witness of C11 in both branches: enqueueing 21 into
`Heapify([14,16,5,23,7,10], <)`, where `size == cap`, and into the same queue
after `Clear()`, where `size < cap`. -/
theorem C11_enqueue_adds_element_witness :
    (WF testQueue ∧ testQueue.size = testQueue.cap ∧
      Size (Enqueue testQueue 21) = Size testQueue + 1 ∧
      (↑(logical (Enqueue testQueue 21)) : Multiset Int) =
        21 ::ₘ (↑(logical testQueue) : Multiset Int)) ∧
    (WF (Clear testQueue) ∧ (Clear testQueue).size < (Clear testQueue).cap ∧
      Size (Enqueue (Clear testQueue) 21) = Size (Clear testQueue) + 1 ∧
      (↑(logical (Enqueue (Clear testQueue) 21)) : Multiset Int) =
        21 ::ₘ (↑(logical (Clear testQueue)) : Multiset Int)) :=
  ⟨⟨heapify_wf _ _, by decide, C11_enqueue_adds_element testQueue (heapify_wf _ _) 21⟩,
    ⟨⟨by decide, by decide⟩, by decide,
      C11_enqueue_adds_element (Clear testQueue) ⟨by decide, by decide⟩ 21⟩⟩

/-- C12 (Remove of a present value): with an equality comparer set, on a queue
satisfying the representation invariant, if some index in `[1,size]` satisfies
`equals(container[i], x)`, then `Remove(x)` returns true, `Size` decreases by
exactly one, and the multiset of `container[1..size]` before the call is the
multiset after it plus the element at the smallest such index `i`. -/
theorem C12_remove_present (pq : PriorityQueue T) (wf : WF pq) (equals : T → T → Bool)
    (he : pq.equals = some equals) (x : T)
    (hex : ∃ j, 1 ≤ j ∧ j ≤ pq.size ∧ equals (pq.container.getD j default) x = true) :
    ∃ i q, 1 ≤ i ∧ i ≤ pq.size ∧ equals (pq.container.getD i default) x = true ∧
      (∀ j, 1 ≤ j → j < i → equals (pq.container.getD j default) x = false) ∧
      Remove pq x = .ok (true, q) ∧ Size q + 1 = Size pq ∧
      (↑(logical pq) : Multiset T) =
        pq.container.getD i default ::ₘ (↑(logical q) : Multiset T) := by
  have hs := (scan_le_iff equals pq.container x pq.size).mpr hex
  obtain ⟨h1, _, h3, h4⟩ := scan_spec equals pq.container x pq.size 1
  refine ⟨_, _, h1, hs, h3 (by omega), h4, remove_found pq equals he x hs, ?_, ?_⟩
  · simp only [Size]
    omega
  · have hp := (remove_found_logical pq wf _ h1 hs).trans (List.perm_append_singleton _ _)
    exact (Multiset.coe_eq_coe.mpr hp).trans (Multiset.cons_coe _ _).symm

/-- Witness of C12 at the test `Test_RemoveShouldRemoveFirstOccurrenceOfGivenValueAndReturnTrue`:
`Remove(5)` on `Heapify([14,16,5,23,7,5,10,5], <)`, whose slot 1 holds 5. -/
theorem C12_remove_present_witness :
    WF removeTestQueue ∧ removeTestQueue.equals = some eqInt ∧
    (∃ j, 1 ≤ j ∧ j ≤ removeTestQueue.size ∧
      eqInt (removeTestQueue.container.getD j default) 5 = true) ∧
    ∃ i q, 1 ≤ i ∧ i ≤ removeTestQueue.size ∧
      eqInt (removeTestQueue.container.getD i default) 5 = true ∧
      (∀ j, 1 ≤ j → j < i → eqInt (removeTestQueue.container.getD j default) 5 = false) ∧
      Remove removeTestQueue 5 = .ok (true, q) ∧ Size q + 1 = Size removeTestQueue ∧
      (↑(logical removeTestQueue) : Multiset Int) =
        removeTestQueue.container.getD i default ::ₘ (↑(logical q) : Multiset Int) :=
  ⟨⟨by decide, by decide⟩, rfl, ⟨1, by decide, by decide, by decide⟩,
    C12_remove_present removeTestQueue ⟨by decide, by decide⟩ eqInt rfl 5
      ⟨1, by decide, by decide, by decide⟩⟩

/-- C13 (Remove of an absent value is a no-op): with an equality comparer set,
if no index `i` in `[1,size]` satisfies `equals(container[i], x)`, `Remove(x)`
returns false without panicking and the receiver keeps every field. -/
theorem C13_remove_absent (pq : PriorityQueue T) (equals : T → T → Bool)
    (he : pq.equals = some equals) (x : T)
    (hno : ∀ j, 1 ≤ j → j ≤ pq.size → equals (pq.container.getD j default) x = false) :
    Remove pq x = .ok (false, pq) ∧ run pq (.remove x) = (pq, .bool false) := by
  have hs : pq.size < scan equals pq.container x pq.size 1 := by
    by_contra hcon
    obtain ⟨j, h1, h2, h3⟩ := (scan_le_iff equals pq.container x pq.size).mp (by omega)
    rw [hno j h1 h2] at h3
    exact absurd h3 (by decide)
  have hr := remove_absent pq equals he x hs
  refine ⟨hr, ?_⟩
  simp only [run, hr]

/-- Witness of C13 at the tests `Test_RemoveShouldReturnFalse_IfGivenValueDoesNotExist`
(`Remove(5)` on `Heapify([16,14,23], <)`) and
`Test_RemoveShouldReturnFalse_GivenEmptyPriorityQueue`. -/
theorem C13_remove_absent_witness :
    (smallQueue.equals = some eqInt ∧
      (∀ j, 1 ≤ j → j ≤ smallQueue.size →
        eqInt (smallQueue.container.getD j default) 5 = false) ∧
      Remove smallQueue 5 = .ok (false, smallQueue) ∧
      run smallQueue (.remove 5) = (smallQueue, .bool false)) ∧
    Remove (SetEqualityComparer (New lt) (some eqInt)) 5 =
      .ok (false, SetEqualityComparer (New lt) (some eqInt)) :=
  have hno : ∀ j, 1 ≤ j → j ≤ smallQueue.size →
      eqInt (smallQueue.container.getD j default) 5 = false := by
    intro j h1 h2
    have h3 : j ≤ 3 := h2
    interval_cases j <;> decide
  ⟨⟨rfl, hno, C13_remove_absent smallQueue eqInt rfl 5 hno⟩,
    (C13_remove_absent (SetEqualityComparer (New lt) (some eqInt)) eqInt rfl 5
      (fun j h1 h2 => absurd h2 (by simp [SetEqualityComparer, New]; omega))).1⟩

/-- C14 (Contains is membership over the logical range): with an equality
comparer set, `Contains(x)` returns, and it returns true if and only if some
index `i` in `[1,size]` satisfies `equals(container[i], x)`; slot 0 and the
slots beyond `size` play no part, and the receiver keeps every field. -/
theorem C14_contains_iff_member (pq : PriorityQueue T) (equals : T → T → Bool)
    (he : pq.equals = some equals) (x : T) :
    ∃ b, Contains pq x = .ok b ∧
      (b = true ↔ ∃ j, 1 ≤ j ∧ j ≤ pq.size ∧ equals (pq.container.getD j default) x = true) ∧
      run pq (.contains x) = (pq, .bool b) := by
  refine ⟨_, contains_eq pq equals he x, ?_, ?_⟩
  · rw [containsLoop_iff]
    constructor
    · rintro ⟨j, h1, h2, h3⟩
      exact ⟨j, h1, by omega, h3⟩
    · rintro ⟨j, h1, h2, h3⟩
      exact ⟨j, h1, by omega, h3⟩
  · simp only [run, contains_eq pq equals he x]

/-- Witness of C14: in `Heapify([16,14,23], <)` `Contains(14)` is true; after
`Clear()` slot 1 still holds 14 and `Contains(14)` is false. -/
theorem C14_contains_iff_member_witness :
    smallQueue.equals = some eqInt ∧
    (∃ b, Contains smallQueue 14 = .ok b ∧
      (b = true ↔ ∃ j, 1 ≤ j ∧ j ≤ smallQueue.size ∧
        eqInt (smallQueue.container.getD j default) 14 = true) ∧
      run smallQueue (.contains 14) = (smallQueue, .bool b)) ∧
    Contains smallQueue 14 = .ok true ∧
    (Clear smallQueue).container.getD 1 default = 14 ∧
    (∃ b, Contains (Clear smallQueue) 14 = .ok b ∧
      (b = true ↔ ∃ j, 1 ≤ j ∧ j ≤ (Clear smallQueue).size ∧
        eqInt ((Clear smallQueue).container.getD j default) 14 = true) ∧
      run (Clear smallQueue) (.contains 14) = (Clear smallQueue, .bool b)) ∧
    Contains (Clear smallQueue) 14 = .ok false :=
  ⟨rfl, C14_contains_iff_member smallQueue eqInt rfl 14, rfl, by decide,
    C14_contains_iff_member (Clear smallQueue) eqInt rfl 14, rfl⟩

/-- C15 (Remove-then-contains): with an equality comparer set, on a queue
satisfying the representation invariant, if exactly one index `i` in `[1,size]`
satisfies `equals(container[i], x)`, then `Remove(x)` returns true and
`Contains(x)` is false afterwards; and whenever `Contains(x)` is still true
after a successful `Remove(x)`, at least two indices in `[1,size]` satisfied
`equals(container[i], x)` before the removal. -/
theorem C15_remove_then_contains (pq : PriorityQueue T) (wf : WF pq) (equals : T → T → Bool)
    (he : pq.equals = some equals) (x : T) :
    (∀ i, 1 ≤ i → i ≤ pq.size → equals (pq.container.getD i default) x = true →
      (∀ j, 1 ≤ j → j ≤ pq.size → equals (pq.container.getD j default) x = true → j = i) →
      ∃ q, Remove pq x = .ok (true, q) ∧ Contains q x = .ok false) ∧
    (∀ q, Remove pq x = .ok (true, q) → Contains q x = .ok true →
      ∃ i j, i ≠ j ∧ 1 ≤ i ∧ i ≤ pq.size ∧ 1 ≤ j ∧ j ≤ pq.size ∧
        equals (pq.container.getD i default) x = true ∧
        equals (pq.container.getD j default) x = true) := by
  refine ⟨?_, fun q hr hc => remove_then_contains_two pq q wf equals he x hr hc⟩
  intro i hi1 his hi huniq
  have hs := (scan_le_iff equals pq.container x pq.size).mpr ⟨i, hi1, his, hi⟩
  have hr := remove_found pq equals he x hs
  generalize hqdef : ({ pq with
      size := pq.size - 1
      container := siftDown (scan equals pq.container x pq.size 1)
        (swap pq.container (scan equals pq.container x pq.size 1) pq.size) (pq.size - 1)
        pq.compare } : PriorityQueue T) = q at hr
  have heq : q.equals = some equals := by rw [← hqdef]; exact he
  refine ⟨q, hr, ?_⟩
  rw [contains_eq q equals heq x]
  cases hb : containsLoop equals q.container x q.size 1 with
  | false => rfl
  | true =>
    have hc : Contains q x = .ok true := by
      rw [contains_eq q equals heq x, hb]
    obtain ⟨a, b, hab, ha1, has, hb1, hbs, ha, hb2⟩ :=
      remove_then_contains_two pq q wf equals he x hr hc
    exact absurd ((huniq a ha1 has ha).trans (huniq b hb1 hbs hb2).symm) hab

/-- Witness of C15: 14 occurs once in `Heapify([16,14,23], <)`, so after
`Remove(14)` `Contains(14)` is false; 5 occurs three times in
`Heapify([14,16,5,23,7,5,10,5], <)`. -/
theorem C15_remove_then_contains_witness :
    WF smallQueue ∧ smallQueue.equals = some eqInt ∧
    eqInt (smallQueue.container.getD 1 default) 14 = true ∧
    (∀ j, 1 ≤ j → j ≤ smallQueue.size →
      eqInt (smallQueue.container.getD j default) 14 = true → j = 1) ∧
    ∃ q, Remove smallQueue 14 = .ok (true, q) ∧ Contains q 14 = .ok false :=
  have huniq : ∀ j, 1 ≤ j → j ≤ smallQueue.size →
      eqInt (smallQueue.container.getD j default) 14 = true → j = 1 := by
    intro j h1 h2
    have h3 : j ≤ 3 := h2
    interval_cases j <;> decide
  ⟨⟨by decide, by decide⟩, rfl, by decide, huniq,
    (C15_remove_then_contains smallQueue ⟨by decide, by decide⟩ eqInt rfl 14).1 1 (by decide)
      (by decide) (by decide) huniq⟩

/-- C16 (Dequeue fails exactly on an empty queue): `Dequeue()` panics if and
only if `size == 0`, its only panic message is "Cannot Dequeue. PriorityQueue
is empty", it returns otherwise, and when it panics the receiver keeps every
field. -/
theorem C16_dequeue_panics_iff_empty (pq : PriorityQueue T) :
    (Dequeue pq = .error "Cannot Dequeue. PriorityQueue is empty" ↔ pq.size = 0) ∧
    (∀ msg, Dequeue pq = .error msg →
      msg = "Cannot Dequeue. PriorityQueue is empty" ∧ pq.size = 0) ∧
    (pq.size ≠ 0 → ∃ q, Dequeue pq = .ok q) ∧
    (pq.size = 0 →
      run pq .dequeue = (pq, .fault "Cannot Dequeue. PriorityQueue is empty")) := by
  by_cases h : pq.size = 0
  · have hd : Dequeue pq = .error "Cannot Dequeue. PriorityQueue is empty" := by
      unfold Dequeue
      rw [if_pos h]
    refine ⟨⟨fun _ => h, fun _ => hd⟩, ?_, fun hne => absurd h hne, ?_⟩
    · intro msg hm
      rw [hd] at hm
      injection hm with hm
      exact ⟨hm.symm, h⟩
    · intro _
      simp only [run, hd]
  · have hd := dequeue_eq pq h
    refine ⟨⟨?_, fun h0 => absurd h0 h⟩, ?_, fun _ => ⟨_, hd⟩, fun h0 => absurd h0 h⟩
    · intro he
      rw [hd] at he
      exact absurd he (by simp)
    · intro msg hm
      rw [hd] at hm
      exact absurd hm (by simp)

/-- Witness of C16 at the test `Test_DequeueShouldPanic_GivenEmptyPriorityQueue`,
and a non-empty queue on which `Dequeue` returns. -/
theorem C16_dequeue_panics_iff_empty_witness :
    Dequeue (New lt) = .error "Cannot Dequeue. PriorityQueue is empty" ∧
    run (New lt) .dequeue = (New lt, .fault "Cannot Dequeue. PriorityQueue is empty") ∧
    ∃ q, Dequeue testQueue = .ok q :=
  ⟨(C16_dequeue_panics_iff_empty (New lt)).1.mpr rfl,
    (C16_dequeue_panics_iff_empty (New lt)).2.2.2 rfl,
    (C16_dequeue_panics_iff_empty testQueue).2.2.1 (by decide)⟩

/-- C17 (Peek fails exactly on an empty queue and never mutates): `Peek()`
panics if and only if `size == 0`, its only panic message is "Cannot Peek.
PriorityQueue is empty", on a non-empty queue it returns the element stored at
index 1, and in both cases the receiver keeps every field. -/
theorem C17_peek_panics_iff_empty (pq : PriorityQueue T) :
    (Peek pq = .error "Cannot Peek. PriorityQueue is empty" ↔ pq.size = 0) ∧
    (∀ msg, Peek pq = .error msg → msg = "Cannot Peek. PriorityQueue is empty" ∧ pq.size = 0) ∧
    (pq.size ≠ 0 → Peek pq = .ok (pq.container.getD 1 default)) ∧
    (run pq .peek).1 = pq := by
  have hrun : (run pq .peek).1 = pq := by
    simp only [run]
    split <;> rfl
  by_cases h : pq.size = 0
  · have hd : Peek pq = .error "Cannot Peek. PriorityQueue is empty" := by
      unfold Peek
      rw [if_pos h]
    refine ⟨⟨fun _ => h, fun _ => hd⟩, ?_, fun hne => absurd h hne, hrun⟩
    intro msg hm
    rw [hd] at hm
    injection hm with hm
    exact ⟨hm.symm, h⟩
  · have hd := peek_eq pq h
    refine ⟨⟨?_, fun h0 => absurd h0 h⟩, ?_, fun _ => hd, hrun⟩
    · intro he
      rw [hd] at he
      exact absurd he (by simp)
    · intro msg hm
      rw [hd] at hm
      exact absurd hm (by simp)

/-- Witness of C17 at the tests `Test_PeekShouldPanic_GivenEmptyPriorityQueue`
and `Test_PeekShouldReturnCorrectValue_ButNotRemoveIt`. -/
theorem C17_peek_panics_iff_empty_witness :
    Peek (New lt) = .error "Cannot Peek. PriorityQueue is empty" ∧
    Peek testQueue = .ok (testQueue.container.getD 1 default) ∧
    testQueue.container.getD 1 default = 5 ∧
    (run testQueue .peek).1 = testQueue :=
  ⟨(C17_peek_panics_iff_empty (New lt)).1.mpr rfl,
    (C17_peek_panics_iff_empty testQueue).2.2.1 (by decide), by decide,
    (C17_peek_panics_iff_empty testQueue).2.2.2⟩

/-- C18 (Missing equality comparer): `Remove(x)` and `Contains(x)` panic if and
only if no equality comparer is set, whatever the contents of the queue and
whatever `x`; their only panic messages are "Cannot Remove. Equality comparer
was not set" and "Cannot execute Contains. Equality comparer was not set"; when
they panic the receiver keeps every field; and after `SetEqualityComparer` with
a non-nil function neither call panics. -/
theorem C18_missing_equality_comparer (pq : PriorityQueue T) (x : T) :
    (Remove pq x = .error "Cannot Remove. Equality comparer was not set" ↔ pq.equals = none) ∧
    (∀ msg, Remove pq x = .error msg →
      msg = "Cannot Remove. Equality comparer was not set" ∧ pq.equals = none) ∧
    (Contains pq x = .error "Cannot execute Contains. Equality comparer was not set" ↔
      pq.equals = none) ∧
    (∀ msg, Contains pq x = .error msg →
      msg = "Cannot execute Contains. Equality comparer was not set" ∧ pq.equals = none) ∧
    (pq.equals = none →
      run pq (.remove x) = (pq, .fault "Cannot Remove. Equality comparer was not set") ∧
      run pq (.contains x) =
        (pq, .fault "Cannot execute Contains. Equality comparer was not set")) ∧
    (∀ equals : T → T → Bool,
      (∃ b q, Remove (SetEqualityComparer pq (some equals)) x = .ok (b, q)) ∧
      ∃ b, Contains (SetEqualityComparer pq (some equals)) x = .ok b) := by
  have hset : ∀ equals : T → T → Bool,
      (∃ b q, Remove (SetEqualityComparer pq (some equals)) x = .ok (b, q)) ∧
      ∃ b, Contains (SetEqualityComparer pq (some equals)) x = .ok b := by
    intro equals
    refine ⟨?_, _, contains_eq _ equals rfl x⟩
    by_cases hs : scan equals pq.container x pq.size 1 ≤ pq.size
    · exact ⟨_, _, remove_found (SetEqualityComparer pq (some equals)) equals rfl x hs⟩
    · exact ⟨_, _, remove_absent (SetEqualityComparer pq (some equals)) equals rfl x
        (Nat.lt_of_not_le hs)⟩
  cases he : pq.equals with
  | none =>
    have hr : Remove pq x = .error "Cannot Remove. Equality comparer was not set" := by
      unfold Remove
      rw [he]
    have hc : Contains pq x =
        .error "Cannot execute Contains. Equality comparer was not set" := by
      unfold Contains
      rw [he]
    refine ⟨⟨fun _ => rfl, fun _ => hr⟩, ?_, ⟨fun _ => rfl, fun _ => hc⟩, ?_, ?_, hset⟩
    · intro msg hm
      rw [hr] at hm
      injection hm with hm
      exact ⟨hm.symm, rfl⟩
    · intro msg hm
      rw [hc] at hm
      injection hm with hm
      exact ⟨hm.symm, rfl⟩
    · intro _
      simp only [run, hr, hc, and_self]
  | some equals =>
    have hc := contains_eq pq equals he x
    have hr : ∃ b q, Remove pq x = .ok (b, q) := by
      by_cases hs : scan equals pq.container x pq.size 1 ≤ pq.size
      · exact ⟨_, _, remove_found pq equals he x hs⟩
      · exact ⟨_, _, remove_absent pq equals he x (Nat.lt_of_not_le hs)⟩
    obtain ⟨b, q, hr⟩ := hr
    refine ⟨⟨?_, fun h => absurd h (by simp)⟩, ?_, ⟨?_, fun h => absurd h (by simp)⟩, ?_,
      fun h => absurd h (by simp), hset⟩
    · intro h
      rw [hr] at h
      exact absurd h (by simp)
    · intro msg hm
      rw [hr] at hm
      exact absurd hm (by simp)
    · intro h
      rw [hc] at h
      exact absurd h (by simp)
    · intro msg hm
      rw [hc] at hm
      exact absurd hm (by simp)

/-- Witness of C18 at the tests `Test_RemoveShouldPanic_IfEqualityComparerIsNotSet`
and `Test_ContainsShouldPanic_IfEqualityComparerIsNotSet`, and on a non-empty
queue without a comparer. -/
theorem C18_missing_equality_comparer_witness :
    Remove (New lt) 10 = .error "Cannot Remove. Equality comparer was not set" ∧
    Contains (New lt) 0 = .error "Cannot execute Contains. Equality comparer was not set" ∧
    Remove testQueue 5 = .error "Cannot Remove. Equality comparer was not set" ∧
    (∃ b q, Remove (SetEqualityComparer testQueue (some eqInt)) 5 = .ok (b, q)) ∧
    ∃ b, Contains (SetEqualityComparer testQueue (some eqInt)) 5 = .ok b :=
  ⟨(C18_missing_equality_comparer (New lt) 10).1.mpr rfl,
    (C18_missing_equality_comparer (New lt) 0).2.2.1.mpr rfl,
    (C18_missing_equality_comparer testQueue 5).1.mpr rfl,
    ((C18_missing_equality_comparer testQueue 5).2.2.2.2.2 eqInt).1,
    ((C18_missing_equality_comparer testQueue 5).2.2.2.2.2 eqInt).2⟩

/-- C19 (ForEach re-establishes heap order): for every queue satisfying the
representation invariant, heap ordered or not, every strict weak ordering
`compare` and every transform `f`, after `ForEach(f)` no child in
`container[1..size]` outranks its parent. -/
theorem C19_forEach_heap_order (pq : PriorityQueue T) (wf : WF pq)
    (swo : StrictWeakOrder pq.compare) (f : T → T) :
    HeapOrdered (ForEach pq f).compare (ForEach pq f).container (ForEach pq f).size :=
  forEach_heapOrdered swo wf f

/-- Witness of C19: negating the elements of `Heapify([14,16,23,7,5,10], <)`
turns the root 5 into the lowest-priority element -5, which violates heap
order before the second loop of `ForEach` runs. -/
theorem C19_forEach_heap_order_witness :
    WF forEachQueue ∧ StrictWeakOrder forEachQueue.compare ∧
    ¬ HeapOrdered lt (applyLoop negate forEachQueue.size 1 forEachQueue.container)
      forEachQueue.size ∧
    HeapOrdered (ForEach forEachQueue negate).compare (ForEach forEachQueue negate).container
      (ForEach forEachQueue negate).size :=
  ⟨heapify_wf _ _, lt_strictWeakOrder,
    fun h => absurd (h 1 2 (by decide) (by decide) (Or.inl rfl) (by decide)) (by decide),
    C19_forEach_heap_order forEachQueue (heapify_wf _ _) lt_strictWeakOrder negate⟩

/-- C20 (ForEach applies the transform to every element and re-orders): for
every queue satisfying the representation invariant with logical contents `xs`,
every strict weak ordering `compare` and every transform `f`, after `ForEach(f)`
`Size` is unchanged, `container[1..size]` is a permutation of `[f(x) for x in
xs]`, slot 0 and the slots beyond `size` are untouched, and draining the queue
succeeds and yields a permutation of `[f(x) for x in xs]` in which no later
element outranks an earlier one. -/
theorem C20_forEach_applies_and_reorders (pq : PriorityQueue T) (wf : WF pq)
    (swo : StrictWeakOrder pq.compare) (f : T → T) :
    Size (ForEach pq f) = Size pq ∧
    (logical (ForEach pq f)).Perm ((logical pq).map f) ∧
    (∀ k, k = 0 ∨ pq.size < k →
      (ForEach pq f).container.getD k default = pq.container.getD k default) ∧
    ∃ ys q, drain (Size pq) (ForEach pq f) = .ok (ys, q) ∧ ys.Perm ((logical pq).map f) ∧
      DrainOrdered pq.compare ys ∧ Empty q = true := by
  refine ⟨rfl, forEach_logical pq wf f, forEach_frame pq wf f, ?_⟩
  obtain ⟨ys, q, hd, hp, ho, hz⟩ := drain_spec swo (Size pq) (ForEach pq f) rfl
    (forEach_wf pq f wf) (forEach_heapOrdered swo wf f) rfl
  exact ⟨ys, q, hd, hp.trans (forEach_logical pq wf f), ho, by simp [Empty, hz]⟩

/-- Witness of C20 at the test `Test_ForEachShouldExecuteGivenOperationOnEachElementAndCorrectlyReorder`:
negating every element of `Heapify([14,16,23,7,5,10], <)` drains as
-23, -16, -14, -10, -7, -5. -/
theorem C20_forEach_applies_and_reorders_witness :
    WF forEachQueue ∧ StrictWeakOrder forEachQueue.compare ∧
    (Size (ForEach forEachQueue negate) = Size forEachQueue ∧
      (logical (ForEach forEachQueue negate)).Perm ((logical forEachQueue).map negate) ∧
      (∀ k, k = 0 ∨ forEachQueue.size < k →
        (ForEach forEachQueue negate).container.getD k default =
          forEachQueue.container.getD k default) ∧
      ∃ ys q, drain (Size forEachQueue) (ForEach forEachQueue negate) = .ok (ys, q) ∧
        ys.Perm ((logical forEachQueue).map negate) ∧
        DrainOrdered forEachQueue.compare ys ∧ Empty q = true) ∧
    drained 6 (ForEach forEachQueue negate) = some [-23, -16, -14, -10, -7, -5] :=
  ⟨heapify_wf _ _, lt_strictWeakOrder,
    C20_forEach_applies_and_reorders forEachQueue (heapify_wf _ _) lt_strictWeakOrder negate,
    by decide⟩

/-- C21 (Heapify copies its input): for every slice `xs` of length `n` and
every `compare`, `Heapify(xs, compare)` has `size = n`, `cap = n`, a container
of length `n+1`, and slots `1..n` holding a permutation of `xs`; for `n = 0`
the container has length 1 and the size is 0. -/
theorem C21_heapify_copies_input (xs : List T) (compare : T → T → Bool) :
    (Heapify xs compare).size = xs.length ∧ (Heapify xs compare).cap = xs.length ∧
    (Heapify xs compare).container.length = xs.length + 1 ∧
    (↑(logical (Heapify xs compare)) : Multiset T) = (↑xs : Multiset T) ∧
    (Heapify ([] : List T) compare).container.length = 1 ∧
    (Heapify ([] : List T) compare).size = 0 :=
  ⟨rfl, rfl, (heapify_wf xs compare).len, Multiset.coe_eq_coe.mpr (heapify_logical xs compare),
    (heapify_wf ([] : List T) compare).len, rfl⟩

/-- C22 (Idempotent Clear): for every queue, after `Clear()` `Size()` returns 0
and `Empty()` returns true whatever the prior size, and calling `Clear()` twice
yields the same state as calling it once. -/
theorem C22_clear_idempotent (pq : PriorityQueue T) :
    Size (Clear pq) = 0 ∧ Empty (Clear pq) = true ∧ Clear (Clear pq) = Clear pq ∧
    (run (run pq .clear).1 .clear).1 = (run pq .clear).1 :=
  ⟨rfl, rfl, rfl, rfl⟩

/-- C23 (A cleared queue behaves as a fresh one): for every queue `q`
satisfying the representation invariant (as every reachable queue does) and
every sequence `ys`, enqueueing `ys` after `q.Clear()` yields the same `Size`,
the same logical contents `container[1..size]` slot by slot, and the same drain
sequence as enqueueing `ys` into `New(q.compare)`; both drains succeed. -/
theorem C23_cleared_as_fresh (pq : PriorityQueue T) (wf : WF pq) (ys : List T) :
    Size (enqueueAll (Clear pq) ys) = Size (enqueueAll (New pq.compare) ys) ∧
    logical (enqueueAll (Clear pq) ys) = logical (enqueueAll (New pq.compare) ys) ∧
    ∃ zs a b,
      drain (Size (enqueueAll (Clear pq) ys)) (enqueueAll (Clear pq) ys) = .ok (zs, a) ∧
      drain (Size (enqueueAll (New pq.compare) ys)) (enqueueAll (New pq.compare) ys)
        = .ok (zs, b) := by
  have h0 : Similar (Clear pq) (New pq.compare) :=
    ⟨rfl, rfl, ⟨wf.len, Nat.zero_le _⟩, new_wf pq.compare,
      fun k hk1 hk0 => absurd hk0 (by simp [Clear]; omega)⟩
  have h := enqueueAll_similar ys _ _ h0
  refine ⟨h.size, similar_logical _ _ h, ?_⟩
  obtain ⟨zs, a, b, ha, hb⟩ := drain_similar (Size (enqueueAll (Clear pq) ys)) _ _ h rfl
  refine ⟨zs, a, b, ha, ?_⟩
  have hs : Size (enqueueAll (New pq.compare) ys) = Size (enqueueAll (Clear pq) ys) :=
    h.size.symm
  rw [hs]
  exact hb

/-- Witness of C23 at the test `Test_ClearShouldResetPriorityQueue`:
`Heapify([16,14,23], <)` cleared, then enqueueing 4, 1, 3, 2, drains as
1, 2, 3, 4. -/
theorem C23_cleared_as_fresh_witness :
    WF (Heapify [16, 14, 23] lt) ∧
    (Size (enqueueAll clearedQueue [4, 1, 3, 2]) = Size (enqueueAll (New lt) [4, 1, 3, 2]) ∧
      logical (enqueueAll clearedQueue [4, 1, 3, 2]) =
        logical (enqueueAll (New lt) [4, 1, 3, 2]) ∧
      ∃ zs a b,
        drain (Size (enqueueAll clearedQueue [4, 1, 3, 2])) (enqueueAll clearedQueue [4, 1, 3, 2])
          = .ok (zs, a) ∧
        drain (Size (enqueueAll (New lt) [4, 1, 3, 2])) (enqueueAll (New lt) [4, 1, 3, 2])
          = .ok (zs, b)) ∧
    Size (enqueueAll clearedQueue [4, 1, 3, 2]) = 4 ∧
    drained 4 (enqueueAll clearedQueue [4, 1, 3, 2]) = some [1, 2, 3, 4] :=
  ⟨heapify_wf _ _, C23_cleared_as_fresh (Heapify [16, 14, 23] lt) (heapify_wf _ _) [4, 1, 3, 2],
    by decide, by decide⟩

/-- C24 (Size/capacity representation invariant): in every state reachable from
`New` or `Heapify` by any sequence of calls of the public methods, panicking
calls included, `size <= cap` and `len(container) = cap + 1` (`0 <= size` holds
because `size` is only decremented after a test that it is positive); `New`
yields size 0, cap 0 and a container of length 1. -/
theorem C24_representation_invariant (pq : PriorityQueue T) (h : ReachableByCalls pq) :
    0 ≤ pq.size ∧ pq.size ≤ pq.cap ∧ pq.container.length = pq.cap + 1 ∧
    ∀ compare : T → T → Bool, (New compare).size = 0 ∧ (New compare).cap = 0 ∧
      (New compare).container.length = 1 := by
  have wf := reachable_wf pq (reachableByCalls_reachable pq h)
  exact ⟨Nat.zero_le _, wf.le, wf.len, fun _ => ⟨rfl, rfl, rfl⟩⟩

/-- Witness of C24: the state after a panicking `Dequeue` on `New(<)`, an
`Enqueue(5)`, a panicking `Remove(5)` and a `Clear()`. -/
theorem C24_representation_invariant_witness :
    ReachableByCalls (run (run (run (run (New lt) .dequeue).1 (.enqueue 5)).1 (.remove 5)).1
      .clear).1 ∧
    (run (New lt) .dequeue).2 = .fault "Cannot Dequeue. PriorityQueue is empty" ∧
    (0 ≤ (run (run (run (run (New lt) .dequeue).1 (.enqueue 5)).1 (.remove 5)).1 .clear).1.size ∧
      (run (run (run (run (New lt) .dequeue).1 (.enqueue 5)).1 (.remove 5)).1 .clear).1.size ≤
        (run (run (run (run (New lt) .dequeue).1 (.enqueue 5)).1 (.remove 5)).1 .clear).1.cap ∧
      (run (run (run (run (New lt) .dequeue).1 (.enqueue 5)).1 (.remove 5)).1
        .clear).1.container.length =
        (run (run (run (run (New lt) .dequeue).1 (.enqueue 5)).1 (.remove 5)).1 .clear).1.cap + 1 ∧
      ∀ compare : Int → Int → Bool, (New compare).size = 0 ∧ (New compare).cap = 0 ∧
        (New compare).container.length = 1) :=
  have hr : ReachableByCalls
      (run (run (run (run (New lt) .dequeue).1 (.enqueue 5)).1 (.remove 5)).1 .clear).1 :=
    ReachableByCalls.call _ (ReachableByCalls.call _ (ReachableByCalls.call _
      (ReachableByCalls.call _ (ReachableByCalls.new lt))))
  ⟨hr, rfl, C24_representation_invariant _ hr⟩

/-- C25 (Only the documented faults exist): in every state satisfying the
representation invariant (as every reachable state does), `Enqueue`, `Add`,
`ForEach` and, with an equality comparer set, `Remove` and `Contains` complete
with every index they, `siftUp` and `siftDown` read or write inside
`[1, len(container)-1]` (`Clear` contains no index expression); `Dequeue` and
`Peek` fail only on an empty queue and `Remove` and `Contains` only without an
equality comparer, each with its documented message. -/
theorem C25_only_documented_faults (pq : PriorityQueue T) (wf : WF pq) :
    (∀ x, EnqueueChecked pq x = .ok (Enqueue pq x)) ∧
    (∀ x, AddChecked pq x = .ok (Add pq x)) ∧
    (∀ f, ForEachChecked pq f = .ok (ForEach pq f)) ∧
    (∀ x, pq.equals ≠ none → ∃ b q, RemoveChecked pq x = .ok (b, q)) ∧
    (∀ x, pq.equals ≠ none → ∃ b, ContainsChecked pq x = .ok b) ∧
    (pq.size ≠ 0 → (∃ q, DequeueChecked pq = .ok q) ∧ ∃ t, PeekChecked pq = .ok t) ∧
    (∀ msg, DequeueChecked pq = .error msg →
      msg = "Cannot Dequeue. PriorityQueue is empty" ∧ pq.size = 0) ∧
    (∀ msg, PeekChecked pq = .error msg →
      msg = "Cannot Peek. PriorityQueue is empty" ∧ pq.size = 0) ∧
    (∀ x msg, RemoveChecked pq x = .error msg →
      msg = "Cannot Remove. Equality comparer was not set" ∧ pq.equals = none) ∧
    (∀ x msg, ContainsChecked pq x = .error msg →
      msg = "Cannot execute Contains. Equality comparer was not set" ∧ pq.equals = none) := by
  refine ⟨enqueueChecked_ok pq wf, ?_, forEachChecked_ok pq wf, ?_, ?_, ?_, ?_, ?_, ?_, ?_⟩
  · intro x
    unfold AddChecked
    rw [enqueueChecked_ok pq wf x, andThen_ok]
    rfl
  · intro x hne
    rw [removeChecked_ok pq wf x]
    cases he : pq.equals with
    | none => exact absurd he hne
    | some equals => exact remove_returns pq equals he x
  · intro x hne
    rw [containsChecked_ok pq wf x]
    cases he : pq.equals with
    | none => exact absurd he hne
    | some equals => exact ⟨_, contains_eq pq equals he x⟩
  · intro hne
    rw [dequeueChecked_ok pq wf, peekChecked_ok pq wf]
    exact ⟨⟨_, dequeue_eq pq hne⟩, ⟨_, peek_eq pq hne⟩⟩
  · intro msg h
    rw [dequeueChecked_ok pq wf] at h
    exact dequeue_error pq msg h
  · intro msg h
    rw [peekChecked_ok pq wf] at h
    exact peek_error pq msg h
  · intro x msg h
    rw [removeChecked_ok pq wf x] at h
    exact remove_error pq x msg h
  · intro x msg h
    rw [containsChecked_ok pq wf x] at h
    exact contains_error pq x msg h

/-- Witness of C25 on `Heapify([14,16,5,23,7,10], <)`; on a queue that violates
the representation invariant (one slot, size 1) the audit does stop `Peek`. -/
theorem C25_only_documented_faults_witness :
    WF testQueue ∧
    EnqueueChecked testQueue 21 = .ok (Enqueue testQueue 21) ∧
    ForEachChecked testQueue negate = .ok (ForEach testQueue negate) ∧
    (∃ q, DequeueChecked testQueue = .ok q) ∧
    PeekChecked ({ equals := none, compare := lt, container := [7], cap := 1, size := 1 } :
      PriorityQueue Int) = .error outOfRange :=
  ⟨heapify_wf _ _, (C25_only_documented_faults testQueue (heapify_wf _ _)).1 21,
    (C25_only_documented_faults testQueue (heapify_wf _ _)).2.2.1 negate,
    ((C25_only_documented_faults testQueue (heapify_wf _ _)).2.2.2.2.2.1 (by decide)).1, rfl⟩

/-- C26 (Shrinking never deallocates and growth is by one slot): `Dequeue`,
`Remove`, `Clear`, `ForEach`, `Peek` and `Contains`, whether they return or
panic, leave `cap` and `len(container)` unchanged; `Enqueue` leaves both
unchanged when `size < cap` before the call and increases each by exactly one
when `size == cap`. -/
theorem C26_capacity_frame (pq : PriorityQueue T) :
    (∀ c : Call T, (c = .dequeue ∨ (∃ x, c = .remove x) ∨ c = .clear ∨ (∃ f, c = .forEach f) ∨
        c = .peek ∨ ∃ x, c = .contains x) →
      (run pq c).1.cap = pq.cap ∧ (run pq c).1.container.length = pq.container.length) ∧
    (∀ x, pq.size < pq.cap →
      (Enqueue pq x).cap = pq.cap ∧ (Enqueue pq x).container.length = pq.container.length) ∧
    (∀ x, pq.size = pq.cap →
      (Enqueue pq x).cap = pq.cap + 1 ∧
        (Enqueue pq x).container.length = pq.container.length + 1) := by
  refine ⟨?_, ?_, ?_⟩
  · intro c hc
    apply run_frame
    intro x
    rcases hc with h | ⟨_, h⟩ | h | ⟨_, h⟩ | h | ⟨_, h⟩ <;> subst h <;> simp
  · intro x hlt
    rw [enqueue_cap, length_enqueue, if_neg (by omega), if_neg (by omega)]
    exact ⟨rfl, rfl⟩
  · intro x heq
    rw [enqueue_cap, length_enqueue, if_pos (by omega), if_pos (by omega)]
    exact ⟨rfl, rfl⟩

/-- Witness of C26 at the test `Test_DequeueShouldRemoveTheCorrectValue`: after
`Heapify` of 6 elements, `Enqueue(21)` and `Dequeue()`, size is 6 and cap is 7. -/
theorem C26_capacity_frame_witness :
    testQueue.size = testQueue.cap ∧
    (Enqueue testQueue 21).cap = testQueue.cap + 1 ∧
    (Enqueue testQueue 21).container.length = testQueue.container.length + 1 ∧
    (run (Enqueue testQueue 21) .dequeue).1.cap = (Enqueue testQueue 21).cap ∧
    (run (Enqueue testQueue 21) .dequeue).1.container.length =
      (Enqueue testQueue 21).container.length ∧
    (run (Enqueue testQueue 21) .dequeue).1.size = 6 ∧
    (run (Enqueue testQueue 21) .dequeue).1.cap = 7 :=
  ⟨by decide, ((C26_capacity_frame testQueue).2.2 21 (by decide)).1,
    ((C26_capacity_frame testQueue).2.2 21 (by decide)).2,
    ((C26_capacity_frame (Enqueue testQueue 21)).1 .dequeue (Or.inl rfl)).1,
    ((C26_capacity_frame (Enqueue testQueue 21)).1 .dequeue (Or.inl rfl)).2,
    by decide, by decide⟩

/-- C37 (Removing the root equals dequeuing): for every non-empty queue with
an equality comparer set and every `x` with `equals(container[1], x)` true,
`Remove(x)` returns true and leaves exactly the state that `Dequeue()` leaves
when applied to the same starting state. -/
theorem C37_remove_root_is_dequeue (pq : PriorityQueue T) (equals : T → T → Bool)
    (he : pq.equals = some equals) (hne : pq.size ≠ 0) (x : T)
    (hx : equals (pq.container.getD 1 default) x = true) :
    ∃ q, Remove pq x = .ok (true, q) ∧ Dequeue pq = .ok q := by
  have hscan : scan equals pq.container x pq.size 1 = 1 := by
    obtain ⟨n, hn⟩ : ∃ n, pq.size = n + 1 := ⟨pq.size - 1, by omega⟩
    rw [hn]
    simp only [scan, hx, if_true]
  have hr := remove_found pq equals he x (by rw [hscan]; omega)
  rw [hscan] at hr
  exact ⟨_, hr, dequeue_eq pq hne⟩

/-- Witness of C37: `Remove(5)` on `Heapify([14,16,5,23,7,5,10,5], <)`, whose
root is 5. -/
theorem C37_remove_root_is_dequeue_witness :
    removeTestQueue.equals = some eqInt ∧ removeTestQueue.size ≠ 0 ∧
    eqInt (removeTestQueue.container.getD 1 default) 5 = true ∧
    ∃ q, Remove removeTestQueue 5 = .ok (true, q) ∧ Dequeue removeTestQueue = .ok q :=
  ⟨rfl, by decide, by decide,
    C37_remove_root_is_dequeue removeTestQueue eqInt rfl (by decide) 5 (by decide)⟩

/-- C40 (Re-heapifying a valid heap changes nothing): for every queue whose
`container[1..size]` is heap ordered under any `compare`, `ForEach` with a
transform that leaves every element of `container[1..size]` unchanged returns
with every field, and so size, cap and every container slot, identical to the
state before the call. -/
theorem C40_forEach_identity (pq : PriorityQueue T)
    (hq : HeapOrdered pq.compare pq.container pq.size) (f : T → T)
    (hf : ∀ k, 1 ≤ k → k ≤ pq.size →
      f (pq.container.getD k default) = pq.container.getD k default) :
    ForEach pq f = pq := by
  unfold ForEach
  simp only
  rw [applyLoop_id f pq.size 1 pq.container (fun k h1 h2 => hf k h1 (by omega)),
    heapifyLoop_id pq.compare pq.size pq.container hq]

/-- Witness of C40: `ForEach` with the identity on `Heapify([14,16,5,23,7,10], <)`. -/
theorem C40_forEach_identity_witness :
    HeapOrdered testQueue.compare testQueue.container testQueue.size ∧
    (∀ k, 1 ≤ k → k ≤ testQueue.size →
      id (testQueue.container.getD k default) = testQueue.container.getD k default) ∧
    ForEach testQueue id = testQueue :=
  ⟨heapify_heapOrdered lt_strictWeakOrder _, fun _ _ _ => rfl,
    C40_forEach_identity testQueue (heapify_heapOrdered lt_strictWeakOrder _) id
      (fun _ _ _ => rfl)⟩

/-- C38 (Top after insertion): for every non-empty queue satisfying the
representation invariant (as every reachable state does) whose
`container[1..size]` is heap ordered under a strict weak ordering `compare`,
with top element `t = container[1]`, and every element `x`, after `Enqueue(x)`
`Peek()` returns `x` if `compare(x, t)` is true and `t` if it is false. -/
theorem C38_top_after_enqueue (pq : PriorityQueue T) (wf : WF pq)
    (swo : StrictWeakOrder pq.compare) (hq : HeapOrdered pq.compare pq.container pq.size)
    (hne : pq.size ≠ 0) (x : T) :
    Peek (Enqueue pq x) =
      .ok (if pq.compare x (pq.container.getD 1 default) then x
        else pq.container.getD 1 default) := by
  have hlen := length_enqueuePlaced pq x wf
  have hle := wf.le
  rw [peek_eq _ (by rw [enqueue_size]; omega), enqueue_container, siftUp]
  congr 1
  apply siftUpLoop_root swo (pq.size + 1) x (pq.container.getD 1 default) (pq.size + 1)
    (pq.size + 1) _ (le_refl _) (by rw [hlen]; split <;> omega) (le_refl _)
  · intro k hk1 hks hk
    rw [getD_enqueuePlaced _ _ wf, if_neg hk]
    exact heapFrom_top swo pq.container pq.size ((heapOrdered_iff_heapFrom _ _ _).mp hq) k hk1
      (by omega)
  · rw [getD_enqueuePlaced _ _ wf, if_pos rfl]
  · right
    refine ⟨by omega, ?_⟩
    rw [getD_enqueuePlaced _ _ wf, if_neg (by omega)]

/-- Witness of C38 on `Heapify([14,16,5,23,7,10], <)`, whose top is 5:
after `Enqueue(3)` the top is 3, after `Enqueue(21)` it is still 5. -/
theorem C38_top_after_enqueue_witness :
    WF testQueue ∧ StrictWeakOrder testQueue.compare ∧
    HeapOrdered testQueue.compare testQueue.container testQueue.size ∧ testQueue.size ≠ 0 ∧
    Peek (Enqueue testQueue 3) =
      .ok (if testQueue.compare 3 (testQueue.container.getD 1 default) then 3
        else testQueue.container.getD 1 default) ∧
    Peek (Enqueue testQueue 3) = .ok 3 ∧
    Peek (Enqueue testQueue 21) = .ok 5 :=
  ⟨heapify_wf _ _, lt_strictWeakOrder, heapify_heapOrdered lt_strictWeakOrder _, by decide,
    C38_top_after_enqueue testQueue (heapify_wf _ _) lt_strictWeakOrder
      (heapify_heapOrdered lt_strictWeakOrder _) (by decide) 3, rfl, rfl⟩

/-- C36 (Sufficient condition for a safe Remove): for every queue whose
`container[1..size]` is heap ordered under a strict weak ordering, if the first
index `i` with `equals(container[i], x)` is `size` itself or an ancestor of it
in the implicit tree (`size` divided by 2 repeatedly reaches `i`), then
`Remove(x)` returns true and the queue after it is heap ordered on
`container[1..size-1]`. -/
theorem C36_remove_safe_at_ancestor (pq : PriorityQueue T) (wf : WF pq)
    (swo : StrictWeakOrder pq.compare) (hq : HeapOrdered pq.compare pq.container pq.size)
    (equals : T → T → Bool) (he : pq.equals = some equals) (x : T) (i : Nat)
    (hi1 : 1 ≤ i) (his : i ≤ pq.size)
    (hi : equals (pq.container.getD i default) x = true)
    (hfirst : ∀ j, 1 ≤ j → j < i → equals (pq.container.getD j default) x = false)
    (hanc : inSubtree i pq.size = true) :
    ∃ q, Remove pq x = .ok (true, q) ∧ q.size = pq.size - 1 ∧
      HeapOrdered q.compare q.container (pq.size - 1) := by
  have hscan := scan_eq_first equals pq.container x pq.size i hi1 his hi hfirst
  refine ⟨_, remove_found pq equals he x (by rw [hscan]; exact his), rfl, ?_⟩
  simp only [hscan]
  exact remove_heapOrdered_of_ancestor swo wf hq i hi1 his hanc

/-- Witness of C36 on `Heapify([14,16,5,23,7,5,10,5], <)`, whose container is
`[_,5,5,5,7,16,10,23,14]`: the element 7 sits at index 4, an ancestor of the
last index 8. -/
theorem C36_remove_safe_at_ancestor_witness :
    WF removeTestQueue ∧ StrictWeakOrder removeTestQueue.compare ∧
    HeapOrdered removeTestQueue.compare removeTestQueue.container removeTestQueue.size ∧
    removeTestQueue.equals = some eqInt ∧ 1 ≤ 4 ∧ 4 ≤ removeTestQueue.size ∧
    eqInt (removeTestQueue.container.getD 4 default) 7 = true ∧
    (∀ j, 1 ≤ j → j < 4 → eqInt (removeTestQueue.container.getD j default) 7 = false) ∧
    inSubtree 4 removeTestQueue.size = true ∧
    ∃ q, Remove removeTestQueue 7 = .ok (true, q) ∧ q.size = removeTestQueue.size - 1 ∧
      HeapOrdered q.compare q.container (removeTestQueue.size - 1) :=
  ⟨⟨rfl, by decide⟩, lt_strictWeakOrder,
    heapify_heapOrdered lt_strictWeakOrder [14, 16, 5, 23, 7, 5, 10, 5], rfl, by decide,
    by decide, by decide, by intro j h1 h2; interval_cases j <;> decide, by decide,
    C36_remove_safe_at_ancestor removeTestQueue ⟨rfl, by decide⟩ lt_strictWeakOrder
      (heapify_heapOrdered lt_strictWeakOrder [14, 16, 5, 23, 7, 5, 10, 5]) eqInt rfl 7 4
      (by decide) (by decide) (by decide) (by intro j h1 h2; interval_cases j <;> decide)
      (by decide)⟩

/-- C34 (siftDown restores heap order in a subtree): for every array `heap`,
every `size < len(heap)`, every `start >= 1` (so every `start` in `[1,size]`)
and every strict weak ordering, if every parent-child pair inside the subtree rooted at `start`, other
than the pairs whose parent is `start`, is heap ordered, then after
`siftDown(start, heap, size, compare)` every parent-child pair inside that
subtree is heap ordered, the elements stored in the subtree are a permutation of
those stored before, and every slot outside the subtree or beyond `size`
(slot 0 included) is unchanged, as is the length of the array. -/
theorem C34_siftDown_subtree {compare : T → T → Bool} (swo : StrictWeakOrder compare)
    (heap : List T) (size start : Nat) (hlen : size < heap.length) (hs1 : 1 ≤ start)
    (hpre : ∀ c, 2 ≤ c → c ≤ size → inSubtree start (c / 2) = true → c / 2 ≠ start →
      compare (heap.getD c default) (heap.getD (c / 2) default) = false) :
    (∀ c, 2 ≤ c → c ≤ size → inSubtree start (c / 2) = true →
      compare ((siftDown start heap size compare).getD c default)
        ((siftDown start heap size compare).getD (c / 2) default) = false) ∧
    (subtreeSlots (siftDown start heap size compare) size start).Perm
      (subtreeSlots heap size start) ∧
    (∀ k, inSubtree start k = false ∨ size < k →
      (siftDown start heap size compare).getD k default = heap.getD k default) ∧
    (siftDown start heap size compare).length = heap.length := by
  have hframe : ∀ k, inSubtree start k = false →
      (siftDown start heap size compare).getD k default = heap.getD k default :=
    siftDownLoop_subtree_frame compare size size start heap hs1 hlen
  refine ⟨?_, ?_, ?_, length_siftDown compare size start heap⟩
  · unfold siftDown
    apply siftDownLoop_heapOn swo size (fun k => inSubtree start k = true)
      (fun c _ h => inSubtree_child start (c / 2) c hs1 h rfl) size start heap hs1
      (inSubtree_self start) hlen (by omega) hpre
    intro c _ _ _ hp
    have := inSubtree_ge start (start / 2) hs1 hp
    omega
  · exact subtreeSlots_perm _ _ size start (by rw [length_siftDown]; exact hlen) hlen
      (siftDown_slots_perm compare size start heap hs1 hlen) hframe
  · intro k hk
    rcases hk with hk | hk
    · exact hframe k hk
    · exact siftDown_getD_frame compare size start heap hs1 hlen k (Or.inr hk)

/-- Witness of C34 on the array `[_,100,50,1,10,20,7,8,30,40]` with `size = 9`
and `start = 2`: the subtree holds the indices 2, 4, 5, 8, 9; the array as a
whole is not heap ordered, and only the subtree is rearranged. -/
theorem C34_siftDown_subtree_witness :
    StrictWeakOrder lt ∧
    9 < ([0, 100, 50, 1, 10, 20, 7, 8, 30, 40] : List Int).length ∧ 1 ≤ 2 ∧
    (∀ c, 2 ≤ c → c ≤ 9 → inSubtree 2 (c / 2) = true → c / 2 ≠ 2 →
      lt (([0, 100, 50, 1, 10, 20, 7, 8, 30, 40] : List Int).getD c default)
        (([0, 100, 50, 1, 10, 20, 7, 8, 30, 40] : List Int).getD (c / 2) default) = false) ∧
    siftDown 2 ([0, 100, 50, 1, 10, 20, 7, 8, 30, 40] : List Int) 9 lt =
      [0, 100, 10, 1, 30, 20, 7, 8, 50, 40] ∧
    subtreeSlots ([0, 100, 50, 1, 10, 20, 7, 8, 30, 40] : List Int) 9 2 = [50, 10, 20, 30, 40] ∧
    ((∀ c, 2 ≤ c → c ≤ 9 → inSubtree 2 (c / 2) = true →
      lt ((siftDown 2 ([0, 100, 50, 1, 10, 20, 7, 8, 30, 40] : List Int) 9 lt).getD c default)
        ((siftDown 2 ([0, 100, 50, 1, 10, 20, 7, 8, 30, 40] : List Int) 9 lt).getD (c / 2)
          default) = false) ∧
    (subtreeSlots (siftDown 2 ([0, 100, 50, 1, 10, 20, 7, 8, 30, 40] : List Int) 9 lt) 9 2).Perm
      (subtreeSlots ([0, 100, 50, 1, 10, 20, 7, 8, 30, 40] : List Int) 9 2) ∧
    (∀ k, inSubtree 2 k = false ∨ 9 < k →
      (siftDown 2 ([0, 100, 50, 1, 10, 20, 7, 8, 30, 40] : List Int) 9 lt).getD k default =
        ([0, 100, 50, 1, 10, 20, 7, 8, 30, 40] : List Int).getD k default) ∧
    (siftDown 2 ([0, 100, 50, 1, 10, 20, 7, 8, 30, 40] : List Int) 9 lt).length =
      ([0, 100, 50, 1, 10, 20, 7, 8, 30, 40] : List Int).length) :=
  ⟨lt_strictWeakOrder, by decide, by decide,
    by intro c h2 h9; interval_cases c <;> decide, by decide, by decide,
    C34_siftDown_subtree lt_strictWeakOrder [0, 100, 50, 1, 10, 20, 7, 8, 30, 40] 9 2
      (by decide) (by decide) (by intro c h2 h9; interval_cases c <;> decide)⟩

/-- C35 (Every operation runs to completion): for every `compare`, any boolean
function, and every state, the step-counted `siftUp` and, for every start index
at least 1, the step-counted `siftDown` exit within `size + 1` evaluations of
their loop condition, and so do `Heapify`, `Enqueue`, `Dequeue`, `Remove`,
`Contains` and `ForEach`, with the results of the definitions used throughout
this development. -/
theorem C35_operations_terminate (compare : T → T → Bool) (extra : Nat) :
    (∀ (heap : List T) (size : Nat),
      siftUpRun compare (size + 1 + extra) size heap = some (siftUp heap size compare)) ∧
    (∀ (start : Nat) (heap : List T) (size : Nat),
      siftDownRun compare size (size + 1 + extra) (start + 1) heap =
        some (siftDown (start + 1) heap size compare)) ∧
    (∀ elements : List T,
      HeapifyRun (elements.length + 1 + extra) elements compare =
        some (Heapify elements compare)) ∧
    (∀ (pq : PriorityQueue T) (x : T),
      EnqueueRun (pq.size + 2 + extra) pq x = some (Enqueue pq x)) ∧
    (∀ pq : PriorityQueue T, DequeueRun (pq.size + 1 + extra) pq = some (Dequeue pq)) ∧
    (∀ (pq : PriorityQueue T) (x : T),
      RemoveRun (pq.size + 1 + extra) pq x = some (Remove pq x)) ∧
    (∀ (pq : PriorityQueue T) (x : T),
      ContainsRun (pq.size + 1 + extra) pq x = some (Contains pq x)) ∧
    (∀ (pq : PriorityQueue T) (f : T → T),
      ForEachRun (pq.size + 1 + extra) pq f = some (ForEach pq f)) := by
  refine ⟨?_, ?_, ?_, ?_, ?_, ?_, ?_, ?_⟩
  · intro heap size
    exact siftUpRun_eq compare _ size size heap (by omega) (le_refl _)
  · intro start heap size
    exact siftDownRun_eq compare size _ (start + 1) size heap (by omega) (by omega) (by omega)
      (by omega)
  · intro elements
    unfold HeapifyRun Heapify
    simp only [shiftRight_one]
    rw [heapifyRun_eq compare _ _ (by omega) _ _ _ (by omega)]
    rfl
  · intro pq x
    unfold EnqueueRun Enqueue siftUp
    simp only
    by_cases h : pq.cap < pq.size + 1
    · rw [if_pos h, if_pos h,
        siftUpRun_eq pq.compare _ (pq.size + 1) (pq.size + 1) _ (by omega) (le_refl _)]
      rfl
    · rw [if_neg h, if_neg h,
        siftUpRun_eq pq.compare _ (pq.size + 1) (pq.size + 1) _ (by omega) (le_refl _)]
      rfl
  · intro pq
    unfold DequeueRun Dequeue siftDown
    simp only
    by_cases h : pq.size = 0
    · rw [if_pos h, if_pos h]
    · rw [if_neg h, if_neg h, siftDownRun_eq pq.compare (pq.size - 1) _ 1 (pq.size - 1) _
        (le_refl _) (by omega) (by omega) (by omega)]
      rfl
  · intro pq x
    unfold RemoveRun Remove siftDown
    cases he : pq.equals with
    | none => rfl
    | some equals =>
      simp only
      rw [scanRun_eq equals pq.container x pq.size _ pq.size 1 (by omega) (by omega)]
      simp only
      by_cases h : scan equals pq.container x pq.size 1 > pq.size
      · rw [if_pos h, if_pos h]
      · have h1 := (scan_spec equals pq.container x pq.size 1).1
        rw [if_neg h, if_neg h, siftDownRun_eq pq.compare (pq.size - 1) _ _ (pq.size - 1) _ h1
          (by omega) (by omega) (by omega)]
        rfl
  · intro pq x
    unfold ContainsRun Contains
    cases he : pq.equals with
    | none => rfl
    | some equals =>
      simp only
      rw [containsRun_eq equals pq.container x pq.size _ pq.size 1 (by omega) (by omega)]
      rfl
  · intro pq f
    unfold ForEachRun ForEach
    simp only [shiftRight_one]
    rw [applyRun_eq f pq.size _ pq.size 1 _ (by omega) (by omega)]
    simp only
    rw [heapifyRun_eq pq.compare _ _ (by omega) _ _ _ (by omega)]
    rfl

/-- C39 (Stale slots never leak): for every two queues that satisfy the
representation invariant of the reachable states and have the same compare, the
same equals, the same size and equal slots `container[1..size]`, whatever their
capacities, sentinel slots and slots beyond `size`, every public operation
called with the same arguments gives the same outcome on both (same return
value or same panic) and leaves them again with the same compare, the same
equals, the same size and equal slots `container[1..size]`. -/
theorem C39_stale_slots_never_leak (q1 q2 : PriorityQueue T) (h : Similar q1 q2)
    (he : q1.equals = q2.equals) (c : Call T) :
    (run q1 c).2 = (run q2 c).2 ∧ Similar (run q1 c).1 (run q2 c).1 ∧
      (run q1 c).1.equals = (run q2 c).1.equals := by
  have hs := h.size
  cases c with
  | setEqualityComparer equals =>
    exact ⟨rfl, ⟨h.compare, h.size, ⟨h.wf1.len, h.wf1.le⟩, ⟨h.wf2.len, h.wf2.le⟩, h.agree⟩, rfl⟩
  | size =>
    refine ⟨?_, h, he⟩
    show Outcome.int q1.size = Outcome.int q2.size
    rw [hs]
  | empty =>
    refine ⟨?_, h, he⟩
    show Outcome.bool (q1.size == 0) = Outcome.bool (q2.size == 0)
    rw [hs]
  | enqueue x =>
    refine ⟨rfl, enqueue_similar q1 q2 h x, ?_⟩
    show (Enqueue q1 x).equals = (Enqueue q2 x).equals
    rw [enqueue_equals, enqueue_equals, he]
  | add x =>
    refine ⟨rfl, enqueue_similar q1 q2 h x, ?_⟩
    show (Enqueue q1 x).equals = (Enqueue q2 x).equals
    rw [enqueue_equals, enqueue_equals, he]
  | dequeue =>
    by_cases h0 : q1.size = 0
    · have r1 : run q1 .dequeue = (q1, .fault "Cannot Dequeue. PriorityQueue is empty") := by
        simp only [run, dequeue_empty q1 h0]
      have r2 : run q2 .dequeue = (q2, .fault "Cannot Dequeue. PriorityQueue is empty") := by
        simp only [run, dequeue_empty q2 (by rw [← hs]; exact h0)]
      rw [r1, r2]
      exact ⟨rfl, h, he⟩
    · have h0' : q2.size ≠ 0 := by rw [← hs]; exact h0
      obtain ⟨b, hb, hsim⟩ := dequeue_similar q1 q2 _ h (dequeue_eq q1 h0)
      have r1 : run q1 .dequeue = ({ q1 with
          size := q1.size - 1
          container := siftDown 1 (swap q1.container 1 q1.size) (q1.size - 1) q1.compare },
          .done) := by
        simp only [run, dequeue_eq q1 h0]
      have r2 : run q2 .dequeue = (b, .done) := by simp only [run, hb]
      rw [r1, r2]
      refine ⟨rfl, hsim, ?_⟩
      rw [dequeue_eq q2 h0'] at hb
      injection hb with hb
      rw [← hb]
      exact he
  | peek =>
    by_cases h0 : q1.size = 0
    · have r1 : run q1 .peek = (q1, .fault "Cannot Peek. PriorityQueue is empty") := by
        simp only [run, peek_empty q1 h0]
      have r2 : run q2 .peek = (q2, .fault "Cannot Peek. PriorityQueue is empty") := by
        simp only [run, peek_empty q2 (by rw [← hs]; exact h0)]
      rw [r1, r2]
      exact ⟨rfl, h, he⟩
    · have h0' : q2.size ≠ 0 := by rw [← hs]; exact h0
      have r1 : run q1 .peek = (q1, .ref (q1.container.getD 1 default)) := by
        simp only [run, peek_eq q1 h0]
      have r2 : run q2 .peek = (q2, .ref (q2.container.getD 1 default)) := by
        simp only [run, peek_eq q2 h0']
      rw [r1, r2]
      refine ⟨?_, h, he⟩
      show Outcome.ref _ = Outcome.ref _
      rw [h.agree 1 (le_refl 1) (by omega)]
  | remove x =>
    cases he1 : q1.equals with
    | none =>
      have he2 : q2.equals = none := by rw [← he]; exact he1
      have r1 : run q1 (.remove x) =
          (q1, .fault "Cannot Remove. Equality comparer was not set") := by
        simp only [run, Remove, he1]
      have r2 : run q2 (.remove x) =
          (q2, .fault "Cannot Remove. Equality comparer was not set") := by
        simp only [run, Remove, he2]
      rw [r1, r2]
      exact ⟨rfl, h, by rw [he1, he2]⟩
    | some equals =>
      have he2 : q2.equals = some equals := by rw [← he]; exact he1
      obtain ⟨b, a1, a2, h1, h2, hsim, hequals⟩ := remove_similar q1 q2 h equals he1 he2 x
      have r1 : run q1 (.remove x) = (a1, .bool b) := by simp only [run, h1]
      have r2 : run q2 (.remove x) = (a2, .bool b) := by simp only [run, h2]
      rw [r1, r2]
      exact ⟨rfl, hsim, hequals⟩
  | contains x =>
    cases he1 : q1.equals with
    | none =>
      have he2 : q2.equals = none := by rw [← he]; exact he1
      have r1 : run q1 (.contains x) =
          (q1, .fault "Cannot execute Contains. Equality comparer was not set") := by
        simp only [run, Contains, he1]
      have r2 : run q2 (.contains x) =
          (q2, .fault "Cannot execute Contains. Equality comparer was not set") := by
        simp only [run, Contains, he2]
      rw [r1, r2]
      exact ⟨rfl, h, by rw [he1, he2]⟩
    | some equals =>
      have he2 : q2.equals = some equals := by rw [← he]; exact he1
      have r1 : run q1 (.contains x) =
          (q1, .bool (containsLoop equals q1.container x q1.size 1)) := by
        simp only [run, contains_eq q1 equals he1]
      have r2 : run q2 (.contains x) =
          (q2, .bool (containsLoop equals q2.container x q2.size 1)) := by
        simp only [run, contains_eq q2 equals he2]
      rw [r1, r2]
      refine ⟨?_, h, by rw [he1, he2]⟩
      show Outcome.bool _ = Outcome.bool _
      rw [← hs, containsLoop_agree equals q1.container q2.container x q1.size h.agree q1.size 1
        (le_refl 1) (by omega)]
  | clear =>
    refine ⟨rfl, ⟨h.compare, rfl, ⟨h.wf1.len, Nat.zero_le _⟩, ⟨h.wf2.len, Nat.zero_le _⟩, ?_⟩, he⟩
    intro k hk1 hk0
    have hk0 : k ≤ 0 := hk0
    omega
  | forEach f =>
    exact ⟨rfl, forEach_similar q1 q2 h f, he⟩

/-- Witness of C39 on `Heapify([1,2,3], <)`, whose container is `[_,1,3,2]`, and
the queue obtained from it by `Enqueue(-5)` and `Dequeue()`, whose container is
`[_,1,3,2,-5]` with a larger `cap`; `Remove(3)` returns true on both and leaves
the slots `[1,2]` in both. -/
theorem C39_stale_slots_never_leak_witness :
    Similar freshQueue staleQueue ∧ freshQueue.equals = staleQueue.equals ∧
    freshQueue.container = [0, 1, 3, 2] ∧ staleQueue.container = [0, 1, 3, 2, -5] ∧
    freshQueue.cap = 3 ∧ staleQueue.cap = 4 ∧
    (run freshQueue (.remove 3)).2 = .bool true ∧
    (run freshQueue (.remove 3)).1.container = [0, 1, 2, 3] ∧
    (run staleQueue (.remove 3)).1.container = [0, 1, 2, 3, -5] ∧
    ((run freshQueue (.remove 3)).2 = (run staleQueue (.remove 3)).2 ∧
      Similar (run freshQueue (.remove 3)).1 (run staleQueue (.remove 3)).1 ∧
      (run freshQueue (.remove 3)).1.equals = (run staleQueue (.remove 3)).1.equals) :=
  ⟨⟨rfl, rfl, ⟨rfl, by decide⟩, ⟨rfl, by decide⟩,
      by intro k h1 h3; have h3 : k ≤ 3 := h3; interval_cases k <;> rfl⟩,
    rfl, by decide, by decide, by decide, by decide, rfl, by decide, by decide,
    C39_stale_slots_never_leak freshQueue staleQueue
      ⟨rfl, rfl, ⟨rfl, by decide⟩, ⟨rfl, by decide⟩,
        by intro k h1 h3; have h3 : k ≤ 3 := h3; interval_cases k <;> rfl⟩
      rfl (.remove 3)⟩

end PQ

namespace AL

variable {T : Type}

/-! ## The size never exceeds the length of the container -/

theorem indexLoop_range (equals : T → T → Bool) (element : T) :
    ∀ (container : List T) (i : Int), 0 ≤ i →
      indexLoop equals element container i = -1 ∨
        (i ≤ indexLoop equals element container i ∧
          indexLoop equals element container i < i + container.length) := by
  intro container
  induction container with
  | nil => intro i _; exact Or.inl rfl
  | cons v rest ih =>
    intro i hi
    simp only [indexLoop]
    split
    · right
      simp only [List.length_cons]
      omega
    · rcases ih (i + 1) (by omega) with h | h
      · exact Or.inl h
      · right
        simp only [List.length_cons]
        omega

theorem writeIndex_ok (container c1 : List T) (i : Int) (v : T)
    (h : writeIndex container i v = .ok c1) :
    0 ≤ i ∧ i < container.length ∧ c1.length = container.length := by
  unfold writeIndex at h
  split at h
  · rename_i hr
    injection h with h
    subst h
    exact ⟨hr.1, hr.2, List.length_set _ _ _⟩
  · exact absurd h (by simp)

theorem add_size_le (l l1 : ArrayList T) (element : T) (b : Bool)
    (h : l.size ≤ l.container.length) (ha : Add l element = .ok (b, l1)) :
    l1.size ≤ l1.container.length := by
  unfold Add at ha
  split at ha
  · injection ha with ha
    injection ha with _ ha
    subst ha
    simp only [List.length_append, List.length_singleton]
    omega
  · split at ha
    · rename_i container hw
      obtain ⟨_, h2, h3⟩ := writeIndex_ok _ _ _ _ hw
      injection ha with ha
      injection ha with _ ha
      subst ha
      simp only [h3]
      omega
    · exact absurd ha (by simp)

theorem removeAt_size_le (l l1 : ArrayList T) (index : Int)
    (h : l.size ≤ l.container.length) (ha : RemoveAt l index = .ok l1) :
    l1.size ≤ l1.container.length := by
  unfold RemoveAt at ha
  split at ha
  · exact absurd ha (by simp)
  · rename_i hv
    simp only [isValidIndex, Bool.not_eq_true, Bool.not_eq_false, Bool.and_eq_true,
      decide_eq_true_eq] at hv
    injection ha with ha
    subst ha
    simp only [List.length_append, List.length_take, List.length_drop]
    omega

theorem insert_size_le (l l1 : ArrayList T) (index : Int) (element : T) (b : Bool)
    (h : l.size ≤ l.container.length) (ha : Insert l index element = .ok (b, l1)) :
    l1.size ≤ l1.container.length := by
  unfold Insert at ha
  split at ha
  · injection ha with ha
    injection ha with _ ha
    subst ha
    exact h
  · rename_i hr
    split at ha
    · split at ha
      · rename_i b2 l2 hadd
        injection ha with ha
        injection ha with _ ha
        subst ha
        exact add_size_le l _ element _ h hadd
      · exact absurd ha (by simp)
    · rename_i hne
      simp only at ha
      split at ha
      · rename_i container hw
        obtain ⟨_, _, h3⟩ := writeIndex_ok _ _ _ _ hw
        injection ha with ha
        injection ha with _ ha
        subst ha
        simp only [h3, List.length_append, List.length_take, List.length_drop]
        omega
      · exact absurd ha (by simp)

theorem reachable_size_le (l : ArrayList T) (h : Reachable l) :
    l.size ≤ l.container.length := by
  induction h with
  | new elements =>
    simp only [New]
    split <;> simp_all
  | newOfAny elements =>
    simp only [NewOfAny]
    split <;> simp_all
  | setEqualityComparer equals _ ih => exact ih
  | set index value _ hs ih =>
    unfold Set at hs
    split at hs
    · exact absurd hs (by simp)
    · split at hs
      · rename_i container hw
        obtain ⟨_, _, h3⟩ := writeIndex_ok _ _ _ _ hw
        injection hs with hs
        subst hs
        simp only [h3]
        exact ih
      · exact absurd hs (by simp)
  | add element b _ ha ih => exact add_size_le _ _ element b ih ha
  | removeBack _ hr ih =>
    unfold RemoveBack at hr
    split at hr
    · simp at hr
    · injection hr with hr
      subst hr
      simp only
      omega
  | insert index element b _ hi ih => exact insert_size_le _ _ index element b ih hi
  | addToFront element _ ha ih =>
    unfold AddToFront at ha
    split at ha
    · rename_i b l2 hins
      injection ha with ha
      subst ha
      exact insert_size_le _ _ 0 element _ ih hins
    · simp at ha
  | remove element b _ hr ih =>
    rename_i l0 l2 _
    unfold Remove at hr
    split at hr
    · simp at hr
    · rename_i i hidx
      split at hr
      · injection hr with hr
        injection hr with _ hr
        subst hr
        exact ih
      · rename_i hne
        injection hr with hr
        injection hr with _ hr
        subst hr
        unfold indexOf at hidx
        split at hidx
        · simp at hidx
        · rename_i equals _
          injection hidx with hidx
          have hrange := indexLoop_range equals element l0.container 0 (le_refl 0)
          rw [hidx] at hrange
          simp only [List.length_append, List.length_take, List.length_drop]
          omega
  | removeAt index _ hr ih => exact removeAt_size_le _ _ index ih hr
  | removeFront _ hr ih => exact removeAt_size_le _ _ 0 ih hr
  | clear _ ih =>
    simp only [Clear]
    omega

/-! ## The claims about the array list -/

/-- C27 (ArrayList.Add always succeeds) fails on the code: `RemoveAt(0)` (or
`Remove(2)`) on `New(1, 2, 3)` shortens the container to length 2 and
decrements `size` to 2 but leaves `cap` at 3; the next `Add(4)` finds
`size != cap`, executes `l.container[2] = 4` and panics with an index out of
range. -/
theorem C27_add_panics_after_remove :
    (∃ l1, RemoveAt (New [1, 2, 3] : ArrayList Int) 0 = .ok l1 ∧ Reachable l1 ∧
      l1.container = [2, 3] ∧ l1.size = 2 ∧ l1.cap = 3 ∧ Add l1 4 = .error indexPanic) ∧
    (∃ l1, Remove (New [1, 2, 3] : ArrayList Int) 2 = .ok (true, l1) ∧ Reachable l1 ∧
      l1.container = [1, 3] ∧ l1.size = 2 ∧ l1.cap = 3 ∧ Add l1 4 = .error indexPanic) :=
  ⟨⟨_, rfl, Reachable.removeAt 0 (Reachable.new [1, 2, 3]) rfl, by decide, by decide,
      by decide, rfl⟩,
    ⟨_, rfl, Reachable.remove 2 true (Reachable.new [1, 2, 3]) (by rfl), by decide, by decide,
      by decide, rfl⟩⟩

/-- C28 (ArrayList.Add appends at the end) fails on the code: after
`New(1, 2)`, `RemoveBack()` and `AddToFront(9)` the list is `[9, 1]` with
`size == cap == 2` and a container `[9, 1, 2]` of length 3; `Add(7)` appends 7
at index 3 and sets `size` to 3, so `Back()` and `At(2)` return the stale 2 and
the list reads `[9, 1, 2]`. -/
theorem C28_add_misses_the_end :
    ∃ l1 l2 l3, RemoveBack (New [1, 2] : ArrayList Int) = .ok l1 ∧
      AddToFront l1 9 = .ok l2 ∧ Reachable l2 ∧ Size l2 = 2 ∧ elements l2 = some [9, 1] ∧
      Add l2 7 = .ok (true, l3) ∧ Size l3 = 3 ∧ l3.container = [9, 1, 2, 7] ∧
      Back l3 = .ok 2 ∧ At l3 (Size l3 - 1) = .ok 2 ∧ elements l3 = some [9, 1, 2] :=
  ⟨_, _, _, rfl, rfl,
    Reachable.addToFront 9 (Reachable.removeBack (Reachable.new [1, 2]) rfl) rfl,
    by decide, by decide, rfl, by decide, by decide, rfl, rfl, by decide⟩

/-- C29 (IndexOf / Contains search the list's elements only) fails on the code:
`indexOf` ranges over the whole container, so after `RemoveBack()` on
`New(1, 2, 3)`, where `Size()` is 2 and the list is `[1, 2]`, `Contains(3)` is
true and `IndexOf(3)` is 2; after `Clear()`, where `Size()` is 0, `Contains(1)`
is true and `IndexOf(1)` is 0. -/
theorem C29_search_reads_stale_slots :
    (∃ l1, RemoveBack (New [1, 2, 3] : ArrayList Int) = .ok l1 ∧ Reachable l1 ∧ Size l1 = 2 ∧
      elements l1 = some [1, 2] ∧ Contains l1 3 = .ok true ∧ IndexOf l1 3 = .ok 2) ∧
    (Size (Clear (New [1, 2, 3] : ArrayList Int)) = 0 ∧
      Contains (Clear (New [1, 2, 3] : ArrayList Int)) 1 = .ok true ∧
      IndexOf (Clear (New [1, 2, 3] : ArrayList Int)) 1 = .ok 0) :=
  ⟨⟨_, rfl, Reachable.removeBack (Reachable.new [1, 2, 3]) rfl, by decide, by decide, rfl, rfl⟩,
    ⟨by decide, rfl, rfl⟩⟩

/-- C30 (ForEach visits each element of the list) fails on the code: `ForEach`
ranges over the whole container, so after `RemoveBack()` on `New(10, 16, 5)`,
where `Size()` is 2 and the list is `[10, 16]`, `do` is called three times, on
10, 16 and 5, and the sum it computes is 31 instead of 26; after `Clear()`,
where `Size()` is 0, `do` is still called on all three values. -/
theorem C30_forEach_visits_stale_slots :
    (∃ l1, RemoveBack (New [10, 16, 5] : ArrayList Int) = .ok l1 ∧ Reachable l1 ∧ Size l1 = 2 ∧
      elements l1 = some [10, 16] ∧ visited l1 = [10, 16, 5] ∧ ForEach l1 addTo 0 = 31) ∧
    (Size (Clear (New [10, 16, 5] : ArrayList Int)) = 0 ∧
      visited (Clear (New [10, 16, 5] : ArrayList Int)) = [10, 16, 5]) :=
  ⟨⟨_, rfl, Reachable.removeBack (Reachable.new [10, 16, 5]) rfl, by decide, by decide,
      by decide, by decide⟩,
    ⟨by decide, by decide⟩⟩

end AL

namespace AS

variable {T : Type}

/-! ## The claim about the array stack -/

/-- Where the container is as long as `cap` says, which holds as long as `Remove`
has not been called, the stack is LIFO: `Push(x)` returns, `Peek()` then returns
`x`, `Size()` has grown by one, and `Pop()` then restores `Size()` and, on a
stack that was not empty, `Peek()`. -/
theorem lifo_of_full (s : Stack T) (hs : Full s) (x : T) :
    ∃ s1, Push s x = .ok s1 ∧ Full s1 ∧ Peek s1 = .ok x ∧ Size s1 = Size s + 1 ∧
      ∃ s2, Pop s1 = .ok s2 ∧ Full s2 ∧ Size s2 = Size s ∧
        (Size s ≠ 0 → Peek s2 = Peek s) := by
  obtain ⟨⟨equals, container, size, cap⟩⟩ := s
  obtain ⟨h0, hle, hlen⟩ := hs
  simp only at h0 hle hlen
  obtain ⟨n, rfl⟩ := Int.eq_ofNat_of_zero_le h0
  subst hlen
  have hn : n ≤ container.length := by omega
  by_cases hfull : (n : Int) = container.length
  · have hn2 : n = container.length := by omega
    refine ⟨⟨⟨equals, container ++ [x], n + 1, container.length + 1⟩⟩, ?_, ?_, ?_, ?_, ?_⟩
    · simp only [Push, AL.Add, hfull, if_true]
    · exact ⟨by simp only; omega, by simp only; omega, by simp⟩
    · have e : ((n : Int) + 1 - 1) = (n : Int) := by omega
      simp only [Peek, AL.Empty, AL.Back, AL.readIndex, e]
      rw [if_neg (by simp; omega), if_neg (by omega), if_pos (by omega)]
      simp [hn2]
    · rfl
    · refine ⟨⟨⟨equals, container ++ [x], n, container.length + 1⟩⟩, ?_, ?_, rfl, ?_⟩
      · simp only [Pop, AL.Empty, AL.RemoveBack]
        rw [if_neg (by simp; omega), if_neg (by omega)]
        simp
      · exact ⟨by simp only; omega, by simp only; omega, by simp⟩
      · intro hne
        have hne : (n : Int) ≠ 0 := hne
        have hpos : 0 < n := by omega
        simp only [Peek, AL.Empty, AL.Back, AL.readIndex]
        have hd : ¬ decide ((n : Int) = 0) = true := by simpa using hne
        have hge : (0 : Int) ≤ (n : Int) - 1 := by omega
        rw [if_neg hd, if_neg hne, if_neg hd, if_neg hne, if_pos hge, if_pos hge]
        have e : ((n : Int) - 1).toNat = n - 1 := by omega
        rw [e, List.getElem?_append_left (by omega)]
  · have hlt : n < container.length := by omega
    refine ⟨⟨⟨equals, container.set n x, n + 1, container.length⟩⟩, ?_, ?_, ?_, ?_, ?_⟩
    · simp only [Push, AL.Add, AL.writeIndex, if_neg hfull]
      rw [if_pos ⟨by omega, by omega⟩]
      simp
    · exact ⟨by simp only; omega, by simp only; omega, by simp⟩
    · have e : ((n : Int) + 1 - 1) = (n : Int) := by omega
      simp only [Peek, AL.Empty, AL.Back, AL.readIndex, e]
      rw [if_neg (by simp; omega), if_neg (by omega), if_pos (by omega)]
      simp [hlt]
    · rfl
    · refine ⟨⟨⟨equals, container.set n x, n, container.length⟩⟩, ?_, ?_, rfl, ?_⟩
      · simp only [Pop, AL.Empty, AL.RemoveBack]
        rw [if_neg (by simp; omega), if_neg (by omega)]
        simp
      · exact ⟨by simp only; omega, by simp only; omega, by simp⟩
      · intro hne
        have hne : (n : Int) ≠ 0 := hne
        have hpos : 0 < n := by omega
        simp only [Peek, AL.Empty, AL.Back, AL.readIndex]
        have hd : ¬ decide ((n : Int) = 0) = true := by simpa using hne
        have hge : (0 : Int) ≤ (n : Int) - 1 := by omega
        rw [if_neg hd, if_neg hne, if_neg hd, if_neg hne, if_pos hge, if_pos hge]
        have e : ((n : Int) - 1).toNat = n - 1 := by omega
        rw [e, List.getElem?_set_ne (by omega)]

/-- C31 (Array stack is LIFO) fails on the code: `Remove(2)` on `New(1, 2, 3)`
shortens the container of the array list to length 2 and decrements `size` to 2
but leaves `cap` at 3; the next `Push(4)` calls `Add(4)`, which finds
`size != cap`, executes `l.container[2] = 4` and panics with an index out of
range, and so does `Add(4)` of the stack. -/
theorem C31_push_panics_after_remove :
    ∃ s1, Remove (New [1, 2, 3] : Stack Int) 2 = .ok (true, s1) ∧ Reachable s1 ∧
      s1.container.container = [1, 3] ∧ Size s1 = 2 ∧ s1.container.cap = 3 ∧
      Peek s1 = .ok 3 ∧ Push s1 4 = .error AL.indexPanic ∧ Add s1 4 = .error AL.indexPanic :=
  ⟨_, rfl, Reachable.remove 2 true (Reachable.new [1, 2, 3]) (by rfl), by decide, by decide,
    by decide, rfl, rfl, rfl⟩

end AS

namespace HS

variable {K : Type} [BEq K]

theorem mapHas_iff (m : List K) (k : K) : mapHas m k = true ↔ ∃ x ∈ m, (x == k) = true := by
  unfold mapHas
  rw [List.any_eq_true]

theorem distinct_mapAssign (m : List K) (k : K) (h : Distinct m) : Distinct (mapAssign m k) := by
  unfold mapAssign
  split
  · exact h
  · rename_i hk
    unfold Distinct
    rw [List.pairwise_append]
    refine ⟨h, List.pairwise_singleton _ _, ?_⟩
    intro x hx y hy
    rw [List.mem_singleton] at hy
    subst hy
    cases hxy : x == y with
    | false => rfl
    | true => exact absurd ((mapHas_iff m y).mpr ⟨x, hx, hxy⟩) hk

theorem distinct_mapDelete (m : List K) (k : K) (h : Distinct m) : Distinct (mapDelete m k) :=
  List.Pairwise.sublist (List.filter_sublist _) h

theorem distinct_foldl (elements : List K) :
    ∀ m : List K, Distinct m → Distinct (elements.foldl mapAssign m) := by
  induction elements with
  | nil => intro m h; exact h
  | cons e rest ih => intro m h; exact ih _ (distinct_mapAssign m e h)

theorem reachable_distinct (s : Set K) (h : Reachable s) : Distinct s.container := by
  induction h with
  | new elements =>
    unfold New
    simp only
    split
    · exact distinct_foldl elements [] List.Pairwise.nil
    · exact List.Pairwise.nil
  | add element _ ih =>
    unfold Add
    split
    · exact ih
    · exact distinct_mapAssign _ _ ih
  | remove element _ ih =>
    unfold Remove
    split
    · exact ih
    · exact distinct_mapDelete _ _ ih
  | clear _ _ => exact List.Pairwise.nil

theorem equalsLoop_iff (set : Set K) (m : List K) :
    equalsLoop set m = true ↔ ∀ k ∈ m, mapHas set.container k = true := by
  induction m with
  | nil => simp [equalsLoop]
  | cons k rest ih =>
    simp only [equalsLoop, Contains, List.mem_cons, forall_eq_or_imp]
    by_cases hk : mapHas set.container k = true
    · simp [hk, ih]
    · simp [hk]

theorem equals_iff (a b : Set K) :
    Equals a b = true ↔
      a.container.length = b.container.length ∧ ∀ k ∈ a.container, mapHas b.container k = true := by
  unfold Equals Size
  by_cases h : a.container.length = b.container.length
  · simp [h, equalsLoop_iff]
  · simp [h]

theorem contains_eq_mapHas (s : Set K) (k : K) : Contains s k = mapHas s.container k := by
  unfold Contains
  cases mapHas s.container k <;> rfl

variable [PartialEquivBEq K]

theorem length_mapDelete (m : List K) (k : K) (h : Distinct m) (hk : mapHas m k = true) :
    (mapDelete m k).length + 1 = m.length := by
  induction m with
  | nil => simp [mapHas] at hk
  | cons z rest ih =>
    unfold Distinct at h
    rw [List.pairwise_cons] at h
    unfold mapDelete
    cases hz : z == k with
    | true =>
      rw [List.filter_cons_of_neg (by simp [hz])]
      rw [List.filter_eq_self.mpr]
      · rfl
      · intro w hw
        cases hwk : w == k with
        | false => rfl
        | true =>
          have := h.1 w hw
          rw [BEq.trans hz (BEq.symm hwk)] at this
          exact absurd this (by decide)
    | false =>
      rw [List.filter_cons_of_pos (by simp [hz])]
      have hk2 : mapHas rest k = true := by
        rw [mapHas_iff] at hk ⊢
        obtain ⟨x, hx, hxk⟩ := hk
        rcases List.mem_cons.mp hx with rfl | hx
        · rw [hz] at hxk
          exact absurd hxk (by decide)
        · exact ⟨x, hx, hxk⟩
      have := ih h.2 hk2
      unfold mapDelete at this
      simp only [List.length_cons]
      omega

theorem pigeonhole :
    ∀ (a b : List K), Distinct a → Distinct b → (∀ x ∈ a, mapHas b x = true) →
      a.length ≤ b.length ∧ (a.length = b.length → ∀ y ∈ b, mapHas a y = true) := by
  intro a
  induction a with
  | nil =>
    intro b _ _ _
    refine ⟨Nat.zero_le _, ?_⟩
    intro hl y hy
    have : b = [] := List.length_eq_zero.mp hl.symm
    rw [this] at hy
    exact absurd hy (List.not_mem_nil _)
  | cons x rest ih =>
    intro b ha hb hsub
    unfold Distinct at ha
    rw [List.pairwise_cons] at ha
    have hx := hsub x (List.mem_cons_self _ _)
    have hlen := length_mapDelete b x hb hx
    have hsub2 : ∀ z ∈ rest, mapHas (mapDelete b x) z = true := by
      intro z hz
      obtain ⟨w, hw, hwz⟩ := (mapHas_iff b z).mp (hsub z (List.mem_cons_of_mem _ hz))
      refine (mapHas_iff _ z).mpr ⟨w, ?_, hwz⟩
      unfold mapDelete
      rw [List.mem_filter]
      refine ⟨hw, ?_⟩
      cases hwx : w == x with
      | false => rfl
      | true =>
        have := ha.1 z hz
        rw [BEq.trans (BEq.symm hwx) hwz] at this
        exact absurd this (by decide)
    obtain ⟨h1, h2⟩ := ih (mapDelete b x) ha.2 (distinct_mapDelete b x hb) hsub2
    refine ⟨by simp only [List.length_cons]; omega, ?_⟩
    intro hl y hy
    simp only [List.length_cons] at hl
    rw [mapHas_iff]
    cases hyx : y == x with
    | true => exact ⟨x, List.mem_cons_self _ _, BEq.symm hyx⟩
    | false =>
      have hy2 : y ∈ mapDelete b x := by
        unfold mapDelete
        rw [List.mem_filter]
        exact ⟨hy, by simp [hyx]⟩
      obtain ⟨w, hw, hwy⟩ := (mapHas_iff rest y).mp (h2 (by omega) y hy2)
      exact ⟨w, List.mem_cons_of_mem _ hw, hwy⟩

theorem mapHas_congr (m : List K) (j k : K) (hjk : (j == k) = true) (h : mapHas m j = true) :
    mapHas m k = true := by
  rw [mapHas_iff] at h ⊢
  obtain ⟨x, hx, hxj⟩ := h
  exact ⟨x, hx, BEq.trans hxj hjk⟩

/-- Equal sets have the same members, whatever their keys. -/
theorem members_of_equals (a b : Set K) (ha : Distinct a.container)
    (hb : Distinct b.container) (h : Equals a b = true) :
    ∀ k, Contains a k = Contains b k := by
  rw [equals_iff] at h
  obtain ⟨hl, hsub⟩ := h
  intro k
  have hp := (pigeonhole a.container b.container ha hb hsub).2 hl
  rw [contains_eq_mapHas, contains_eq_mapHas, Bool.eq_iff_iff]
  constructor
  · intro hk
    obtain ⟨x, hx, hxk⟩ := (mapHas_iff _ k).mp hk
    exact mapHas_congr _ x k hxk (hsub x hx)
  · intro hk
    obtain ⟨y, hy, hyk⟩ := (mapHas_iff _ k).mp hk
    exact mapHas_congr _ y k hyk (hp y hy)

/-- Sets with the same members are equal when every key they hold is equal to
itself. -/
theorem equals_of_members (a b : Set K) (ha : Distinct a.container)
    (hb : Distinct b.container) (hra : ∀ k ∈ a.container, (k == k) = true)
    (hrb : ∀ k ∈ b.container, (k == k) = true) (h : ∀ k, Contains a k = Contains b k) :
    Equals a b = true := by
  rw [equals_iff]
  simp only [contains_eq_mapHas] at h
  have hab : ∀ x ∈ a.container, mapHas b.container x = true := by
    intro x hx
    rw [← h x]
    exact (mapHas_iff _ x).mpr ⟨x, hx, hra x hx⟩
  have hba : ∀ y ∈ b.container, mapHas a.container y = true := by
    intro y hy
    rw [h y]
    exact (mapHas_iff _ y).mpr ⟨y, hy, hrb y hy⟩
  have h1 := (pigeonhole a.container b.container ha hb hab).1
  have h2 := (pigeonhole b.container a.container hb ha hba).1
  exact ⟨by omega, hab⟩

/-- The method `Equals` is symmetric, whatever the keys. -/
theorem equals_comm (a b : Set K) (ha : Distinct a.container) (hb : Distinct b.container) :
    Equals a b = Equals b a := by
  have key : ∀ (c d : Set K), Distinct c.container → Distinct d.container →
      Equals c d = true → Equals d c = true := by
    intro c d hc hd h
    rw [equals_iff] at h ⊢
    exact ⟨h.1.symm, (pigeonhole c.container d.container hc hd h.2).2 h.1⟩
  rw [Bool.eq_iff_iff]
  exact ⟨key a b ha hb, key b a hb ha⟩

theorem mapHas_mapAssign (m : List K) (e k : K) :
    mapHas (mapAssign m e) k = (mapHas m k || e == k) := by
  unfold mapAssign
  by_cases he : mapHas m e = true
  · rw [if_pos he]
    cases hek : e == k with
    | false => simp
    | true => simp [mapHas_congr m e k hek he]
  · rw [if_neg he]
    simp [mapHas, List.any_append]

theorem mapHas_foldl (elements : List K) (k : K) :
    ∀ m : List K, mapHas (elements.foldl mapAssign m) k =
      (mapHas m k || elements.any fun e => e == k) := by
  induction elements with
  | nil => intro m; simp
  | cons e rest ih =>
    intro m
    rw [List.foldl_cons, ih, mapHas_mapAssign, List.any_cons, Bool.or_assoc]

/-- The members of `New(elements...)` are the given elements, whatever their
order and multiplicity. -/
theorem contains_new (elements : List K) (k : K) :
    Contains (New elements) k = elements.any fun e => e == k := by
  have hc : ∀ (s : Set K), Contains s k = mapHas s.container k := by
    intro s
    unfold Contains
    cases mapHas s.container k <;> rfl
  rw [hc]
  unfold New
  simp only
  split
  · rw [mapHas_foldl]
    simp [mapHas]
  · rename_i h
    have : elements = [] := List.length_eq_zero.mp (by omega)
    subst this
    rfl

/-! ## The claim about the hash set -/

/-- C33 (HashSet.Equals is set equality) fails on keys that are not equal to
themselves: `New(NaN)` holds one key, which `Contains` does not find, so a set
compared with itself, or with a set built from the same elements, is reported
different; and `New(NaN, NaN)` holds two keys. -/
theorem C33_equals_fails_on_nan :
    Reachable (New [Float64.nan]) ∧ Size (New [Float64.nan]) = 1 ∧
    Size (New [Float64.nan, Float64.nan]) = 2 ∧
    Contains (New [Float64.nan]) Float64.nan = false ∧
    Equals (New [Float64.nan]) (New [Float64.nan]) = false :=
  ⟨Reachable.new _, by decide, by decide, rfl, rfl⟩

theorem float64_beq_iff (a b : Float64) :
    (a == b) = true ↔ ∃ m, a = Float64.num m ∧ b = Float64.num m := by
  cases a with
  | nan =>
    constructor
    · intro h
      exact absurd (show false = true from h) (by decide)
    · rintro ⟨m, h, _⟩
      exact absurd h (by simp)
  | num x =>
    cases b with
    | nan =>
      constructor
      · intro h
        exact absurd (show false = true from h) (by decide)
      · rintro ⟨m, _, h⟩
        exact absurd h (by simp)
    | num y =>
      constructor
      · intro h
        have h : (x == y) = true := h
        rw [beq_iff_eq] at h
        exact ⟨x, rfl, by rw [h]⟩
      · rintro ⟨m, h1, h2⟩
        injection h1 with h1
        injection h2 with h2
        show (x == y) = true
        rw [beq_iff_eq, h1, h2]

/-- Go's `==` on `float64` is symmetric and transitive. -/
instance : PartialEquivBEq Float64 where
  symm := by
    intro a b h
    obtain ⟨m, h1, h2⟩ := (float64_beq_iff a b).mp h
    exact (float64_beq_iff b a).mpr ⟨m, h2, h1⟩
  trans := by
    intro a b c hab hbc
    obtain ⟨m, h1, h2⟩ := (float64_beq_iff a b).mp hab
    obtain ⟨n, h3, h4⟩ := (float64_beq_iff b c).mp hbc
    rw [h2] at h3
    injection h3 with h3
    exact (float64_beq_iff a c).mpr ⟨m, h1, by rw [h4, h3]⟩

/-- C33 with the keys that are not equal to themselves set apart: for every
pair of reachable hash sets `a` and `b` over any key type, floating-point keys
included, `a.Equals(b) = b.Equals(a)`, and `a.Equals(b)` implies that `a` and
`b` have the same members; if every key that `a` and `b` hold is equal to itself
(no NaN among them), `a.Equals(b)` returns true if and only if `a` and `b` have
the same members. -/
theorem C33_equals_is_set_equality (a b : Set K) (ha : Reachable a) (hb : Reachable b) :
    ((∀ k ∈ a.container, (k == k) = true) → (∀ k ∈ b.container, (k == k) = true) →
      (Equals a b = true ↔ ∀ k, Contains a k = Contains b k)) ∧
    (Equals a b = true → ∀ k, Contains a k = Contains b k) ∧
    Equals a b = Equals b a := by
  have da := reachable_distinct a ha
  have db := reachable_distinct b hb
  exact ⟨fun hra hrb => ⟨members_of_equals a b da db, equals_of_members a b da db hra hrb⟩,
    members_of_equals a b da db, equals_comm a b da db⟩

/-- Witness of C33 on `float64` sets with the elements of
`Test_EqualsShouldReturnTrue_IfBothSetsHaveSameMembers`, the first built with a
duplicate: `New(4, 3, 7, 3)` and `New(7, 3, 4)` hold no NaN and are equal, and
`New(1, 3, 7)` and `New(7, 3, 4)` are not. -/
theorem C33_equals_is_set_equality_witness :
    Reachable (New [Float64.num 4, .num 3, .num 7, .num 3]) ∧
    Reachable (New [Float64.num 7, .num 3, .num 4]) ∧
    (∀ k ∈ (New [Float64.num 4, .num 3, .num 7, .num 3]).container, (k == k) = true) ∧
    (∀ k ∈ (New [Float64.num 7, .num 3, .num 4]).container, (k == k) = true) ∧
    Equals (New [Float64.num 4, .num 3, .num 7, .num 3]) (New [.num 7, .num 3, .num 4]) = true ∧
    Equals (New [Float64.num 1, .num 3, .num 7]) (New [.num 7, .num 3, .num 4]) = false ∧
    (((∀ k ∈ (New [Float64.num 4, .num 3, .num 7, .num 3]).container, (k == k) = true) →
        (∀ k ∈ (New [Float64.num 7, .num 3, .num 4]).container, (k == k) = true) →
        (Equals (New [Float64.num 4, .num 3, .num 7, .num 3]) (New [.num 7, .num 3, .num 4]) =
            true ↔
          ∀ k, Contains (New [Float64.num 4, .num 3, .num 7, .num 3]) k =
            Contains (New [.num 7, .num 3, .num 4]) k)) ∧
      (Equals (New [Float64.num 4, .num 3, .num 7, .num 3]) (New [.num 7, .num 3, .num 4]) =
          true →
        ∀ k, Contains (New [Float64.num 4, .num 3, .num 7, .num 3]) k =
          Contains (New [.num 7, .num 3, .num 4]) k) ∧
      Equals (New [Float64.num 4, .num 3, .num 7, .num 3]) (New [.num 7, .num 3, .num 4]) =
        Equals (New [.num 7, .num 3, .num 4]) (New [Float64.num 4, .num 3, .num 7, .num 3])) :=
  ⟨Reachable.new _, Reachable.new _, List.all_eq_true.mp rfl, List.all_eq_true.mp rfl, rfl, rfl,
    C33_equals_is_set_equality (New [Float64.num 4, .num 3, .num 7, .num 3])
      (New [.num 7, .num 3, .num 4]) (Reachable.new _) (Reachable.new _)⟩

end HS

namespace DL

variable {T : Type}

/-! ## Reading and writing the fields of a node -/

theorem deref_ok (nodes : List (Node T)) (a : Nat) (h : a < nodes.length) :
    ∃ node, deref nodes (some a) = .ok node ∧ node.Prev = prevOf nodes a ∧
      node.Next = nextOf nodes a ∧ some node.Value = valueOf nodes a := by
  refine ⟨nodes[a], ?_, ?_, ?_, ?_⟩ <;>
    simp [deref, prevOf, nextOf, valueOf, List.getElem?_eq_getElem h]

theorem nextOf_lt (nodes : List (Node T)) (a b : Nat) (h : nextOf nodes a = some b) :
    a < nodes.length := by
  by_contra hc
  simp [nextOf, List.getElem?_eq_none (Nat.le_of_not_lt hc)] at h

theorem prevOf_lt (nodes : List (Node T)) (a b : Nat) (h : prevOf nodes a = some b) :
    a < nodes.length := by
  by_contra hc
  simp [prevOf, List.getElem?_eq_none (Nat.le_of_not_lt hc)] at h

theorem setNext_ok (nodes : List (Node T)) (a : Nat) (v : Option Nat) (h : a < nodes.length) :
    ∃ nodes1, setNext nodes (some a) v = .ok nodes1 ∧ nodes1.length = nodes.length ∧
      (∀ b, nextOf nodes1 b = if b = a then v else nextOf nodes b) ∧
      (∀ b, prevOf nodes1 b = prevOf nodes b) ∧ (∀ b, valueOf nodes1 b = valueOf nodes b) := by
  refine ⟨nodes.set a { nodes[a] with Next := v }, ?_, ?_, ?_, ?_, ?_⟩
  · simp [setNext, deref, List.getElem?_eq_getElem h]
  · simp
  · intro b
    by_cases hb : b = a
    · subst hb
      simp [nextOf, List.getElem?_set_self h, List.getElem?_eq_getElem h]
    · simp [nextOf, hb, List.getElem?_set_ne (Ne.symm hb)]
  · intro b
    by_cases hb : b = a
    · subst hb
      simp [prevOf, List.getElem?_set_self h, List.getElem?_eq_getElem h]
    · simp [prevOf, List.getElem?_set_ne (Ne.symm hb)]
  · intro b
    by_cases hb : b = a
    · subst hb
      simp [valueOf, List.getElem?_set_self h, List.getElem?_eq_getElem h]
    · simp [valueOf, List.getElem?_set_ne (Ne.symm hb)]

theorem setPrev_ok (nodes : List (Node T)) (a : Nat) (v : Option Nat) (h : a < nodes.length) :
    ∃ nodes1, setPrev nodes (some a) v = .ok nodes1 ∧ nodes1.length = nodes.length ∧
      (∀ b, prevOf nodes1 b = if b = a then v else prevOf nodes b) ∧
      (∀ b, nextOf nodes1 b = nextOf nodes b) ∧ (∀ b, valueOf nodes1 b = valueOf nodes b) := by
  refine ⟨nodes.set a { nodes[a] with Prev := v }, ?_, ?_, ?_, ?_, ?_⟩
  · simp [setPrev, deref, List.getElem?_eq_getElem h]
  · simp
  · intro b
    by_cases hb : b = a
    · subst hb
      simp [prevOf, List.getElem?_set_self h, List.getElem?_eq_getElem h]
    · simp [prevOf, hb, List.getElem?_set_ne (Ne.symm hb)]
  · intro b
    by_cases hb : b = a
    · subst hb
      simp [nextOf, List.getElem?_set_self h, List.getElem?_eq_getElem h]
    · simp [nextOf, List.getElem?_set_ne (Ne.symm hb)]
  · intro b
    by_cases hb : b = a
    · subst hb
      simp [valueOf, List.getElem?_set_self h, List.getElem?_eq_getElem h]
    · simp [valueOf, List.getElem?_set_ne (Ne.symm hb)]

theorem fields_append (nodes : List (Node T)) (node : Node T) :
    (∀ b, nextOf (nodes ++ [node]) b = if b = nodes.length then node.Next else nextOf nodes b) ∧
    (∀ b, prevOf (nodes ++ [node]) b = if b = nodes.length then node.Prev else prevOf nodes b) ∧
    (∀ b, valueOf (nodes ++ [node]) b =
      if b = nodes.length then some node.Value else valueOf nodes b) := by
  refine ⟨?_, ?_, ?_⟩ <;> intro b <;> rcases Nat.lt_trichotomy b nodes.length with h | h | h
  all_goals
    first
    | (subst h; simp [nextOf, prevOf, valueOf])
    | simp [nextOf, prevOf, valueOf, List.getElem?_append_left h, Nat.ne_of_lt h]
    | simp [nextOf, prevOf, valueOf, Nat.ne_of_gt h,
        List.getElem?_eq_none (show (nodes ++ [node]).length ≤ b by simp; omega),
        List.getElem?_eq_none (show nodes.length ≤ b by omega)]

/-! ## Linked segments -/

theorem seg_frame (nodes nodes1 : List (Node T)) (q : Nat) :
    ∀ (addrs : List Nat) (p : Nat), Seg nodes p addrs q →
      (∀ a ∈ p :: addrs, nextOf nodes1 a = nextOf nodes a) →
      (∀ a ∈ addrs ++ [q], prevOf nodes1 a = prevOf nodes a) → Seg nodes1 p addrs q := by
  intro addrs
  induction addrs with
  | nil =>
    intro p h hn hp
    exact ⟨by rw [hn p (by simp)]; exact h.1, by rw [hp q (by simp)]; exact h.2⟩
  | cons a rest ih =>
    intro p h hn hp
    refine ⟨by rw [hn p (by simp)]; exact h.1, by rw [hp a (by simp)]; exact h.2.1, ?_⟩
    exact ih a h.2.2 (fun b hb => hn b (List.mem_cons_of_mem _ hb))
      (fun b hb => hp b (by simp at hb ⊢; tauto))

theorem seg_snoc (nodes : List (Node T)) (b q : Nat) :
    ∀ (addrs : List Nat) (p : Nat), Seg nodes p (addrs ++ [b]) q ↔
      Seg nodes p addrs b ∧ nextOf nodes b = some q ∧ prevOf nodes q = some b := by
  intro addrs
  induction addrs with
  | nil =>
    intro p
    show (_ ∧ _ ∧ _ ∧ _) ↔ (_ ∧ _) ∧ _ ∧ _
    tauto
  | cons a rest ih =>
    intro p
    show (_ ∧ _ ∧ Seg nodes a (rest ++ [b]) q) ↔ (_ ∧ _ ∧ Seg nodes a rest b) ∧ _ ∧ _
    rw [ih a]
    tauto

theorem seg_lt (nodes : List (Node T)) (q : Nat) :
    ∀ (addrs : List Nat) (p : Nat), Seg nodes p addrs q →
      ∀ a ∈ p :: addrs ++ [q], a < nodes.length := by
  intro addrs
  induction addrs with
  | nil =>
    intro p h a ha
    simp at ha
    rcases ha with rfl | rfl
    · exact nextOf_lt _ _ _ h.1
    · exact prevOf_lt _ _ _ h.2
  | cons b rest ih =>
    intro p h a ha
    simp only [List.cons_append, List.mem_cons] at ha
    rcases ha with rfl | ha
    · exact nextOf_lt _ _ _ h.1
    · exact ih b h.2.2 a (by simpa using ha)

/-! ## Add appends a node before the tail sentinel -/

theorem add_ok (dll : DoublyLinkedList T) (tl pv : Nat) (x : T) (ht : dll.tail = some tl)
    (htl : tl < dll.nodes.length) (hp : prevOf dll.nodes tl = some pv)
    (hpv : pv < dll.nodes.length) :
    ∃ nodes1, Add dll x = .ok (true, { dll with nodes := nodes1, size := dll.size + 1 }) ∧
      (∀ b, nextOf nodes1 b = if b = dll.nodes.length then some tl
        else if b = pv then some dll.nodes.length else nextOf dll.nodes b) ∧
      (∀ b, prevOf nodes1 b = if b = tl then some dll.nodes.length
        else if b = dll.nodes.length then some pv else prevOf dll.nodes b) ∧
      (∀ b, valueOf nodes1 b = if b = dll.nodes.length then some x else valueOf dll.nodes b) := by
  obtain ⟨fn, fp, fv⟩ := fields_append dll.nodes { Value := x, Prev := none, Next := none }
  generalize hn1 : dll.nodes ++ [{ Value := x, Prev := none, Next := none }] = nodes1 at fn fp fv
  have hl1 : nodes1.length = dll.nodes.length + 1 := by rw [← hn1]; simp
  obtain ⟨node, hd1, hd2, -, -⟩ := deref_ok nodes1 tl (by omega)
  rw [fp tl, if_neg (by omega), hp] at hd2
  obtain ⟨nodes2, e2, l2, n2, p2, v2⟩ := setNext_ok nodes1 pv (some dll.nodes.length) (by omega)
  obtain ⟨nodes3, e3, l3, p3, n3, v3⟩ := setPrev_ok nodes2 dll.nodes.length (some pv) (by omega)
  obtain ⟨nodes4, e4, l4, n4, p4, v4⟩ := setNext_ok nodes3 dll.nodes.length (some tl) (by omega)
  obtain ⟨nodes5, e5, l5, p5, n5, v5⟩ := setPrev_ok nodes4 tl (some dll.nodes.length) (by omega)
  refine ⟨nodes5, ?_, ?_, ?_, ?_⟩
  · unfold Add newNode
    simp only [hn1, ht, hd1, hd2, e2, e3, e4, e5, bind, Except.bind]
  · intro b
    rw [n5, n4, n3, n2, fn]
    by_cases h1 : b = dll.nodes.length
    · simp [h1]
    · by_cases h2 : b = pv <;> simp [h1, h2]
  · intro b
    rw [p5, p4, p3, p2, fp]
    by_cases h1 : b = tl
    · simp [h1]
    · by_cases h2 : b = dll.nodes.length <;> simp [h1, h2]
  · intro b
    rw [v5, v4, v3, v2, fv]

theorem ne_last_of_nodup (l : List Nat) (t : Nat) (h : (l ++ [t]).Nodup) :
    ∀ a ∈ l, a ≠ t := by
  intro a ha heq
  exact List.disjoint_left.mp (List.nodup_append.mp h).2.2 ha (by simp [heq])

theorem add_holds (dll : DoublyLinkedList T) (hd tl : Nat) (addrs : List Nat) (xs : List T)
    (h : Holds dll hd tl addrs xs) (x : T) :
    ∃ dll1, Add dll x = .ok (true, dll1) ∧
      Holds dll1 hd tl (addrs ++ [dll.nodes.length]) (xs ++ [x]) := by
  have hlt := seg_lt dll.nodes tl addrs hd h.seg
  have hnd := h.nodup
  have htl : tl < dll.nodes.length := hlt tl (by simp)
  have hfresh : ∀ a ∈ hd :: addrs ++ [tl], a ≠ dll.nodes.length := fun a ha =>
    Nat.ne_of_lt (hlt a ha)
  have hnetl : ∀ a ∈ hd :: addrs, a ≠ tl := ne_last_of_nodup (hd :: addrs) tl hnd
  have hnd1 : (hd :: (addrs ++ [dll.nodes.length]) ++ [tl]).Nodup := by
    have e : hd :: (addrs ++ [dll.nodes.length]) ++ [tl] =
        (hd :: addrs) ++ dll.nodes.length :: [tl] := by simp
    rw [e, List.nodup_middle, List.nodup_cons]
    exact ⟨fun hmem => hfresh _ hmem rfl, hnd⟩
  have hvals : ∀ nodes1 : List (Node T),
      (∀ b, valueOf nodes1 b = if b = dll.nodes.length then some x else valueOf dll.nodes b) →
      (addrs ++ [dll.nodes.length]).map (valueOf nodes1) = (xs ++ [x]).map some := by
    intro nodes1 fv
    rw [List.map_append, List.map_append, ← h.values]
    congr 1
    · apply List.map_congr_left
      intro a ha
      rw [fv, if_neg (hfresh a (by simp at ha ⊢; tauto))]
    · simp [fv]
  have hsize : dll.size + 1 = ((xs ++ [x]).length : Int) := by
    have := h.size
    simp only [List.length_append, List.length_singleton]
    push_cast
    omega
  have hn1 : dll.nodes.length ≠ tl := Ne.symm (hfresh tl (by simp))
  rcases List.eq_nil_or_concat addrs with hnil | ⟨front, pv, hcat⟩
  · subst hnil
    have hseg := h.seg
    obtain ⟨nodes1, e, fn, fp, fv⟩ := add_ok dll tl hd x h.tail htl hseg.2 (hlt hd (by simp))
    have h1 : hd ≠ dll.nodes.length := hfresh hd (by simp)
    refine ⟨_, e, h.head, h.tail, ?_, hnd1, hvals nodes1 fv, hsize⟩
    show nextOf nodes1 hd = some _ ∧ prevOf nodes1 _ = some hd ∧ nextOf nodes1 _ = some tl ∧
      prevOf nodes1 tl = some _
    rw [fn hd, fp dll.nodes.length, fn dll.nodes.length, fp tl, if_neg h1, if_pos rfl,
      if_neg hn1, if_pos rfl, if_pos rfl, if_pos rfl]
    exact ⟨rfl, rfl, rfl, rfl⟩
  · rw [List.concat_eq_append] at hcat
    subst hcat
    have hseg := (seg_snoc dll.nodes pv tl front hd).mp h.seg
    have hpvlt : pv < dll.nodes.length := hlt pv (by simp)
    obtain ⟨nodes1, e, fn, fp, fv⟩ := add_ok dll tl pv x h.tail htl hseg.2.2 hpvlt
    have hnepv : ∀ a ∈ hd :: front, a ≠ pv :=
      ne_last_of_nodup (hd :: front) pv (List.nodup_append.mp hnd).1
    refine ⟨_, e, h.head, h.tail, ?_, hnd1, hvals nodes1 fv, hsize⟩
    show Seg nodes1 hd (front ++ [pv] ++ [dll.nodes.length]) tl
    rw [seg_snoc, seg_snoc]
    refine ⟨⟨?_, ?_, ?_⟩, ?_, ?_⟩
    · apply seg_frame dll.nodes nodes1 pv front hd hseg.1
      · intro a ha
        rw [fn, if_neg (hfresh a (by simp at ha ⊢; tauto)), if_neg (hnepv a ha)]
      · intro a ha
        rw [fp, if_neg (hnetl a (by simp at ha ⊢; tauto)),
          if_neg (hfresh a (by simp at ha ⊢; tauto))]
    · rw [fn, if_neg (Nat.ne_of_lt hpvlt), if_pos rfl]
    · rw [fp, if_neg hn1, if_pos rfl]
    · rw [fn, if_pos rfl]
    · rw [fp, if_pos rfl]

/-! ## Front and RemoveFront act on the first node -/

theorem holds_cons (dll : DoublyLinkedList T) (hd tl : Nat) (addrs : List Nat) (x : T)
    (xs : List T) (h : Holds dll hd tl addrs (x :: xs)) : ∃ a rest, addrs = a :: rest := by
  cases addrs with
  | nil =>
    have := h.values
    simp at this
  | cons a rest => exact ⟨a, rest, rfl⟩

theorem front_holds (dll : DoublyLinkedList T) (hd tl a : Nat) (rest : List Nat) (x : T)
    (xs : List T) (h : Holds dll hd tl (a :: rest) (x :: xs)) : Front dll = .ok x := by
  have hlt := seg_lt dll.nodes tl (a :: rest) hd h.seg
  have hseg := h.seg
  obtain ⟨n1, d1, -, dn1, -⟩ := deref_ok dll.nodes hd (hlt hd (by simp))
  obtain ⟨n2, d2, -, -, dv2⟩ := deref_ok dll.nodes a (hlt a (by simp))
  rw [hseg.1] at dn1
  have hv := h.values
  simp only [List.map_cons, List.cons.injEq] at hv
  rw [hv.1] at dv2
  have hsize : dll.size ≠ 0 := by
    have := h.size
    simp only [List.length_cons] at this
    push_cast at this
    omega
  unfold Front
  rw [if_neg hsize]
  simp only [h.head, d1, dn1, d2, bind, Except.bind]
  injection dv2 with dv2
  rw [dv2]

theorem removeFront_holds (dll : DoublyLinkedList T) (hd tl a : Nat) (rest : List Nat) (x : T)
    (xs : List T) (h : Holds dll hd tl (a :: rest) (x :: xs)) :
    ∃ dll1, RemoveFront dll = .ok dll1 ∧ Holds dll1 hd tl rest xs := by
  have hlt := seg_lt dll.nodes tl (a :: rest) hd h.seg
  have hseg := h.seg
  have hnd := h.nodup
  have hsize : dll.size ≠ 0 := by
    have := h.size
    simp only [List.length_cons] at this
    push_cast at this
    omega
  have hnd2 : (hd :: rest ++ [tl]).Nodup := by
    have e : hd :: (a :: rest) ++ [tl] = [hd] ++ a :: (rest ++ [tl]) := by simp
    rw [e, List.nodup_middle] at hnd
    exact (List.nodup_cons.mp hnd).2
  have hnehd : ∀ c ∈ a :: rest ++ [tl], c ≠ hd := by
    intro c hc heq
    subst heq
    exact (List.nodup_cons.mp hnd).1 hc
  have hna : ∀ c ∈ rest ++ [tl], c ≠ a := by
    intro c hc heq
    subst heq
    exact (List.nodup_cons.mp (List.nodup_cons.mp hnd).2).1 hc
  obtain ⟨n1, d1, -, dn1, -⟩ := deref_ok dll.nodes hd (hlt hd (by simp))
  obtain ⟨n2, d2, dp2, dn2, -⟩ := deref_ok dll.nodes a (hlt a (by simp))
  rw [hseg.1] at dn1
  rw [hseg.2.1] at dp2
  have hvals : ∀ nodes1 : List (Node T), (∀ b, valueOf nodes1 b = valueOf dll.nodes b) →
      rest.map (valueOf nodes1) = xs.map some := by
    intro nodes1 fv
    have hv := h.values
    simp only [List.map_cons, List.cons.injEq] at hv
    rw [← hv.2]
    exact List.map_congr_left fun c _ => fv c
  have hsz : dll.size - 1 = (xs.length : Int) := by
    have := h.size
    simp only [List.length_cons] at this
    push_cast at this
    omega
  cases rest with
  | nil =>
    have hs2 : nextOf dll.nodes a = some tl ∧ prevOf dll.nodes tl = some a := hseg.2.2
    rw [hs2.1] at dn2
    obtain ⟨nodes1, e1, l1, fn1, fp1, fv1⟩ := setNext_ok dll.nodes hd (some tl) (hlt hd (by simp))
    obtain ⟨nodes2, e2, l2, fp2, fn2, fv2⟩ := setPrev_ok nodes1 tl (some hd)
      (by rw [l1]; exact hlt tl (by simp))
    refine ⟨{ dll with nodes := nodes2, size := dll.size - 1 }, ?_, h.head, h.tail, ?_, hnd2,
      hvals nodes2 (fun b => by rw [fv2, fv1]), hsz⟩
    · unfold RemoveFront removeNode
      rw [if_neg hsize]
      simp only [h.head, d1, dn1, d2, dp2, dn2, e1, e2, bind, Except.bind]
    · show nextOf nodes2 hd = some tl ∧ prevOf nodes2 tl = some hd
      rw [fn2, fn1, fp2, if_pos rfl, if_pos rfl]
      exact ⟨rfl, rfl⟩
  | cons b rest1 =>
    have hs2 : nextOf dll.nodes a = some b ∧ prevOf dll.nodes b = some a ∧
        Seg dll.nodes b rest1 tl := hseg.2.2
    rw [hs2.1] at dn2
    obtain ⟨nodes1, e1, l1, fn1, fp1, fv1⟩ := setNext_ok dll.nodes hd (some b) (hlt hd (by simp))
    obtain ⟨nodes2, e2, l2, fp2, fn2, fv2⟩ := setPrev_ok nodes1 b (some hd)
      (by rw [l1]; exact hlt b (by simp))
    refine ⟨{ dll with nodes := nodes2, size := dll.size - 1 }, ?_, h.head, h.tail, ?_, hnd2,
      hvals nodes2 (fun c => by rw [fv2, fv1]), hsz⟩
    · unfold RemoveFront removeNode
      rw [if_neg hsize]
      simp only [h.head, d1, dn1, d2, dp2, dn2, e1, e2, bind, Except.bind]
    · show nextOf nodes2 hd = some b ∧ prevOf nodes2 b = some hd ∧ Seg nodes2 b rest1 tl
      refine ⟨by rw [fn2, fn1, if_pos rfl], by rw [fp2, if_pos rfl], ?_⟩
      apply seg_frame dll.nodes nodes2 tl rest1 b hs2.2.2
      · intro c hc
        rw [fn2, fn1, if_neg (hnehd c (by simp at hc ⊢; tauto))]
      · intro c hc
        have hcb : c ≠ b := by
          intro heq
          subst heq
          have hnd3 := (List.nodup_cons.mp (List.nodup_cons.mp hnd).2).2
          exact (List.nodup_cons.mp hnd3).1 hc
        rw [fp2, if_neg hcb, fp1]

/-! ## The list built by New without elements -/

theorem new_holds [Inhabited T] [DecidableEq T] :
    ∃ dll, New ([] : List T) = .ok dll ∧ Holds dll 0 1 [] [] :=
  ⟨_, rfl, rfl, rfl, ⟨rfl, rfl⟩, by decide, rfl, rfl⟩

end DL

namespace LQ

variable {T : Type}

/-! ## The queue is first in, first out -/

theorem enqueueAll_holds (hd tl : Nat) :
    ∀ (ys : List T) (q : Queue T) (addrs : List Nat) (xs : List T),
      DL.Holds q.container hd tl addrs xs →
      ∃ q1 addrs1, enqueueAll q ys = .ok q1 ∧ DL.Holds q1.container hd tl addrs1 (xs ++ ys) := by
  intro ys
  induction ys with
  | nil =>
    intro q addrs xs h
    exact ⟨q, addrs, rfl, by rw [List.append_nil]; exact h⟩
  | cons y rest ih =>
    intro q addrs xs h
    obtain ⟨dll1, e1, h1⟩ := DL.add_holds q.container hd tl addrs xs h y
    obtain ⟨q2, addrs2, e2, h2⟩ := ih { container := dll1 } _ _ h1
    refine ⟨q2, addrs2, ?_, by rw [List.append_cons]; exact h2⟩
    unfold enqueueAll Enqueue
    simp only [e1, bind, Except.bind]
    exact e2

theorem drain_holds (hd tl : Nat) :
    ∀ (n : Nat) (q : Queue T) (addrs : List Nat) (xs : List T),
      DL.Holds q.container hd tl addrs xs → n ≤ xs.length →
      ∃ pairs q1 addrs1, drain n q = .ok (pairs, q1) ∧
        pairs.map Prod.snd = xs.take n ∧
        pairs.map Prod.fst = (List.range n).map (fun i : Nat => (xs.length : Int) - (i : Int)) ∧
        DL.Holds q1.container hd tl addrs1 (xs.drop n) := by
  intro n
  induction n with
  | zero =>
    intro q addrs xs h _
    exact ⟨[], q, addrs, rfl, rfl, rfl, h⟩
  | succ n ih =>
    intro q addrs xs h hn
    cases xs with
    | nil => simp at hn
    | cons x rest =>
      obtain ⟨a, arest, ha⟩ := DL.holds_cons q.container hd tl addrs x rest h
      subst ha
      have hne : DL.Empty q.container = false := by
        have := h.size
        simp only [List.length_cons] at this
        push_cast at this
        simp only [DL.Empty, decide_eq_false_iff_not]
        omega
      have hpeek : Peek q = .ok x := by
        unfold Peek
        rw [hne]
        exact DL.front_holds q.container hd tl a arest x rest h
      obtain ⟨dll1, e1, h1⟩ := DL.removeFront_holds q.container hd tl a arest x rest h
      have hdeq : Dequeue q = .ok { container := dll1 } := by
        unfold Dequeue
        rw [hne]
        simp only [e1, bind, Except.bind]
        rfl
      obtain ⟨pairs, q2, addrs2, e2, hs, hf, h2⟩ := ih { container := dll1 } arest rest h1
        (by simpa using hn)
      refine ⟨(Size q, x) :: pairs, q2, addrs2, ?_, ?_, ?_, h2⟩
      · unfold drain
        simp only [hpeek, hdeq, e2, bind, Except.bind]
      · simp only [List.map_cons, List.take_succ_cons, hs]
      · have hsz : Size q = ((x :: rest).length : Int) := h.size
        rw [List.range_succ_eq_map, List.map_cons, List.map_cons, List.map_map, hf, hsz]
        congr 1
        apply List.map_congr_left
        intro i _
        simp only [Function.comp, List.length_cons]
        push_cast
        omega

/-! ## The claim about the linked-list queue -/

/-- C32 (Linked-list queue is FIFO): for every sequence `xs` enqueued into the
empty queue `New()`, every call returns, `Size()` is then the length of `xs`,
and reading `Size()` and `Peek()` and calling `Dequeue()` `n` times, for any
`n` up to that length, returns the first `n` elements of `xs` in the order in
which they were enqueued, `Size()` being the number of elements not yet
dequeued at every step and at the end. -/
theorem C32_linked_queue_fifo [Inhabited T] [DecidableEq T] (xs : List T) (n : Nat)
    (hn : n ≤ xs.length) :
    ∃ q0 q pairs q1, New ([] : List T) = .ok q0 ∧ Size q0 = 0 ∧ enqueueAll q0 xs = .ok q ∧
      Size q = xs.length ∧ drain n q = .ok (pairs, q1) ∧
      pairs.map Prod.snd = xs.take n ∧
      pairs.map Prod.fst = (List.range n).map (fun i : Nat => (xs.length : Int) - (i : Int)) ∧
      Size q1 = (xs.length : Int) - (n : Int) := by
  obtain ⟨dll, e0, h0⟩ := DL.new_holds (T := T)
  obtain ⟨q, addrs, e1, h1⟩ := enqueueAll_holds 0 1 xs { container := dll } [] [] h0
  rw [List.nil_append] at h1
  obtain ⟨pairs, q1, addrs1, e2, hs, hf, h2⟩ := drain_holds 0 1 n q addrs xs h1 hn
  refine ⟨{ container := dll }, q, pairs, q1, ?_, h0.size, e1, h1.size, e2, hs, hf, ?_⟩
  · unfold New
    simp only [e0, bind, Except.bind]
  · have := h2.size
    rw [List.length_drop] at this
    show q1.container.size = _
    rw [this]
    omega

/-- Witness of C32 on the elements of `Test_EnqueueShouldAddGivenValueToBackOfQueue`:
after `Enqueue(10)`, `Enqueue(16)` and `Enqueue(14)`, three rounds of `Size()`,
`Peek()` and `Dequeue()` read the sizes 3, 2, 1 and the elements 10, 16, 14. -/
theorem C32_linked_queue_fifo_witness :
    2 ≤ ([10, 16, 14] : List Int).length ∧
    (∃ q0 q pairs q1, New ([] : List Int) = .ok q0 ∧ Size q0 = 0 ∧
      enqueueAll q0 [10, 16, 14] = .ok q ∧ Size q = ([10, 16, 14] : List Int).length ∧
      drain 2 q = .ok (pairs, q1) ∧ pairs.map Prod.snd = ([10, 16, 14] : List Int).take 2 ∧
      pairs.map Prod.fst =
        (List.range 2).map (fun i : Nat => (([10, 16, 14] : List Int).length : Int) - (i : Int)) ∧
      Size q1 = (([10, 16, 14] : List Int).length : Int) - ((2 : Nat) : Int)) ∧
    (∃ q0 q r, New ([] : List Int) = .ok q0 ∧ enqueueAll q0 [10, 16, 14] = .ok q ∧
      drain 3 q = .ok r ∧ r.1 = [(3, 10), (2, 16), (1, 14)] ∧ Size r.2 = 0 ∧
      Peek r.2 = .error "Queue.Peek failed because queue is empty") :=
  ⟨by decide, C32_linked_queue_fifo [10, 16, 14] 2 (by decide),
    ⟨_, _, _, rfl, rfl, rfl, by decide, by decide, rfl⟩⟩

end LQ
